import Mathlib

/-!
# Verification of the MD-Hackathon clinical-note sectionizer and text cleaner

This file gives a shallow embedding, over `List Char`, of the text-processing
core of the repository:

* `RobustSectionizer` — `RobustDischargeNoteSectionizer.extract_sections` and
  `clean_text` from `src/data_preprocessing/preprocess_discharge_notes.py`;
* `DSectionizer` — `DischargeNoteSectionizer.extract_sections` and its
  fallback from `src/src/sectionizer.py` (regex patterns embedded as a small
  backtracking matcher with Python `re` semantics);
* `Clean2` — `clean_text` from
  `src/data_preprocessing/process_single_patient.py`;
* `ModelClient` — the error dispatch of `HuggingFaceClient.call_llm` from
  `src/src/model_client.py`.

Python strings are modelled as `List Char`; `re.IGNORECASE` is ASCII
case-folding; `\s` and `str.strip()` use Python's whitespace set
`" \t\n\r\x0b\x0c"`.  The source file of `clean_text` literally contains the
three-character mojibake sequences `‚Äî` and `‚Äì` (bytes E2 80 9A C3 84 C3 AE
/ AC), so the "em dash" replacement is a three-character sequence replace.
-/

namespace MDH

abbrev Text := List Char

/-- ASCII lower-casing, the effect of Python `str.lower` / `re.IGNORECASE`
on the ASCII characters that occur in the header literals. -/
def pyLower (c : Char) : Char :=
  if 'A' ≤ c ∧ c ≤ 'Z' then Char.ofNat (c.toNat + 32) else c

/-- Python's whitespace set for `str.strip()` and regex `\s` (ASCII range). -/
def pyIsSpace (c : Char) : Bool :=
  c = ' ' ∨ c = '\t' ∨ c = '\n' ∨ c = '\r' ∨ c = '\x0b' ∨ c = '\x0c'

/-- Case-insensitive test that `lit` is a leading segment of `s`. -/
def ciHead : Text → Text → Bool
  | [], _ => true
  | _ :: _, [] => false
  | l :: ls, c :: cs => (pyLower l == pyLower c) && ciHead ls cs

/-- Python `str.strip()`: drop leading and trailing whitespace. -/
def pyStrip (l : Text) : Text :=
  ((l.dropWhile pyIsSpace).reverse.dropWhile pyIsSpace).reverse

/-- Scanner for `findAllCI`: while `skip` is positive the scanner is inside
an already-reported match and does not test for a new one (Python `finditer`
resumes after each match, reporting non-overlapping occurrences). -/
def findAllGo (lit : Text) : Nat → Text → Nat → List (Nat × Nat)
  | _, [], _ => []
  | Nat.succ skip, _ :: cs, i => findAllGo lit skip cs (i + 1)
  | 0, c :: cs, i =>
    if ciHead lit (c :: cs) then
      (i, i + lit.length) :: findAllGo lit (lit.length - 1) cs (i + 1)
    else
      findAllGo lit 0 cs (i + 1)

/-- All matches of the literal `lit` (case-insensitively) in `t`, `i` being
the absolute offset of the scanned suffix: the behaviour of
`re.finditer(re.escape(lit), text, re.IGNORECASE)`.  Returns
`(start, end)` pairs. -/
def findAllCI (lit : Text) (t : Text) (i : Nat) : List (Nat × Nat) :=
  findAllGo lit 0 t i

/-- First case-insensitive occurrence of `lit` at or after the scanned
suffix (absolute offset `i`): the behaviour of `re.search` for an escaped
literal. -/
def searchCI (lit : Text) : Text → Nat → Option Nat
  | [], _ => none
  | c :: cs, i => if ciHead lit (c :: cs) then some i else searchCI lit cs (i + 1)

namespace RobustSectionizer

/-- `RobustDischargeNoteSectionizer.SECTION_HEADERS`. -/
def SECTION_HEADERS : List Text :=
  [ "Allergies:".toList,
    "Attending:".toList,
    "Chief Complaint:".toList,
    "History of Present Illness:".toList,
    "Past Medical History:".toList,
    "Social History:".toList,
    "Family History:".toList,
    "Physical Exam:".toList,
    "Pertinent Results:".toList,
    "Brief Hospital Course:".toList,
    "Hospital Course:".toList,
    "Discharge Medications:".toList,
    "Medications on Admission:".toList,
    "Discharge Diagnosis:".toList,
    "Discharge Diagnoses:".toList,
    "Discharge Instructions:".toList,
    "Follow-up:".toList,
    "Followup:".toList,
    "Follow Up:".toList,
    "Pending Tests:".toList,
    "Diet:".toList,
    "Activity:".toList ]

/-- `RobustDischargeNoteSectionizer.STANDARD_SECTIONS`. -/
def STANDARD_SECTIONS : List (String × List Text) :=
  [ ("Allergies", ["Allergies:".toList]),
    ("Chief Complaint", ["Chief Complaint:".toList]),
    ("History of Present Illness", ["History of Present Illness:".toList]),
    ("Past Medical History", ["Past Medical History:".toList]),
    ("Physical Exam", ["Physical Exam:".toList]),
    ("Pertinent Results", ["Pertinent Results:".toList]),
    ("Hospital Course", ["Brief Hospital Course:".toList, "Hospital Course:".toList]),
    ("Discharge Medications", ["Discharge Medications:".toList]),
    ("Discharge Diagnosis", ["Discharge Diagnosis:".toList, "Discharge Diagnoses:".toList]),
    ("Discharge Instructions", ["Discharge Instructions:".toList]),
    ("Follow-up", ["Follow-up:".toList, "Followup:".toList, "Follow Up:".toList]),
    ("Pending Tests", ["Pending Tests:".toList]),
    ("Diet/Activity", ["Diet:".toList, "Activity:".toList]) ]

/-- The `header_to_section` dictionary: lower-cased header variant ↦ standard
section name. -/
def headerMapPairs : List (Text × String) :=
  (STANDARD_SECTIONS.map fun p => p.2.map fun h => (h.map pyLower, p.1)).flatten

/-- `header_to_section.get(header.lower(), None)`. -/
def headerToSection (h : Text) : Option String :=
  (headerMapPairs.find? fun p => p.1 = h.map pyLower).map Prod.snd

/-- `sections` dictionary as initialised in `extract_sections`, in insertion
order. -/
def initSections : List (String × Text) :=
  [ ("Allergies", []),
    ("Chief Complaint", []),
    ("History of Present Illness", []),
    ("Past Medical History", []),
    ("Physical Exam", []),
    ("Pertinent Results", []),
    ("Hospital Course", []),
    ("Discharge Medications", []),
    ("Discharge Diagnosis", []),
    ("Discharge Instructions", []),
    ("Follow-up", []),
    ("Pending Tests", []),
    ("Diet/Activity", []) ]

/-- The declared content-section key set of the discharge note type. -/
def sectionKeys : List String := initSections.map Prod.fst

/-- Stable insertion (new element goes after existing elements with the same
or smaller start offset), matching Python's stable `list.sort(key=x[0])`. -/
def insertByStart (x : Nat × Nat × Text) : List (Nat × Nat × Text) → List (Nat × Nat × Text)
  | [] => [x]
  | y :: ys => if y.1 ≤ x.1 then y :: insertByStart x ys else x :: y :: ys

/-- All header matches `(start, end, header)` over all `SECTION_HEADERS`,
collected per header, then stably sorted by start offset. -/
def rawHeaderMatches (t : Text) : List (Nat × Nat × Text) :=
  (SECTION_HEADERS.map fun h => (findAllCI h t 0).map fun p => (p.1, p.2, h)).flatten

/-- `header_positions` after `header_positions.sort(key=lambda x: x[0])`. -/
def headerPositions (t : Text) : List (Nat × Nat × Text) :=
  (rawHeaderMatches t).foldl (fun acc x => insertByStart x acc) []

/-- The literals from the regex
`\n\s*(?:Chief Complaint|History of Present Illness|Past Medical History|Physical Exam|Hospital Course|Discharge)`
in the special allergy handling. -/
def nsLits : List Text :=
  [ "Chief Complaint".toList,
    "History of Present Illness".toList,
    "Past Medical History".toList,
    "Physical Exam".toList,
    "Hospital Course".toList,
    "Discharge".toList ]

/-- `\s*(?:…alternatives…)` matches somewhere at the head of `l`:
zero or more whitespace characters followed by one of `nsLits`
(case-insensitively). -/
def nsAfter : Text → Bool
  | [] => false
  | c :: cs => nsLits.any (fun lit => ciHead lit (c :: cs)) || (pyIsSpace c && nsAfter cs)

/-- `re.search` of the allergy next-section regex: the least offset at which
`\n\s*(?:…)` matches (a newline, optional whitespace, then one of the six
literals, case-insensitively). -/
def nsSearch : Text → Nat → Option Nat
  | [], _ => none
  | c :: cs, i => if c = '\n' && nsAfter cs then some i else nsSearch cs (i + 1)

/-- The special handling for the `Allergies:` slice: truncate at
`Attending:` if present, then at the first embedded next-section pattern,
re-stripping after each cut. -/
def allergyTrunc (x : Text) : Text :=
  let x1 := match searchCI "Attending:".toList x 0 with
    | some p => pyStrip (x.take p)
    | none => x
  match nsSearch x1 0 with
    | some p => pyStrip (x1.take p)
    | none => x1

/-- The blank-line separator used when a section receives a second slice. -/
def nlnl : Text := ['\n', '\n']

/-- `sections[name] = text` / append with a blank line when already
non-empty: the accumulation step of `extract_sections`. -/
def updateSec : List (String × Text) → String → Text → List (String × Text)
  | [], _, _ => []
  | (k, v) :: rest, name, txt =>
    if k = name then
      (k, if v.isEmpty then txt else v ++ nlnl ++ txt) :: rest
    else
      (k, v) :: updateSec rest name txt

/-- The slice text for a match whose header span ends at `e` when the next
match starts at `nextStart` (Python `note_text[end:next_start].strip()`,
empty when `end > next_start`), with the allergy special-casing applied. -/
def sliceText (t : Text) (e nextStart : Nat) (h : Text) : Text :=
  let raw := pyStrip ((t.drop e).take (nextStart - e))
  if h.map pyLower = "allergies:".toList then allergyTrunc raw else raw

/-- The main extraction loop over the sorted header positions. -/
def extractGo (t : Text) : List (Nat × Nat × Text) → List (String × Text) → List (String × Text)
  | [], secs => secs
  | (_, e, h) :: rest, secs =>
    let nextStart := match rest with
      | [] => t.length
      | (s2, _, _) :: _ => s2
    let txt := sliceText t e nextStart h
    match headerToSection h with
    | none => extractGo t rest secs
    | some name => extractGo t rest (updateSec secs name txt)

/-- `RobustDischargeNoteSectionizer.extract_sections`. -/
def extract_sections (t : Text) : List (String × Text) :=
  extractGo t (headerPositions t) initSections

/-- The slices the extraction loop feeds into the section map, in document
order: one `(standard name, slice text)` pair per match whose header has a
standard-section mapping.  Matches without a mapping (pure boundary
markers) emit nothing, but still cap the preceding slice via `nextStart`. -/
def sliceList (t : Text) : List (Nat × Nat × Text) → List (String × Text)
  | [] => []
  | (_, e, h) :: rest =>
    let nextStart := match rest with
      | [] => t.length
      | (s2, _, _) :: _ => s2
    let txt := sliceText t e nextStart h
    match headerToSection h with
    | none => sliceList t rest
    | some name => (name, txt) :: sliceList t rest

/-- The slice texts attributed to one standard section, in document order. -/
def sliceValues (t : Text) (name : String) : List Text :=
  (sliceList t (headerPositions t)).filterMap fun p =>
    if p.1 = name then some p.2 else none

/-- The accumulation of slice texts into one section value: assign when the
accumulator is empty, otherwise append after a blank line. -/
def joinStep (v txt : Text) : Text :=
  if v.isEmpty then txt else v ++ nlnl ++ txt

/-- The value a section ends up with, given its slice texts in document
order. -/
def joinSlices (vs : List Text) : Text := vs.foldl joinStep []

end RobustSectionizer

/-! ## The `sectionizer.py` discharge sectionizer

`DischargeNoteSectionizer` matches dynamically-built regular expressions.
The patterns only use case-insensitive literals, optional/starred/plus-ed
character classes and two-way literal alternation, so they are embedded as
sequences over a small pattern type with a complete backtracking matcher
(`matchSeq`), which reproduces Python `re` semantics: greedy quantifiers
with backtracking, alternatives tried left to right. -/

/-- One element of an embedded regex sequence. -/
inductive RE where
  | lit (s : Text)
  | one (p : Char → Bool)
  | opt (p : Char → Bool)
  | star (p : Char → Bool)
  | plus (p : Char → Bool)
  | alt2 (a b : Text)

/-- The class `\s`. -/
def wsC : Char → Bool := pyIsSpace

/-- The class `[:\s]`. -/
def colwsC (c : Char) : Bool := c = ':' || pyIsSpace c

/-- The class `[-\s]`. -/
def dashwsC (c : Char) : Bool := c = '-' || pyIsSpace c

/-- The character `s` under `re.IGNORECASE`. -/
def sC (c : Char) : Bool := pyLower c = 's'

/-- ASCII letter: the classes `[A-Z]` and `[a-z]` under `re.IGNORECASE`. -/
def letterC (c : Char) : Bool := ('a' ≤ pyLower c ∧ pyLower c ≤ 'z' : Bool)

/-- Length of the maximal run of characters of class `p` at the head. -/
def reRun (p : Char → Bool) : Text → Nat
  | [] => 0
  | c :: cs => if p c then reRun p cs + 1 else 0

/-- Greedy backtracking for a starred class: try consuming `n` characters,
then `n - 1`, … down to `0`, returning the total consumed length of the
first success. -/
def tryGreedy (k : Text → Option Nat) (s : Text) : Nat → Option Nat
  | 0 => k s
  | Nat.succ n =>
    match k (s.drop (n + 1)) with
    | some m => some (m + (n + 1))
    | none => tryGreedy k s n

/-- Complete backtracking matcher: `matchSeq ps s = some n` iff the pattern
sequence `ps` matches a prefix of `s`, and `n` is the length Python's `re`
engine reports (greedy quantifiers, leftmost alternatives, backtracking). -/
def matchSeq : List RE → Text → Option Nat
  | [], _ => some 0
  | RE.lit l :: rest, s =>
    if ciHead l s then (matchSeq rest (s.drop l.length)).map (· + l.length) else none
  | RE.one p :: rest, s =>
    match s with
    | [] => none
    | c :: cs => if p c then (matchSeq rest cs).map (· + 1) else none
  | RE.opt p :: rest, s =>
    match s with
    | [] => matchSeq rest []
    | c :: cs =>
      if p c then
        match matchSeq rest cs with
        | some m => some (m + 1)
        | none => matchSeq rest (c :: cs)
      else matchSeq rest (c :: cs)
  | RE.star p :: rest, s => tryGreedy (matchSeq rest) s (reRun p s)
  | RE.plus p :: rest, s =>
    match s with
    | [] => none
    | c :: cs =>
      if p c then (tryGreedy (matchSeq rest) cs (reRun p cs)).map (· + 1) else none
  | RE.alt2 a b :: rest, s =>
    if ciHead a s then
      match matchSeq rest (s.drop a.length) with
      | some m => some (m + a.length)
      | none =>
        if ciHead b s then (matchSeq rest (s.drop b.length)).map (· + b.length) else none
    else
      if ciHead b s then (matchSeq rest (s.drop b.length)).map (· + b.length) else none

/-- `re.finditer` scanner for an embedded pattern: test a match at every
position, left to right, resuming after the end of each (non-empty)
match. -/
def reFindGo (pat : List RE) : Nat → Text → Nat → List (Nat × Nat)
  | _, [], _ => []
  | Nat.succ skip, _ :: cs, i => reFindGo pat skip cs (i + 1)
  | 0, c :: cs, i =>
    match matchSeq pat (c :: cs) with
    | some m => (i, i + m) :: reFindGo pat (m - 1) cs (i + 1)
    | none => reFindGo pat 0 cs (i + 1)

/-- All matches `(start, end)` of an embedded pattern in `t`. -/
def reFindAll (pat : List RE) (t : Text) : List (Nat × Nat) :=
  reFindGo pat 0 t 0

namespace DSectionizer

/-- `DischargeNoteSectionizer.SECTION_PATTERNS`, in dictionary order, each
regex as an embedded pattern sequence. -/
def SECTION_PATTERNS : List (String × List (List RE)) :=
  [ ("Allergies",
      [ [RE.lit "Allergie".toList, RE.opt sC, RE.star colwsC, RE.lit ['\n']],
        [RE.lit "Allergie".toList, RE.opt sC, RE.star wsC, RE.lit ['/'], RE.star wsC,
          RE.lit "Adverse".toList, RE.plus wsC, RE.lit "Drug".toList, RE.plus wsC,
          RE.lit "Reactions".toList, RE.star colwsC, RE.lit ['\n']] ]),
    ("Discharge Diagnosis",
      [ [RE.lit "Discharge".toList, RE.plus wsC, RE.lit "Diagnos".toList,
          RE.alt2 "is".toList "es".toList, RE.star colwsC, RE.lit ['\n']],
        [RE.lit "Discharge".toList, RE.plus wsC, RE.lit "Diagnosis".toList,
          RE.star colwsC, RE.lit ['\n']] ]),
    ("Hospital Course",
      [ [RE.lit "Hospital".toList, RE.plus wsC, RE.lit "Course".toList,
          RE.star colwsC, RE.lit ['\n']] ]),
    ("Discharge Medications",
      [ [RE.lit "Discharge".toList, RE.plus wsC, RE.lit "Medication".toList, RE.opt sC,
          RE.star colwsC, RE.lit ['\n']],
        [RE.lit "Discharge".toList, RE.plus wsC, RE.lit "Medication".toList,
          RE.star colwsC, RE.lit ['\n']] ]),
    ("Follow-up",
      [ [RE.lit "Follow".toList, RE.opt dashwsC, RE.lit "up".toList,
          RE.star colwsC, RE.lit ['\n']],
        [RE.lit "Followup".toList, RE.star colwsC, RE.lit ['\n']],
        [RE.lit "Follow".toList, RE.opt dashwsC, RE.lit "Up".toList,
          RE.star colwsC, RE.lit ['\n']] ]),
    ("Pending Tests",
      [ [RE.lit "Pending".toList, RE.plus wsC, RE.lit "Test".toList, RE.opt sC,
          RE.star colwsC, RE.lit ['\n']],
        [RE.lit "Pending".toList, RE.plus wsC, RE.lit "Test".toList,
          RE.star colwsC, RE.lit ['\n']] ]),
    ("Diet/Activity",
      [ [RE.lit "Diet".toList, RE.star colwsC, RE.lit ['\n']],
        [RE.lit "Activity".toList, RE.star colwsC, RE.lit ['\n']],
        [RE.lit "Discharge".toList, RE.plus wsC, RE.lit "Instruction".toList, RE.opt sC,
          RE.star colwsC, RE.lit ['\n']] ]) ]

/-- The `standard_names` dictionary of `_map_section_name`. -/
def standardNames : List (String × String) :=
  [ ("Allergies", "Allergies"),
    ("Discharge Diagnosis", "Diagnoses"),
    ("Hospital Course", "Hospital Course"),
    ("Discharge Medications", "Discharge Medications"),
    ("Follow-up", "Follow-up"),
    ("Pending Tests", "Pending Tests"),
    ("Diet/Activity", "Diet/Activity") ]

/-- `DischargeNoteSectionizer.SECTION_MAPPING`. -/
def SECTION_MAPPING : List (String × String) :=
  [ ("Diagnoses", "Discharge Diagnosis"),
    ("Medications", "Discharge Medications"),
    ("Followup", "Follow-up"),
    ("Follow Up", "Follow-up"),
    ("Discharge Instructions", "Diet/Activity") ]

/-- `DischargeNoteSectionizer._map_section_name`. -/
def mapSectionName (n : String) : String :=
  match standardNames.lookup n with
  | some m => m
  | none =>
    match SECTION_MAPPING.lookup n with
    | some mapped => (standardNames.lookup mapped).getD n
    | none => n

/-- The boundary-location pass of `extract_sections`, kept as full matches:
one `BoundaryMatch` `(start, end, standard name)` is appended per pattern
per `finditer` occurrence, in dictionary-then-pattern order. -/
def boundaryMatches (t : Text) : List (Nat × Nat × String) :=
  (SECTION_PATTERNS.map fun p =>
    (p.2.map fun pat =>
      (reFindAll pat t).map fun m => (m.1, m.2, mapSectionName p.1)).flatten).flatten

/-- Stable insertion by the first component, as in `insertByStart`. -/
def insertByPos (x : Nat × String) : List (Nat × String) → List (Nat × String)
  | [] => [x]
  | y :: ys => if y.1 ≤ x.1 then y :: insertByPos x ys else x :: y :: ys

/-- `section_boundaries` after the stable sort by position: the code keeps
only `(match.end(), standard name)` of each boundary match. -/
def section_boundaries (t : Text) : List (Nat × String) :=
  ((boundaryMatches t).map fun m => (m.2.1, m.2.2)).foldl
    (fun acc x => insertByPos x acc) []

/-- The group alternatives of the embedded-header truncation regex
`\n(?:Discharge\s+(?:Diagnos|Medication|Instruction)|Hospital\s+Course|Follow[-\s]?up|Allergies?|Pending\s+Test|Diet|Activity)[:\s]*\n`. -/
def trOptions : List (List RE) :=
  [ [RE.lit "Discharge".toList, RE.plus wsC, RE.lit "Diagnos".toList],
    [RE.lit "Discharge".toList, RE.plus wsC, RE.lit "Medication".toList],
    [RE.lit "Discharge".toList, RE.plus wsC, RE.lit "Instruction".toList],
    [RE.lit "Hospital".toList, RE.plus wsC, RE.lit "Course".toList],
    [RE.lit "Follow".toList, RE.opt dashwsC, RE.lit "up".toList],
    [RE.lit "Allergie".toList, RE.opt sC],
    [RE.lit "Pending".toList, RE.plus wsC, RE.lit "Test".toList],
    [RE.lit "Diet".toList],
    [RE.lit "Activity".toList] ]

/-- `re.search` start offset of the truncation regex: least position holding
a newline followed by one of the alternatives and `[:\s]*\n`. -/
def trSearch : Text → Nat → Option Nat
  | [], _ => none
  | c :: cs, i =>
    if c = '\n' &&
        trOptions.any (fun o =>
          (matchSeq (o ++ [RE.star colwsC, RE.lit ['\n']]) cs).isSome) then
      some i
    else trSearch cs (i + 1)

/-- `sections` dictionary of `DischargeNoteSectionizer`, in insertion
order. -/
def dInit : List (String × Text) :=
  [ ("Diagnoses", []),
    ("Hospital Course", []),
    ("Discharge Medications", []),
    ("Follow-up", []),
    ("Allergies", []),
    ("Pending Tests", []),
    ("Diet/Activity", []) ]

/-- The primary extraction loop: slice from each boundary position to the
next, strip, truncate at an embedded header, and accumulate (append after a
blank line on repeats). -/
def dExtractGo (t : Text) : List (Nat × String) → List (String × Text) → List (String × Text)
  | [], secs => secs
  | (pos, name) :: rest, secs =>
    let endPos := match rest with
      | [] => t.length
      | (p2, _) :: _ => p2
    let raw := pyStrip ((t.drop pos).take (endPos - pos))
    let txt := match trSearch raw 0 with
      | some p => pyStrip (raw.take p)
      | none => raw
    dExtractGo t rest (RobustSectionizer.updateSec secs name txt)

/-- The primary (non-fallback) result of `extract_sections`. -/
def dPrimary (t : Text) : List (String × Text) :=
  dExtractGo t (section_boundaries t) dInit

/-- Python's `not any(sections.values())`. -/
def allValuesEmpty (secs : List (String × Text)) : Bool :=
  secs.all fun p => p.2.isEmpty

/-- The fallback trigger of `extract_sections`. -/
def usesFallback (t : Text) : Bool := allValuesEmpty (dPrimary t)

/-- The lookahead `(?=\n\n|\n[A-Z][a-z]+[:\s]*\n|$)` of the fallback
patterns, evaluated on the remaining suffix (`$` without `re.MULTILINE`
holds at the end of the text and just before a final newline). -/
def fbLookHdr (s : Text) : Bool :=
  ("\n\n".toList.isPrefixOf s) ||
    (match s with
      | '\n' :: rest =>
        (matchSeq [RE.one letterC, RE.plus letterC, RE.star colwsC, RE.lit ['\n']] rest).isSome
      | _ => false) ||
    s.isEmpty || s = ['\n']

/-- The lookahead `(?=\n\n|\nDischarge|$)` of the Hospital Course fallback
pattern. -/
def fbLookHC (s : Text) : Bool :=
  ("\n\n".toList.isPrefixOf s) || ciHead "\nDischarge".toList s || s.isEmpty || s = ['\n']

/-- The lazy group `(.*?)` under `re.DOTALL`: the shortest prefix whose
ending position satisfies the lookahead (the `$` alternative guarantees one
exists). -/
def fbLazy (look : Text → Bool) : Text → Text
  | [] => []
  | c :: cs => if look (c :: cs) then [] else c :: fbLazy look cs

/-- One fallback extraction: `re.search` of
`<header>(.*?)(?=<lookahead>)` with DOTALL — at the leftmost position where
the header matches, the (greedy) header match is followed by the shortest
group allowed by the lookahead. -/
def fbSearch (hdrPat : List RE) (look : Text → Bool) : Text → Option Text
  | [] => none
  | c :: cs =>
    match matchSeq hdrPat (c :: cs) with
    | some g => some (pyStrip (fbLazy look ((c :: cs).drop g)))
    | none => fbSearch hdrPat look cs

/-- `DischargeNoteSectionizer._extract_sections_fallback`. -/
def dFallback (t : Text) : List (String × Text) :=
  let al := fbSearch
    [RE.lit "Allergie".toList, RE.opt sC, RE.star colwsC, RE.lit ['\n']] fbLookHdr t
  let dg := fbSearch
    [RE.lit "Discharge".toList, RE.plus wsC, RE.lit "Diagnos".toList,
      RE.alt2 "is".toList "es".toList, RE.star colwsC, RE.lit ['\n']] fbLookHdr t
  let hc := fbSearch
    [RE.lit "Hospital".toList, RE.plus wsC, RE.lit "Course".toList,
      RE.star colwsC, RE.lit ['\n']] fbLookHC t
  let md := fbSearch
    [RE.lit "Discharge".toList, RE.plus wsC, RE.lit "Medication".toList, RE.opt sC,
      RE.star colwsC, RE.lit ['\n']] fbLookHdr t
  let fu := fbSearch
    [RE.lit "Follow".toList, RE.opt dashwsC, RE.lit "up".toList,
      RE.star colwsC, RE.lit ['\n']] fbLookHdr t
  [ ("Diagnoses", dg.getD []),
    ("Hospital Course", hc.getD []),
    ("Discharge Medications", md.getD []),
    ("Follow-up", fu.getD []),
    ("Allergies", al.getD []),
    ("Pending Tests", []),
    ("Diet/Activity", []) ]

/-- `DischargeNoteSectionizer.extract_sections`: the primary pass, replaced
by the fallback exactly when every primary section value is empty. -/
def extract_sections (t : Text) : List (String × Text) :=
  let secs := dPrimary t
  if allValuesEmpty secs then dFallback t else secs

end DSectionizer

/-- `pat` occurs contiguously somewhere in `l`. -/
def containsSeq (pat : Text) : Text → Bool
  | [] => pat.isEmpty
  | c :: cs => pat.isPrefixOf (c :: cs) || containsSeq pat cs

/-! ## Window predicates and the alignment relation

The idempotence proof for the basic cleaning profile characterises the
cleaned form by the absence of certain two- and three-character windows.
`Keeps out inp` says `out` arises from `inp` by keeping characters and
replacing disjoint non-empty chunks by single spaces — the common shape of
every replacement stage of `clean_text` — which is exactly what makes such
windows impossible to create. -/

/-- The first character of `l` satisfies `B`. -/
def firstIs (B : Char → Bool) : Text → Bool
  | a :: _ => B a
  | [] => false

/-- The first two characters of `l` are `q2` then `q3`. -/
def firstTwo (q2 q3 : Char) : Text → Bool
  | a :: b :: _ => a = q2 && b = q3
  | _ => false

/-- No two adjacent characters satisfy `A` then `B`. -/
def noPair (A B : Char → Bool) : Text → Bool
  | c :: cs => !(A c && firstIs B cs) && noPair A B cs
  | [] => true

/-- The three-character sequence `[q1, q2, q3]` does not occur. -/
def noTriple (q1 q2 q3 : Char) : Text → Bool
  | c :: cs => !(c = q1 && firstTwo q2 q3 cs) && noTriple q1 q2 q3 cs
  | [] => true

/-- The underscore class. -/
def uC (c : Char) : Bool := c = '_'

/-- Whitespace characters are only the plain space. -/
def wsOnlySp (c : Char) : Bool := !pyIsSpace c || c = ' '

/-- First character, if any, is not whitespace. -/
def headNonWs : Text → Bool
  | [] => true
  | c :: _ => !pyIsSpace c

/-- The cleaned normal form of the basic profile: no mojibake dash
sequence, no underscore run, all whitespace is a single isolated space, and
no leading or trailing whitespace. -/
def isCleanBasic (u : Text) : Bool :=
  noTriple '‚' 'Ä' 'î' u && noTriple '‚' 'Ä' 'ì' u && noPair uC uC u &&
    u.all wsOnlySp && noPair pyIsSpace pyIsSpace u &&
    headNonWs u && headNonWs u.reverse

/-- `Keeps out inp`: `out` is `inp` with disjoint non-empty chunks replaced
by single spaces. -/
inductive Keeps : Text → Text → Prop where
  | nil : Keeps [] []
  | keep (c : Char) {out inp : Text} : Keeps out inp → Keeps (c :: out) (c :: inp)
  | subst {out inp : Text} (chunk : Text) :
      chunk ≠ [] → Keeps out inp → Keeps (' ' :: out) (chunk ++ inp)

namespace ModelClient

/-- Outcome of the single `text_generation` call `call_llm` makes to the
inference collaborator (the `retry_count`/`retry_delay` parameters of the
source are unused: there is no retry loop and no sleep). -/
inductive ApiOutcome where
  | success (resp : Text)
  | failure (msg : Text)

/-- The payment-required message raised by `call_llm`. -/
def payMsg : Text := "API requires payment - free tier limit reached".toList

/-- The permission-denied message raised by `call_llm`. -/
def permMsg : Text :=
  "API permission denied - token needs Inference Providers permission".toList

/-- The `except` block of `call_llm`: substring tests on the lower-cased
exception text, payment first, then permission, then the generic wrapper. -/
def classify (e : Text) : Text :=
  let ls := e.map pyLower
  if containsSeq "402".toList ls || containsSeq "payment".toList ls then payMsg
  else if containsSeq "403".toList ls || containsSeq "forbidden".toList ls ||
      containsSeq "permission".toList ls then permMsg
  else "Failed to call Hugging Face API: ".toList ++ e

/-- The message of the empty-response exception raised inside the `try`
block: `type(response).__name__` is `str` after the `str()` conversion, and
`response_length` is the length of the raw response. -/
def emptyRespMsg (n : Nat) : Text :=
  "Empty response from LLM (type: str, length: ".toList ++ (Nat.repr n).toList ++
    ") - API call succeeded but model returned no output".toList

/-- `HuggingFaceClient.call_llm`, reduced to its result dispatch: a
non-empty response is stripped and returned; an empty or whitespace-only
response raises the empty-response exception inside the `try` block, so it
is classified by the same `except` block as any collaborator failure. -/
def call_llm : ApiOutcome → Except Text Text
  | .success resp =>
    if (pyStrip resp).isEmpty then .error (classify (emptyRespMsg resp.length))
    else .ok (pyStrip resp)
  | .failure msg => .error (classify msg)

end ModelClient

/-- Scenario A input. -/
def scenarioA : Text :=
  "Allergies:\nPenicillin\nAttending: Dr. Smith\nChief Complaint:\nChest pain\n".toList

/-- Scenario B input. -/
def scenarioB : Text :=
  "Brief Hospital Course:\nStable.\n\nHospital Course:\nImproved.\n".toList

/-- Scenario D input. -/
def scenarioD : Text := "Line1\r\nLine2___redacted___\n".toList

/-! ## Text cleaning

The cleaning stages are modelled as purely structural scanners (so that the
kernel can evaluate them): a run-collapsing scanner over a character class,
an underscore-run scanner with one-character lookbehind state, and a fixed
three-character sequence replacer. -/

/-- Python `str.replace(a, b)` for single characters: a character-wise map. -/
def charReplace (a b : Char) (t : Text) : Text :=
  t.map fun c => if c = a then b else c

/-- Python `str.replace(c, '')` for a single character: removal. -/
def charRemove (a : Char) (t : Text) : Text :=
  t.filter fun c => c ≠ a

/-- Scanner for run collapsing: each maximal run of characters satisfying
`p` becomes a single space.  `inRun` records whether the previous character
was part of a run. -/
def collapseRunsGo (p : Char → Bool) : Bool → Text → Text
  | _, [] => []
  | inRun, c :: cs =>
    if p c then
      if inRun then collapseRunsGo p true cs else ' ' :: collapseRunsGo p true cs
    else
      c :: collapseRunsGo p false cs

/-- `re.sub(r'\s+', ' ', ·)`: each maximal whitespace run becomes one
space. -/
def collapseWs (t : Text) : Text := collapseRunsGo pyIsSpace false t

/-- `re.sub(r' {2,}', ' ', ·)`: each maximal run of two or more spaces
becomes one space.  Since a single space is kept as itself, this is run
collapsing over the class `{' '}`. -/
def collapseSp2 (t : Text) : Text := collapseRunsGo (fun c => c = ' ') false t

/-- Pending-underscore state of the `_{2,}` scanner flushed at a run end:
`0` — nothing pending, `1` — a single underscore (kept), `2` — a run of two
or more underscores (replaced by `repl`). -/
def subUClose (repl : Text) (st : Nat) : Text :=
  if st = 0 then [] else if st = 1 then ['_'] else repl

/-- Scanner for `re.sub(r'_{2,}', repl, ·)`: accumulate the pending
underscore-run state, flushing it at each non-underscore character and at
the end of the text. -/
def subUGo (repl : Text) (st : Nat) : Text → Text
  | [] => subUClose repl st
  | c :: cs =>
    if c = '_' then subUGo repl (min (st + 1) 2) cs
    else subUClose repl st ++ c :: subUGo repl 0 cs

/-- `re.sub(r'_{2,}', repl, ·)`: each maximal run of two or more
underscores is replaced by `repl`; single underscores are kept. -/
def subUnders (repl : Text) (t : Text) : Text := subUGo repl 0 t

/-- Python `str.replace(pat, repl)` for a three-character literal
`[p1, p2, p3]`: leftmost non-overlapping occurrences, resuming after each
replacement. -/
def seqRepl3 (p1 p2 p3 : Char) (repl : Text) : Text → Text
  | c1 :: c2 :: c3 :: cs =>
    if c1 = p1 ∧ c2 = p2 ∧ c3 = p3 then
      repl ++ seqRepl3 p1 p2 p3 repl cs
    else
      c1 :: seqRepl3 p1 p2 p3 repl (c2 :: c3 :: cs)
  | l => l

/-- `RobustDischargeNoteSectionizer.clean_text`: newlines and carriage
returns to spaces, both dash sequences to spaces, underscore runs to a
space, whitespace runs collapsed, then stripped.  (The Python guard
`if not text: return ""` agrees with the pipeline on the empty string.) -/
def clean_text (t : Text) : Text :=
  pyStrip (collapseWs (subUnders [' '] (seqRepl3 '‚' 'Ä' 'ì' [' ']
    (seqRepl3 '‚' 'Ä' 'î' [' '] (charReplace '\r' ' ' (charReplace '\n' ' ' t))))))

/-- `clean_text` from `process_single_patient.py` (the stripping profile):
newlines and carriage returns to spaces, underscore runs removed, quotes,
colons and semicolons removed, space runs collapsed, then stripped. -/
def clean2 (t : Text) : Text :=
  pyStrip (collapseSp2 (charRemove ';' (charRemove ':' (charRemove '\''
    (charRemove '"' (subUnders [] (charReplace '\r' ' ' (charReplace '\n' ' ' t))))))))

/-! ## Definitions for the round-trip length accounting

The round-trip claim compares the cleaned length of the concatenated
non-empty section values with the cleaned length of the raw note.  The
accounting works through `preClean`, the cleaning pipeline without its
final strip, whose length is subadditive over concatenation, and through
scan-state decompositions of the run-collapsing scanners. -/

/-- The cleaning pipeline of the basic profile before its final strip. -/
def preClean (t : Text) : Text :=
  collapseWs (subUGo [' '] 0 (seqRepl3 '‚' 'Ä' 'ì' [' ']
    (seqRepl3 '‚' 'Ä' 'î' [' '] (charReplace '\r' ' ' (charReplace '\n' ' ' t)))))

/-- Whether the run-collapsing scanner is inside a run after reading a
text, starting from run state `b`. -/
def endRun (p : Char → Bool) (b : Bool) : Text → Bool
  | [] => b
  | c :: cs => endRun p (p c) cs

/-- Emitted core and final pending state of the underscore-run scanner:
`subUGo` is the core followed by the flush of the final state. -/
def subUScan (repl : Text) (st : Nat) : Text → Text × Nat
  | [] => ([], st)
  | c :: cs =>
    if c = '_' then subUScan repl (min (st + 1) 2) cs
    else
      (subUClose repl st ++ c :: (subUScan repl 0 cs).1, (subUScan repl 0 cs).2)

/-- Characters at which a suffix may begin without interacting with any
replacement run of the cleaning pipeline: not whitespace, not an
underscore, not a character of either mojibake dash sequence. -/
def hardC (c : Char) : Bool :=
  !pyIsSpace c && !(c = '_') && !(c = '‚') && !(c = 'Ä') && !(c = 'î') && !(c = 'ì')

/-- Characters allowed in a matched header occurrence: no newline or
carriage return, no underscore, no leading mojibake character, and any
whitespace is the plain space. -/
def okHdrChar (c : Char) : Bool :=
  !(c = '\n') && !(c = '\r') && !(c = '_') && !(c = '‚') && wsOnlySp c

namespace RobustSectionizer

/-- First-occurrence deduplication of a name list against a seen set. -/
def dedupNames : List String → List String → List String
  | _, [] => []
  | seen, n :: ns =>
    if seen.contains n then dedupNames seen ns else n :: dedupNames (n :: seen) ns

/-- The standard names receiving at least one slice, in document order. -/
def docOrderNames (t : Text) : List String :=
  dedupNames [] ((sliceList t (headerPositions t)).map Prod.fst)

/-- The non-empty section values of the result, in document order of their
sections, concatenated: the round-trip text of the claim. -/
def concatValues (t : Text) : Text :=
  (((docOrderNames t).map fun n =>
      ((extract_sections t).lookup n).getD []).filter fun v => !v.isEmpty).flatten

end RobustSectionizer

/-- The raw-side ledger: every non-empty slice accounts for its own
cleaned length plus five characters of its header occurrence. -/
def ledgerSum (l : List (String × Text)) : Nat :=
  (l.map fun p => if p.2.isEmpty then 0 else (clean_text p.2).length + 5).sum

/-- Pointwise equality of two texts after lower-casing: the relation
between a matched header occurrence and its catalogue literal. -/
def lowEq : Text → Text → Bool
  | [], [] => true
  | a :: as, b :: bs => (pyLower a == pyLower b) && lowEq as bs
  | _, _ => false

/-- Goodness of a header-literal character: its lower-cased form is not a
newline, carriage return, underscore or leading mojibake character, and if
it is whitespace it is the plain space. -/
def goodB (l : Char) : Bool :=
  !(pyLower l = '\n') && !(pyLower l = '\r') && !(pyLower l = '_') &&
    !(pyLower l = '‚') && (!pyIsSpace (pyLower l) || pyLower l = ' ')

/-- Header-literal characters whose case-insensitivity class is the plain
space. -/
def spC (l : Char) : Bool := pyLower l = ' '

/-- The decidable conjunction of catalogue-header facts the ledger uses:
length at least five, good characters, no adjacent space pair, a letter
first character, a non-whitespace last character. -/
def hdrGood (h : Text) : Bool :=
  decide (5 ≤ h.length) && h.all goodB && noPair spC spC h &&
    firstIs (fun b => decide ('a' ≤ pyLower b) && decide (pyLower b ≤ 'z')) h &&
    firstIs (fun b => !pyIsSpace (pyLower b)) h.reverse

/-- The cleaned-side cost of one slice value: its cleaned length plus four
junction characters when non-empty, nothing when empty. -/
def costOf (v : Text) : Nat := if v.isEmpty then 0 else (clean_text v).length + 4

/-- Total cleaned-side cost of a list of slice values. -/
def targetSum (l : List Text) : Nat := (l.map costOf).sum

/-! ## Theorems -/

namespace RobustSectionizer

theorem updateSec_keys (secs : List (String × Text)) (name : String) (txt : Text) :
    (updateSec secs name txt).map Prod.fst = secs.map Prod.fst := by
  induction secs with
  | nil => rfl
  | cons p rest ih =>
    obtain ⟨k, v⟩ := p
    by_cases h : k = name <;> simp [updateSec, h, ih]

theorem extractGo_keys (t : Text) :
    ∀ (ms : List (Nat × Nat × Text)) (secs : List (String × Text)),
      (extractGo t ms secs).map Prod.fst = secs.map Prod.fst
  | [], _ => rfl
  | (s, e, h) :: rest, secs => by
    simp only [extractGo]
    cases hh : headerToSection h with
    | none => simp only [hh]; exact extractGo_keys t rest secs
    | some name => simp only [hh]; rw [extractGo_keys t rest _, updateSec_keys]

theorem extractGo_eq_foldl (t : Text) :
    ∀ (ms : List (Nat × Nat × Text)) (secs : List (String × Text)),
      extractGo t ms secs =
        (sliceList t ms).foldl (fun acc p => updateSec acc p.1 p.2) secs
  | [], _ => rfl
  | (s, e, h) :: rest, secs => by
    simp only [extractGo, sliceList]
    cases hh : headerToSection h with
    | none => simp only [hh]; exact extractGo_eq_foldl t rest secs
    | some name => simp only [hh, List.foldl_cons]; exact extractGo_eq_foldl t rest _

theorem updateSec_lookup_self (name : String) (txt : Text) :
    ∀ secs : List (String × Text),
      (updateSec secs name txt).lookup name =
        (secs.lookup name).map fun v => joinStep v txt
  | [] => rfl
  | (k, v) :: rest => by
    by_cases h : k = name
    · subst h
      simp [updateSec, List.lookup, joinStep]
    · have hne : (name == k) = false := by
        simp [BEq.beq]
        exact fun e => h e.symm
      simp [updateSec, h, List.lookup, hne, updateSec_lookup_self name txt rest]

theorem updateSec_lookup_ne {k name : String} (h : ¬k = name) (txt : Text) :
    ∀ secs : List (String × Text),
      (updateSec secs name txt).lookup k = secs.lookup k
  | [] => rfl
  | (k', v) :: rest => by
    by_cases h' : k' = name
    · subst h'
      have hne : (k == k') = false := by
        simp [BEq.beq]; exact h
      simp [updateSec, List.lookup, hne]
    · by_cases hk : k = k'
      · subst hk
        simp [updateSec, h', List.lookup]
      · have hne : (k == k') = false := by simp [BEq.beq]; exact hk
        simp [updateSec, h', List.lookup, hne, updateSec_lookup_ne h txt rest]

theorem foldl_updateSec_lookup (name : String) :
    ∀ (l : List (String × Text)) (secs : List (String × Text)),
      ((l.foldl (fun acc p => updateSec acc p.1 p.2) secs).lookup name) =
        (secs.lookup name).map fun v =>
          (l.filterMap fun p => if p.1 = name then some p.2 else none).foldl joinStep v
  | [], secs => by simp
  | p :: l', secs => by
    rw [List.foldl_cons, foldl_updateSec_lookup name l' _]
    by_cases h : p.1 = name
    · rw [h, updateSec_lookup_self name p.2 secs]
      rw [Option.map_map]
      simp only [List.filterMap_cons, h, if_pos, List.foldl_cons]
      rfl
    · rw [updateSec_lookup_ne (fun e => h e.symm) p.2 secs]
      simp [h]

theorem lookup_all_nil {l : List (String × Text)} (hall : ∀ p ∈ l, p.2 = ([] : Text)) :
    ∀ {name : String} {v : Text}, l.lookup name = some v → v = [] := by
  induction l with
  | nil => intro name v h; cases h
  | cons p rest ih =>
    intro name v h
    rw [List.lookup] at h
    cases hk : (name == p.1) with
    | true =>
      rw [hk] at h
      cases h
      exact hall p (List.mem_cons_self p rest)
    | false =>
      rw [hk] at h
      exact ih (fun q hq => hall q (List.mem_cons_of_mem p hq)) h

theorem headerToSection_mem {h : Text} {name : String}
    (hh : headerToSection h = some name) : sectionKeys.contains name = true := by
  unfold headerToSection at hh
  cases hf : headerMapPairs.find? fun p => p.1 = h.map pyLower with
  | none => rw [hf] at hh; cases hh
  | some q =>
    rw [hf] at hh
    cases hh
    have hmem := List.mem_of_find?_eq_some hf
    have : ∀ p ∈ headerMapPairs, sectionKeys.contains p.2 = true := by decide
    exact this q hmem

theorem sliceList_all_keys (t : Text) :
    ∀ ms : List (Nat × Nat × Text),
      (sliceList t ms).all (fun p => sectionKeys.contains p.1) = true
  | [] => rfl
  | (s, e, h) :: rest => by
    simp only [sliceList]
    cases hh : headerToSection h with
    | none => simp only [hh]; exact sliceList_all_keys t rest
    | some name =>
      simp only [hh, List.all_cons, Bool.and_eq_true]
      exact ⟨headerToSection_mem hh, sliceList_all_keys t rest⟩

end RobustSectionizer

theorem noPair_tail {A B : Char → Bool} {c : Char} {cs : Text}
    (h : noPair A B (c :: cs) = true) : noPair A B cs = true := by
  rw [noPair, Bool.and_eq_true] at h
  exact h.2

theorem noPair_head {A B : Char → Bool} {c : Char} {cs : Text}
    (h : noPair A B (c :: cs) = true) : (!(A c && firstIs B cs)) = true := by
  rw [noPair, Bool.and_eq_true] at h
  exact h.1

theorem noTriple_tail {q1 q2 q3 : Char} {c : Char} {cs : Text}
    (h : noTriple q1 q2 q3 (c :: cs) = true) : noTriple q1 q2 q3 cs = true := by
  rw [noTriple, Bool.and_eq_true] at h
  exact h.2

theorem noTriple_head {q1 q2 q3 : Char} {c : Char} {cs : Text}
    (h : noTriple q1 q2 q3 (c :: cs) = true) :
    (!(decide (c = q1) && firstTwo q2 q3 cs)) = true := by
  rw [noTriple, Bool.and_eq_true] at h
  exact h.1

theorem firstIs_append {B : Char → Bool} {x : Text} (y : Text)
    (h : firstIs B x = true) : firstIs B (x ++ y) = true := by
  cases x with
  | nil => cases h
  | cons a x' => exact h

theorem firstTwo_append {q2 q3 : Char} {x : Text} (y : Text)
    (h : firstTwo q2 q3 x = true) : firstTwo q2 q3 (x ++ y) = true := by
  match x with
  | [] => cases h
  | [a] => cases h
  | a :: b :: x' => exact h

theorem noPair_append_right {A B : Char → Bool} :
    ∀ {x : Text} (y : Text), noPair A B (x ++ y) = true → noPair A B x = true
  | [], _, _ => rfl
  | c :: x', y, h => by
    rw [List.cons_append] at h
    rw [noPair, Bool.and_eq_true]
    refine ⟨?_, noPair_append_right y (noPair_tail h)⟩
    have hh := noPair_head h
    cases hA : A c with
    | false => simp [hA]
    | true =>
      cases hf : firstIs B x' with
      | false => simp [hf]
      | true =>
        rw [hA, firstIs_append y hf] at hh
        cases hh

theorem noPair_append_left {A B : Char → Bool} :
    ∀ (x : Text) {y : Text}, noPair A B (x ++ y) = true → noPair A B y = true
  | [], _, h => h
  | c :: x', y, h => noPair_append_left x' (noPair_tail h)

theorem noTriple_append_right {q1 q2 q3 : Char} :
    ∀ {x : Text} (y : Text), noTriple q1 q2 q3 (x ++ y) = true → noTriple q1 q2 q3 x = true
  | [], _, _ => rfl
  | c :: x', y, h => by
    rw [List.cons_append] at h
    rw [noTriple, Bool.and_eq_true]
    refine ⟨?_, noTriple_append_right y (noTriple_tail h)⟩
    have hh := noTriple_head h
    cases hA : decide (c = q1) with
    | false => simp [hA]
    | true =>
      cases hf : firstTwo q2 q3 x' with
      | false => simp [hf]
      | true =>
        rw [hA, firstTwo_append y hf] at hh
        cases hh

theorem noTriple_append_left {q1 q2 q3 : Char} :
    ∀ (x : Text) {y : Text}, noTriple q1 q2 q3 (x ++ y) = true → noTriple q1 q2 q3 y = true
  | [], _, h => h
  | c :: x', y, h => noTriple_append_left x' (noTriple_tail h)

theorem keeps_head {out inp : Text} (d : Keeps out inp) :
    ∀ {x : Char} {out' : Text}, out = x :: out' →
      x = ' ' ∨ ∃ inp', inp = x :: inp' := by
  cases d with
  | nil => intro x out' h; cases h
  | keep c d' =>
    intro x out' h
    cases h
    exact Or.inr ⟨_, rfl⟩
  | subst chunk hne d' =>
    intro x out' h
    cases h
    exact Or.inl rfl

theorem keeps_noPair {A B : Char → Bool} (hA : A ' ' = false) (hB : B ' ' = false) :
    ∀ {out inp : Text}, Keeps out inp → noPair A B inp = true → noPair A B out = true
  | _, _, Keeps.nil, h => h
  | _, _, @Keeps.keep c out' inp' d', h => by
    rw [noPair, Bool.and_eq_true]
    refine ⟨?_, keeps_noPair hA hB d' (noPair_tail h)⟩
    cases hAc : A c with
    | false => simp [hAc]
    | true =>
      cases hf : firstIs B out' with
      | false => simp [hf]
      | true =>
        exfalso
        cases hout : out' with
        | nil => rw [hout] at hf; cases hf
        | cons x o' =>
          rw [hout] at hf
          simp only [firstIs] at hf
          rcases keeps_head d' hout with hsp | ⟨inp'', hinp⟩
          · rw [hsp] at hf
            rw [hB] at hf
            cases hf
          · have hh := noPair_head h
            rw [hinp, hAc] at hh
            simp [firstIs, hf] at hh
  | _, _, @Keeps.subst out' inp2 chunk hne d', h => by
    rw [noPair, Bool.and_eq_true]
    exact ⟨by simp [hA], keeps_noPair hA hB d' (noPair_append_left chunk h)⟩

theorem keeps_noTriple {q1 q2 q3 : Char}
    (h1 : ¬q1 = ' ') (h2 : ¬q2 = ' ') (h3 : ¬q3 = ' ') :
    ∀ {out inp : Text}, Keeps out inp →
      noTriple q1 q2 q3 inp = true → noTriple q1 q2 q3 out = true
  | _, _, Keeps.nil, h => h
  | _, _, @Keeps.keep c out' inp' d', h => by
    rw [noTriple, Bool.and_eq_true]
    refine ⟨?_, keeps_noTriple h1 h2 h3 d' (noTriple_tail h)⟩
    cases hAc : decide (c = q1) with
    | false => simp [hAc]
    | true =>
      cases hf : firstTwo q2 q3 out' with
      | false => simp [hf]
      | true =>
        exfalso
        cases out' with
        | nil => cases hf
        | cons a o2 =>
          cases o2 with
          | nil => cases hf
          | cons b rest =>
            simp only [firstTwo, Bool.and_eq_true, decide_eq_true_eq] at hf
            obtain ⟨ha, hb⟩ := hf
            cases d' with
            | keep =>
              rename_i d''
              rcases keeps_head d'' rfl with hsp | ⟨inp3, hinp3⟩
              · exact h3 (hb ▸ hsp)
              · have hh := noTriple_head h
                rw [hAc, hinp3] at hh
                simp [firstTwo, ha, hb] at hh
            | subst chunk hne d'' => exact h2 ha.symm
  | _, _, @Keeps.subst out' inp2 chunk hne d', h => by
    rw [noTriple, Bool.and_eq_true]
    refine ⟨?_, keeps_noTriple h1 h2 h3 d' (noTriple_append_left chunk h)⟩
    cases hd : decide (' ' = q1) with
    | false => simp [hd]
    | true => exact absurd (of_decide_eq_true hd).symm h1

theorem keeps_charReplace (a : Char) : ∀ l : Text, Keeps (charReplace a ' ' l) l := by
  intro l
  induction l with
  | nil => exact Keeps.nil
  | cons c cs ih =>
    by_cases hc : c = a
    · have : charReplace a ' ' (c :: cs) = ' ' :: charReplace a ' ' cs := by
        simp [charReplace, hc]
      rw [this]
      have : c :: cs = [c] ++ cs := rfl
      rw [this]
      exact Keeps.subst [c] (by simp) ih
    · have : charReplace a ' ' (c :: cs) = c :: charReplace a ' ' cs := by
        simp [charReplace, hc]
      rw [this]
      exact Keeps.keep c ih

theorem keeps_seqRepl3 (p1 p2 p3 : Char) :
    ∀ l : Text, Keeps (seqRepl3 p1 p2 p3 [' '] l) l
  | [] => Keeps.nil
  | [c] => Keeps.keep c Keeps.nil
  | [c, d] => Keeps.keep c (Keeps.keep d Keeps.nil)
  | c1 :: c2 :: c3 :: cs => by
    by_cases h : c1 = p1 ∧ c2 = p2 ∧ c3 = p3
    · rw [seqRepl3, if_pos h]
      have : c1 :: c2 :: c3 :: cs = [c1, c2, c3] ++ cs := rfl
      rw [this]
      exact Keeps.subst [c1, c2, c3] (by simp) (keeps_seqRepl3 p1 p2 p3 cs)
    · rw [seqRepl3, if_neg h]
      exact Keeps.keep c1 (keeps_seqRepl3 p1 p2 p3 (c2 :: c3 :: cs))
termination_by l => l.length

theorem keeps_subUGo :
    ∀ (l : Text) (st : Nat) (pre : Text),
      (st = 0 ∧ pre = []) ∨ (st = 1 ∧ pre = ['_']) ∨
        (2 ≤ st ∧ 2 ≤ pre.length ∧ pre.all uC = true) →
      Keeps (subUGo [' '] st l) (pre ++ l)
  | [], st, pre, hok => by
    rcases hok with ⟨h0, hp⟩ | ⟨h1, hp⟩ | ⟨h2, hlen, _⟩
    · subst h0; subst hp; exact Keeps.nil
    · subst h1; subst hp; exact Keeps.keep '_' Keeps.nil
    · have hne : pre ≠ [] := by
        intro he; rw [he] at hlen; cases hlen
      have hcl : subUGo [' '] st [] = [' '] := by
        have hs0 : ¬st = 0 := by omega
        have hs1 : ¬st = 1 := by omega
        simp [subUGo, subUClose, hs0, hs1]
      rw [hcl, List.append_nil]
      have : (' ' :: ([] : Text)) = [' '] := rfl
      rw [← this]
      have hk := @Keeps.subst [] [] pre hne Keeps.nil
      rw [List.append_nil] at hk
      exact hk
  | c :: cs, st, pre, hok => by
    by_cases hc : c = '_'
    · rw [subUGo, if_pos hc]
      have hk := keeps_subUGo cs (min (st + 1) 2) (pre ++ ['_'])
      have harg : (min (st + 1) 2 = 0 ∧ pre ++ ['_'] = []) ∨
          (min (st + 1) 2 = 1 ∧ pre ++ ['_'] = ['_']) ∨
          (2 ≤ min (st + 1) 2 ∧ 2 ≤ (pre ++ ['_']).length ∧ (pre ++ ['_']).all uC = true) := by
        rcases hok with ⟨h0, hp⟩ | ⟨h1, hp⟩ | ⟨h2, hlen, hall⟩
        · subst h0; subst hp
          exact Or.inr (Or.inl ⟨rfl, rfl⟩)
        · subst h1; subst hp
          refine Or.inr (Or.inr ⟨by omega, by simp, by simp [uC]⟩)
        · refine Or.inr (Or.inr ⟨by omega, by simp; omega, ?_⟩)
          rw [List.all_append, hall]
          simp [uC]
      have hres := hk harg
      rw [List.append_assoc] at hres
      rw [hc]
      exact hres

    · rw [subUGo, if_neg hc]
      have hrec := keeps_subUGo cs 0 [] (Or.inl ⟨rfl, rfl⟩)
      rw [List.nil_append] at hrec
      rcases hok with ⟨h0, hp⟩ | ⟨h1, hp⟩ | ⟨h2, hlen, _⟩
      · subst h0; subst hp
        simpa [subUClose] using Keeps.keep c hrec
      · subst h1; subst hp
        simpa [subUClose] using Keeps.keep '_' (Keeps.keep c hrec)
      · have hne : pre ≠ [] := by
          intro he; rw [he] at hlen; cases hlen
        have hs0 : ¬st = 0 := by omega
        have hs1 : ¬st = 1 := by omega
        have hk := Keeps.subst pre hne (Keeps.keep c hrec)
        simpa [subUClose, hs0, hs1] using hk

theorem collapse_true_eq (p : Char → Bool) :
    ∀ l : Text, collapseRunsGo p true l = collapseRunsGo p false (l.dropWhile p) := by
  intro l
  induction l with
  | nil => rfl
  | cons c cs ih =>
    by_cases hc : p c
    · rw [collapseRunsGo, if_pos hc, List.dropWhile_cons_of_pos hc]
      exact ih
    · rw [collapseRunsGo, if_neg hc,
        List.dropWhile_cons_of_neg (by simpa using hc), collapseRunsGo, if_neg hc]

theorem keeps_collapse (p : Char → Bool) :
    ∀ l : Text, Keeps (collapseRunsGo p false l) l
  | [] => Keeps.nil
  | c :: cs => by
    by_cases hc : p c
    · rw [collapseRunsGo, if_pos hc, collapse_true_eq]
      have hk := Keeps.subst (c :: cs.takeWhile p) (by simp)
        (keeps_collapse p (cs.dropWhile p))
      have : (c :: cs.takeWhile p) ++ cs.dropWhile p = c :: cs := by
        rw [List.cons_append, List.takeWhile_append_dropWhile]
      rw [this] at hk
      exact hk
    · rw [collapseRunsGo, if_neg hc]
      exact Keeps.keep c (keeps_collapse p cs)
termination_by l => l.length
decreasing_by
  · simp only [List.length_cons]
    have h1 : (cs.dropWhile p).length ≤ cs.length := (List.dropWhile_suffix p).length_le
    omega
  · simp

theorem seqRepl3_heads (p1 p2 p3 : Char) :
    ∀ (l : Text) {x : Char} {m : Text}, seqRepl3 p1 p2 p3 [' '] l = x :: m →
      x = ' ' ∨ ∃ l', l = x :: l' ∧ m = seqRepl3 p1 p2 p3 [' '] l'
  | [], x, m, h => by cases h
  | [c], x, m, h => by
    have he : seqRepl3 p1 p2 p3 [' '] [c] = [c] := rfl
    rw [he] at h
    cases h
    exact Or.inr ⟨[], rfl, rfl⟩
  | [c, d], x, m, h => by
    have he : seqRepl3 p1 p2 p3 [' '] [c, d] = [c, d] := rfl
    rw [he] at h
    cases h
    exact Or.inr ⟨[d], rfl, rfl⟩
  | c1 :: c2 :: c3 :: cs, x, m, h => by
    by_cases hm : c1 = p1 ∧ c2 = p2 ∧ c3 = p3
    · rw [seqRepl3, if_pos hm] at h
      cases h
      exact Or.inl rfl
    · rw [seqRepl3, if_neg hm] at h
      cases h
      exact Or.inr ⟨c2 :: c3 :: cs, rfl, rfl⟩

theorem seqRepl3_noTriple {p1 p2 p3 : Char}
    (h1 : ¬p1 = ' ') (h2 : ¬p2 = ' ') (h3 : ¬p3 = ' ') :
    ∀ l : Text, noTriple p1 p2 p3 (seqRepl3 p1 p2 p3 [' '] l) = true
  | [] => rfl
  | [c] => by simp [seqRepl3, noTriple, firstTwo]
  | [c, d] => by simp [seqRepl3, noTriple, firstTwo]
  | c1 :: c2 :: c3 :: cs => by
    by_cases hm : c1 = p1 ∧ c2 = p2 ∧ c3 = p3
    · rw [seqRepl3, if_pos hm, List.singleton_append, noTriple, Bool.and_eq_true]
      refine ⟨?_, seqRepl3_noTriple h1 h2 h3 cs⟩
      have : decide (' ' = p1) = false := by
        simp only [decide_eq_false_iff_not]
        exact fun hc => h1 hc.symm
      simp [this]
    · rw [seqRepl3, if_neg hm, noTriple, Bool.and_eq_true]
      refine ⟨?_, seqRepl3_noTriple h1 h2 h3 (c2 :: c3 :: cs)⟩
      cases hc1 : decide (c1 = p1) with
      | false => simp
      | true =>
        cases hf : firstTwo p2 p3 (seqRepl3 p1 p2 p3 [' '] (c2 :: c3 :: cs)) with
        | false => simp [hf]
        | true =>
          exfalso
          have hc1' : c1 = p1 := of_decide_eq_true hc1
          cases hr : seqRepl3 p1 p2 p3 [' '] (c2 :: c3 :: cs) with
          | nil => rw [hr] at hf; cases hf
          | cons a r1 =>
            rw [hr] at hf
            cases r1 with
            | nil => cases hf
            | cons b r2 =>
              simp only [firstTwo, Bool.and_eq_true, decide_eq_true_eq] at hf
              obtain ⟨ha, hb⟩ := hf
              rcases seqRepl3_heads p1 p2 p3 _ hr with hsp | ⟨l1, he1, hm1⟩
              · exact h2 (ha ▸ hsp)
              · have ha' : a = c2 := by
                  cases he1; rfl
                cases he1
                rcases seqRepl3_heads p1 p2 p3 _ hm1.symm with hsp | ⟨l2, he2, _⟩
                · exact h3 (hb ▸ hsp)
                · have hb' : b = c3 := by
                    cases he2; rfl
                  exact hm ⟨hc1', ha ▸ ha' ▸ rfl, hb ▸ hb' ▸ rfl⟩
termination_by l => l.length

theorem subU_noPair : ∀ (l : Text) (st : Nat),
    noPair uC uC (subUGo [' '] st l) = true
  | [], st => by
    by_cases h0 : st = 0
    · simp [subUGo, subUClose, h0, noPair]
    · by_cases h1 : st = 1
      · simp [subUGo, subUClose, h0, h1, noPair, firstIs]
      · simp [subUGo, subUClose, h0, h1, noPair, firstIs]
  | c :: cs, st => by
    by_cases hc : c = '_'
    · rw [subUGo, if_pos hc]
      exact subU_noPair cs (min (st + 1) 2)
    · rw [subUGo, if_neg hc]
      have hrec := subU_noPair cs 0
      have hcu : uC c = false := by simp [uC, hc]
      by_cases h0 : st = 0
      · simpa [subUClose, h0, noPair, hcu] using hrec
      · by_cases h1 : st = 1
        · have hcl : subUClose [' '] st = ['_'] := by simp [subUClose, h0, h1]
          rw [hcl, List.singleton_append, noPair, Bool.and_eq_true]
          constructor
          · simp [firstIs, hcu]
          · rw [noPair, Bool.and_eq_true]
            exact ⟨by simp [hcu], hrec⟩
        · have hcl : subUClose [' '] st = [' '] := by simp [subUClose, h0, h1]
          rw [hcl, List.singleton_append, noPair, Bool.and_eq_true]
          constructor
          · simp [uC]
          · rw [noPair, Bool.and_eq_true]
            exact ⟨by simp [hcu], hrec⟩

theorem dropWhile_head_not {p : Char → Bool} :
    ∀ {l : Text} {x : Char} {m : Text}, l.dropWhile p = x :: m → p x = false
  | [], x, m, h => by cases h
  | c :: cs, x, m, h => by
    by_cases hc : p c
    · rw [List.dropWhile_cons_of_pos hc] at h
      exact dropWhile_head_not h
    · rw [List.dropWhile_cons_of_neg (by simpa using hc)] at h
      cases h
      simpa using hc

theorem colWs_all_mem :
    ∀ (b : Bool) (l : Text) (c : Char), c ∈ collapseRunsGo pyIsSpace b l →
      c = ' ' ∨ (c ∈ l ∧ pyIsSpace c = false) := by
  intro b l
  induction l generalizing b with
  | nil => intro c h; cases h
  | cons d cs ih =>
    intro c h
    by_cases hd : pyIsSpace d
    · rw [collapseRunsGo, if_pos hd] at h
      cases b with
      | true =>
        rcases ih true c h with h' | ⟨hm, hws⟩
        · exact Or.inl h'
        · exact Or.inr ⟨List.mem_cons_of_mem d hm, hws⟩
      | false =>
        rcases List.mem_cons.mp h with he | h'
        · exact Or.inl he
        · rcases ih true c h' with h'' | ⟨hm, hws⟩
          · exact Or.inl h''
          · exact Or.inr ⟨List.mem_cons_of_mem d hm, hws⟩
    · rw [collapseRunsGo, if_neg hd] at h
      rcases List.mem_cons.mp h with he | h'
      · subst he
        exact Or.inr ⟨List.mem_cons_self _ _, by simpa using hd⟩
      · rcases ih false c h' with h'' | ⟨hm, hws⟩
        · exact Or.inl h''
        · exact Or.inr ⟨List.mem_cons_of_mem d hm, hws⟩

theorem colWs_noPair :
    ∀ l : Text, noPair pyIsSpace pyIsSpace (collapseRunsGo pyIsSpace false l) = true
  | [] => rfl
  | c :: cs => by
    by_cases hc : pyIsSpace c
    · have hstep : collapseRunsGo pyIsSpace false (c :: cs) =
          ' ' :: collapseRunsGo pyIsSpace false (cs.dropWhile pyIsSpace) := by
        rw [← collapse_true_eq]
        simp [collapseRunsGo, hc]
      rw [hstep, noPair, Bool.and_eq_true]
      refine ⟨?_, colWs_noPair (cs.dropWhile pyIsSpace)⟩
      cases hr : collapseRunsGo pyIsSpace false (cs.dropWhile pyIsSpace) with
      | nil => simp [firstIs]
      | cons x m =>
        have hx : x = ' ' ∨ (x ∈ cs.dropWhile pyIsSpace ∧ pyIsSpace x = false) := by
          have := colWs_all_mem false (cs.dropWhile pyIsSpace) x
          rw [hr] at this
          exact this (List.mem_cons_self _ _)
        rcases hx with hx | ⟨_, hws⟩
        · subst hx
          exfalso
          cases hd : cs.dropWhile pyIsSpace with
          | nil => rw [hd] at hr; cases hr
          | cons y ys =>
            rw [hd] at hr
            by_cases hy : pyIsSpace y
            · have := dropWhile_head_not hd
              rw [hy] at this; cases this
            · rw [collapseRunsGo, if_neg hy] at hr
              have : y = ' ' := (List.cons_eq_cons.mp hr).1
              rw [this] at hy
              exact hy (by simp [pyIsSpace])
        · simp [firstIs, hws]
    · have hstep : collapseRunsGo pyIsSpace false (c :: cs) =
          c :: collapseRunsGo pyIsSpace false cs := by
        simp [collapseRunsGo, hc]
      rw [hstep, noPair, Bool.and_eq_true]
      exact ⟨by simp [hc], colWs_noPair cs⟩
termination_by l => l.length
decreasing_by
  · simp only [List.length_cons]
    have h1 : (cs.dropWhile pyIsSpace).length ≤ cs.length :=
      (List.dropWhile_suffix pyIsSpace).length_le
    omega
  · simp

theorem pyStrip_decomp (l : Text) :
    ∃ a b : Text, l = a ++ pyStrip l ++ b ∧
      a.all pyIsSpace = true ∧ b.all pyIsSpace = true := by
  refine ⟨l.takeWhile pyIsSpace,
    ((l.dropWhile pyIsSpace).reverse.takeWhile pyIsSpace).reverse, ?_, ?_, ?_⟩
  · have h1 : l = l.takeWhile pyIsSpace ++ l.dropWhile pyIsSpace :=
      (List.takeWhile_append_dropWhile pyIsSpace l).symm
    have h2 : (l.dropWhile pyIsSpace).reverse =
        (l.dropWhile pyIsSpace).reverse.takeWhile pyIsSpace ++
          (l.dropWhile pyIsSpace).reverse.dropWhile pyIsSpace :=
      (List.takeWhile_append_dropWhile pyIsSpace (l.dropWhile pyIsSpace).reverse).symm
    have h3 : l.dropWhile pyIsSpace =
        pyStrip l ++ ((l.dropWhile pyIsSpace).reverse.takeWhile pyIsSpace).reverse := by
      rw [pyStrip]
      have := congrArg List.reverse h2
      rw [List.reverse_reverse, List.reverse_append] at this
      exact this
    rw [List.append_assoc, ← h3]
    exact h1
  · rw [List.all_eq_true]
    exact fun c hc => List.mem_takeWhile_imp hc
  · rw [List.all_eq_true]
    intro c hc
    rw [List.mem_reverse] at hc
    exact List.mem_takeWhile_imp hc

theorem pyStrip_headNonWs (l : Text) : headNonWs (pyStrip l) = true := by
  cases hs : pyStrip l with
  | nil => rfl
  | cons c m =>
    rw [headNonWs]
    have hy : ((l.dropWhile pyIsSpace).reverse.dropWhile pyIsSpace) = (c :: m).reverse := by
      have := congrArg List.reverse hs
      rw [pyStrip, List.reverse_reverse] at this
      exact this
    have hYne : ((l.dropWhile pyIsSpace).reverse.dropWhile pyIsSpace) ≠ [] := by
      rw [hy]; simp
    have hlast : ((l.dropWhile pyIsSpace).reverse.dropWhile pyIsSpace).getLast? =
        (l.dropWhile pyIsSpace).reverse.getLast? := by
      obtain ⟨pre, hpre⟩ : ∃ pre,
          (l.dropWhile pyIsSpace).reverse =
            pre ++ (l.dropWhile pyIsSpace).reverse.dropWhile pyIsSpace := by
        exact ⟨(l.dropWhile pyIsSpace).reverse.takeWhile pyIsSpace,
          (List.takeWhile_append_dropWhile pyIsSpace
            (l.dropWhile pyIsSpace).reverse).symm⟩
      calc ((l.dropWhile pyIsSpace).reverse.dropWhile pyIsSpace).getLast?
          = (pre ++ (l.dropWhile pyIsSpace).reverse.dropWhile pyIsSpace).getLast? :=
            (List.getLast?_append_of_ne_nil pre hYne).symm
        _ = (l.dropWhile pyIsSpace).reverse.getLast? := by rw [← hpre]
    have hgl : ((l.dropWhile pyIsSpace).reverse.dropWhile pyIsSpace).getLast? = some c := by
      rw [hy, List.getLast?_reverse]
      rfl
    rw [hgl, List.getLast?_reverse] at hlast
    cases hd : l.dropWhile pyIsSpace with
    | nil => rw [hd] at hlast; cases hlast
    | cons y ys =>
      rw [hd] at hlast
      have : y = c := by
        simp only [List.head?] at hlast
        cases hlast
        rfl
      have hw := dropWhile_head_not hd
      rw [this] at hw
      simp [hw]

theorem pyStrip_lastNonWs (l : Text) : headNonWs (pyStrip l).reverse = true := by
  rw [pyStrip, List.reverse_reverse]
  cases hs : (l.dropWhile pyIsSpace).reverse.dropWhile pyIsSpace with
  | nil => rfl
  | cons c m =>
    rw [headNonWs]
    have := dropWhile_head_not hs
    simp [this]

theorem charReplace_id {a b : Char} :
    ∀ {l : Text}, (∀ c ∈ l, ¬c = a) → charReplace a b l = l
  | [], _ => rfl
  | c :: cs, h => by
    have hc : ¬c = a := h c (List.mem_cons_self _ _)
    have : charReplace a b (c :: cs) = c :: charReplace a b cs := by
      simp [charReplace, hc]
    rw [this, charReplace_id fun d hd => h d (List.mem_cons_of_mem c hd)]

theorem seqRepl3_id {p1 p2 p3 : Char} (r : Text) :
    ∀ l : Text, noTriple p1 p2 p3 l = true → seqRepl3 p1 p2 p3 r l = l
  | [], _ => rfl
  | [c], _ => rfl
  | [c, d], _ => rfl
  | c1 :: c2 :: c3 :: cs, h => by
    have hh := noTriple_head h
    have hm : ¬(c1 = p1 ∧ c2 = p2 ∧ c3 = p3) := by
      rintro ⟨e1, e2, e3⟩
      rw [e1] at hh
      simp [firstTwo, e2, e3] at hh
    rw [seqRepl3, if_neg hm, seqRepl3_id r (c2 :: c3 :: cs) (noTriple_tail h)]
termination_by l => l.length

theorem subU_id (r : Text) :
    ∀ l : Text, noPair uC uC l = true → subUGo r 0 l = l
  | [], _ => rfl
  | c :: cs, h => by
    by_cases hc : c = '_'
    · rw [subUGo, if_pos hc]
      have hh := noPair_head h
      rw [hc] at hh
      have hfi : firstIs uC cs = false := by
        cases hfi : firstIs uC cs with
        | false => rfl
        | true => rw [hfi] at hh; simp [uC] at hh
      cases cs with
      | nil =>
        rw [hc]
        rfl
      | cons d ds =>
        have hd : ¬d = '_' := by
          simp only [firstIs, uC] at hfi
          simpa using hfi
        rw [subUGo, if_neg hd]
        have hds := subU_id r ds (noPair_tail (noPair_tail h))
        rw [hc]
        have hmin : min (0 + 1) 2 = 1 := rfl
        rw [hmin]
        have hcl : subUClose r 1 = ['_'] := rfl
        rw [hcl, List.singleton_append, hds]
    · rw [subUGo, if_neg hc]
      have hcl : subUClose r 0 = [] := rfl
      rw [hcl, List.nil_append, subU_id r cs (noPair_tail h)]
termination_by l => l.length

theorem colWs_id :
    ∀ l : Text, l.all wsOnlySp = true → noPair pyIsSpace pyIsSpace l = true →
      collapseRunsGo pyIsSpace false l = l
  | [], _, _ => rfl
  | c :: cs, hall, hp => by
    by_cases hc : pyIsSpace c
    · have hcsp : c = ' ' := by
        rw [List.all_cons, Bool.and_eq_true] at hall
        have := hall.1
        rw [wsOnlySp, hc] at this
        simpa using this
      have hfi : firstIs pyIsSpace cs = false := by
        have hh := noPair_head hp
        rw [hc] at hh
        cases hfi : firstIs pyIsSpace cs with
        | false => rfl
        | true => rw [hfi] at hh; simp at hh
      have hstep : collapseRunsGo pyIsSpace false (c :: cs) =
          ' ' :: collapseRunsGo pyIsSpace true cs := by
        simp [collapseRunsGo, hc]
      rw [hstep, hcsp]
      cases cs with
      | nil => rfl
      | cons d ds =>
        have hd : pyIsSpace d = false := by
          simpa [firstIs] using hfi
        have hskip : collapseRunsGo pyIsSpace true (d :: ds) =
            d :: collapseRunsGo pyIsSpace false ds := by
          simp [collapseRunsGo, hd]
        rw [hskip,
          colWs_id ds (by
            rw [List.all_cons, Bool.and_eq_true] at hall
            rw [List.all_cons, Bool.and_eq_true] at hall
            exact hall.2.2) (noPair_tail (noPair_tail hp))]
    · have hstep : collapseRunsGo pyIsSpace false (c :: cs) =
          c :: collapseRunsGo pyIsSpace false cs := by
        simp [collapseRunsGo, hc]
      rw [hstep, colWs_id cs (by
          rw [List.all_cons, Bool.and_eq_true] at hall
          exact hall.2) (noPair_tail hp)]
termination_by l => l.length

theorem pyStrip_id (l : Text) (hh : headNonWs l = true)
    (hl : headNonWs l.reverse = true) : pyStrip l = l := by
  have h1 : l.dropWhile pyIsSpace = l := by
    cases l with
    | nil => rfl
    | cons c cs =>
      rw [headNonWs] at hh
      rw [List.dropWhile_cons_of_neg (by simpa using hh)]
  rw [pyStrip, h1]
  have h2 : l.reverse.dropWhile pyIsSpace = l.reverse := by
    cases hr : l.reverse with
    | nil => rfl
    | cons c cs =>
      rw [hr] at hl
      rw [headNonWs] at hl
      rw [List.dropWhile_cons_of_neg (by simpa using hl)]
  rw [h2, List.reverse_reverse]

theorem all_of_decomp {l a m b : Text} (he : l = a ++ m ++ b) {p : Char → Bool}
    (h : l.all p = true) : m.all p = true := by
  rw [he, List.all_append, List.all_append, Bool.and_eq_true, Bool.and_eq_true] at h
  exact h.1.2

theorem noPair_of_decomp {l a m b : Text} {A B : Char → Bool} (he : l = a ++ m ++ b)
    (h : noPair A B l = true) : noPair A B m = true := by
  rw [he] at h
  exact noPair_append_left a (noPair_append_right b h)

theorem noTriple_of_decomp {l a m b : Text} {q1 q2 q3 : Char} (he : l = a ++ m ++ b)
    (h : noTriple q1 q2 q3 l = true) : noTriple q1 q2 q3 m = true := by
  rw [he] at h
  exact noTriple_append_left a (noTriple_append_right b h)

theorem wsOnlySp_no_char {u : Text} (hall : u.all wsOnlySp = true) (a : Char)
    (hws : pyIsSpace a = true) (hne : ¬a = ' ') : ∀ c ∈ u, ¬c = a := by
  intro c hc he
  have hx := List.all_eq_true.mp hall c hc
  rw [he, wsOnlySp, hws] at hx
  simp only [Bool.not_true, Bool.false_or, decide_eq_true_eq] at hx
  exact hne hx

/-- A text in cleaned normal form is a fixed point of the basic cleaning
profile. -/
theorem clean_fixed {u : Text} (h : isCleanBasic u = true) : clean_text u = u := by
  rw [isCleanBasic] at h
  simp only [Bool.and_eq_true] at h
  obtain ⟨⟨⟨⟨⟨⟨hem, hen⟩, hu⟩, hall⟩, hwsp⟩, hhead⟩, hlast⟩ := h
  rw [clean_text]
  rw [charReplace_id (wsOnlySp_no_char hall '\n' (by decide) (by decide))]
  rw [charReplace_id (wsOnlySp_no_char hall '\r' (by decide) (by decide))]
  rw [seqRepl3_id [' '] u hem]
  rw [seqRepl3_id [' '] u hen]
  rw [subUnders, subU_id [' '] u hu]
  rw [collapseWs, colWs_id u hall hwsp]
  exact pyStrip_id u hhead hlast

/-- The output of the basic cleaning profile is in cleaned normal form. -/
theorem clean_isClean (t : Text) : isCleanBasic (clean_text t) = true := by
  have hu2 : clean_text t =
      pyStrip (collapseWs (subUnders [' '] (seqRepl3 '‚' 'Ä' 'ì' [' ']
        (seqRepl3 '‚' 'Ä' 'î' [' ']
          (charReplace '\r' ' ' (charReplace '\n' ' ' t)))))) := rfl
  set u2 := charReplace '\r' ' ' (charReplace '\n' ' ' t) with hu2def
  set u3 := seqRepl3 '‚' 'Ä' 'î' [' '] u2 with hu3def
  set u4 := seqRepl3 '‚' 'Ä' 'ì' [' '] u3 with hu4def
  set u5 := subUnders [' '] u4 with hu5def
  set u6 := collapseWs u5 with hu6def
  have k45 : Keeps u5 u4 := by
    have := keeps_subUGo u4 0 [] (Or.inl ⟨rfl, rfl⟩)
    rwa [List.nil_append] at this
  have k56 : Keeps u6 u5 := keeps_collapse pyIsSpace u5
  obtain ⟨a, b, hdec, _, _⟩ := pyStrip_decomp u6
  -- the mojibake em-dash sequence
  have hem3 : noTriple '‚' 'Ä' 'î' u3 = true :=
    seqRepl3_noTriple (by decide) (by decide) (by decide) u2
  have hem4 : noTriple '‚' 'Ä' 'î' u4 = true :=
    keeps_noTriple (by decide) (by decide) (by decide)
      (keeps_seqRepl3 '‚' 'Ä' 'ì' u3) hem3
  have hem5 : noTriple '‚' 'Ä' 'î' u5 = true :=
    keeps_noTriple (by decide) (by decide) (by decide) k45 hem4
  have hem6 : noTriple '‚' 'Ä' 'î' u6 = true :=
    keeps_noTriple (by decide) (by decide) (by decide) k56 hem5
  have hemu : noTriple '‚' 'Ä' 'î' (pyStrip u6) = true := noTriple_of_decomp hdec hem6
  -- the mojibake en-dash sequence
  have hen4 : noTriple '‚' 'Ä' 'ì' u4 = true :=
    seqRepl3_noTriple (by decide) (by decide) (by decide) u3
  have hen5 : noTriple '‚' 'Ä' 'ì' u5 = true :=
    keeps_noTriple (by decide) (by decide) (by decide) k45 hen4
  have hen6 : noTriple '‚' 'Ä' 'ì' u6 = true :=
    keeps_noTriple (by decide) (by decide) (by decide) k56 hen5
  have henu : noTriple '‚' 'Ä' 'ì' (pyStrip u6) = true := noTriple_of_decomp hdec hen6
  -- underscore runs
  have hu5 : noPair uC uC u5 = true := subU_noPair u4 0
  have hu6 : noPair uC uC u6 = true := keeps_noPair (by decide) (by decide) k56 hu5
  have huu : noPair uC uC (pyStrip u6) = true := noPair_of_decomp hdec hu6
  -- whitespace
  have hall6 : u6.all wsOnlySp = true := by
    rw [List.all_eq_true]
    intro c hc
    rcases colWs_all_mem false u5 c hc with he | ⟨_, hws⟩
    · rw [he]; decide
    · rw [wsOnlySp, hws]; rfl
  have hallu : (pyStrip u6).all wsOnlySp = true := all_of_decomp hdec hall6
  have hwsp6 : noPair pyIsSpace pyIsSpace u6 = true := colWs_noPair u5
  have hwspu : noPair pyIsSpace pyIsSpace (pyStrip u6) = true :=
    noPair_of_decomp hdec hwsp6
  rw [hu2]
  rw [isCleanBasic]
  simp only [Bool.and_eq_true]
  exact ⟨⟨⟨⟨⟨⟨hemu, henu⟩, huu⟩, hallu⟩, hwspu⟩, pyStrip_headNonWs u6⟩,
    pyStrip_lastNonWs u6⟩

/-- C5 (amended).  The basic cleaning profile is idempotent on every
string: `clean_text (clean_text x) = clean_text x`.  (The stripping
profile `clean2` is not idempotent; see the counterexample.) -/
theorem claim_C5 (x : Text) : clean_text (clean_text x) = clean_text x :=
  clean_fixed (clean_isClean x)

/-- C1.  On the Scenario A input, the robust discharge sectionizer maps
`Allergies` to `Penicillin` and `Chief Complaint` to `Chest pain`, and no
section value contains the string `Attending`: the `Attending:` header only
caps the Allergies slice and its own slice is discarded. -/
theorem claim_C1 :
    (RobustSectionizer.extract_sections scenarioA).lookup "Allergies" =
        some "Penicillin".toList ∧
      (RobustSectionizer.extract_sections scenarioA).lookup "Chief Complaint" =
        some "Chest pain".toList ∧
      (RobustSectionizer.extract_sections scenarioA).all
        (fun p => !containsSeq "Attending".toList p.2) = true := by
  refine ⟨?_, ?_, ?_⟩ <;> rfl

/-- C2.  For every input text, the robust discharge sectionizer terminates
(`extract_sections` is a total function) and returns a section map whose
key list is exactly the thirteen declared discharge-summary keys, each key
mapped to a (possibly empty) string. -/
theorem claim_C2 (t : Text) :
    (RobustSectionizer.extract_sections t).map Prod.fst =
      RobustSectionizer.sectionKeys := by
  rw [RobustSectionizer.extract_sections, RobustSectionizer.extractGo_keys]
  rfl

/-- C2 witness at a concrete input. -/
theorem claim_C2_witness :
    (RobustSectionizer.extract_sections "free text only".toList).map Prod.fst =
      RobustSectionizer.sectionKeys :=
  claim_C2 _

/-- C8.  Normalizing Scenario D under the basic profile collapses the
carriage return, newline and underscore runs to single spaces and trims:
the result is the trimmed form of `"Line1 Line2 redacted "`. -/
theorem claim_C8 :
    clean_text scenarioD = pyStrip "Line1 Line2 redacted ".toList ∧
      clean_text scenarioD = "Line1 Line2 redacted".toList := by
  exact ⟨rfl, rfl⟩

/-- C6.  Scenario B: synonym headers `Brief Hospital Course:` and
`Hospital Course:` merge into `Hospital Course == "Stable.\n\nImproved."`.
In general, every returned section value is exactly the blank-line-separated
accumulation (`joinSlices`) of the slice texts attributed to that section,
in document order — values are accumulated, never overwritten. -/
theorem claim_C6 :
    ((RobustSectionizer.extract_sections scenarioB).lookup "Hospital Course" =
        some "Stable.\n\nImproved.".toList) ∧
      ∀ (t : Text) (name : String) (v : Text),
        (RobustSectionizer.extract_sections t).lookup name = some v →
          v = RobustSectionizer.joinSlices (RobustSectionizer.sliceValues t name) := by
  constructor
  · rfl
  · intro t name v hv
    rw [RobustSectionizer.extract_sections, RobustSectionizer.extractGo_eq_foldl,
      RobustSectionizer.foldl_updateSec_lookup] at hv
    cases hl : RobustSectionizer.initSections.lookup name with
    | none => rw [hl] at hv; cases hv
    | some v0 =>
      rw [hl] at hv
      have hv0 : v0 = [] :=
        RobustSectionizer.lookup_all_nil (by decide) hl
      cases hv
      rw [hv0]
      rfl

/-- C6 witness: the general accumulation law applied at Scenario B. -/
theorem claim_C6_witness :
    (RobustSectionizer.extract_sections scenarioB).lookup "Hospital Course" =
        some "Stable.\n\nImproved.".toList ∧
      "Stable.\n\nImproved.".toList =
        RobustSectionizer.joinSlices
          (RobustSectionizer.sliceValues scenarioB "Hospital Course") :=
  ⟨claim_C6.1, claim_C6.2 scenarioB "Hospital Course" _ claim_C6.1⟩

/-- C10.  The four matched headers without a standard-section mapping
(`Attending:`, `Social History:`, `Family History:`,
`Medications on Admission:`) are pure boundary markers: `headerToSection`
sends them to `none`; the extraction result is exactly the fold of the
mapped slices (`sliceList`, in which an unmapped match emits nothing but
still caps the preceding slice via its start offset); and every slice that
reaches the section map carries a standard key. -/
theorem claim_C10 :
    (RobustSectionizer.headerToSection "Attending:".toList = none ∧
        RobustSectionizer.headerToSection "Social History:".toList = none ∧
        RobustSectionizer.headerToSection "Family History:".toList = none ∧
        RobustSectionizer.headerToSection "Medications on Admission:".toList = none) ∧
      ∀ t : Text,
        RobustSectionizer.extract_sections t =
            (RobustSectionizer.sliceList t (RobustSectionizer.headerPositions t)).foldl
              (fun acc p => RobustSectionizer.updateSec acc p.1 p.2)
              RobustSectionizer.initSections ∧
          (RobustSectionizer.sliceList t (RobustSectionizer.headerPositions t)).all
            (fun p => RobustSectionizer.sectionKeys.contains p.1) = true := by
  refine ⟨⟨rfl, rfl, rfl, rfl⟩, fun t => ⟨?_, ?_⟩⟩
  · exact RobustSectionizer.extractGo_eq_foldl t _ _
  · exact RobustSectionizer.sliceList_all_keys t _

/-- C3 counterexample.  On the input `"Follow-up:\n"`, whose single
physical header occurrence is matched by both the `Follow[-\s]?up[:\s]*\n`
and the `Follow[-\s]?Up[:\s]*\n` variant patterns, the boundary-location
pass produces two `BoundaryMatch`es at start position `0`, not one. -/
theorem claim_C3_counterexample :
    DSectionizer.boundaryMatches "Follow-up:\n".toList =
        [(0, 11, "Follow-up"), (0, 11, "Follow-up")] ∧
      ((DSectionizer.boundaryMatches "Follow-up:\n".toList).countP
          fun m => m.1 = 0) ≠ 1 := by
  exact ⟨rfl, by decide⟩

/-- C3 as amended.  The boundary pass emits one `BoundaryMatch` per matching
variant pattern per occurrence, so one physical occurrence matched by
overlapping variants yields several matches rather than one longest match:
`"Follow-up:\n"` yields exactly two matches `(0, 11, "Follow-up")` under the
`sectionizer.py` patterns, and in the robust sectionizer the occurrence of
`Hospital Course:` inside `Brief Hospital Course:` yields two header
positions for one physical header. -/
theorem claim_C3 :
    DSectionizer.boundaryMatches "Follow-up:\n".toList =
        [(0, 11, "Follow-up"), (0, 11, "Follow-up")] ∧
      RobustSectionizer.headerPositions "Brief Hospital Course:\nX".toList =
        [(0, 22, "Brief Hospital Course:".toList), (6, 22, "Hospital Course:".toList)] := by
  exact ⟨rfl, rfl⟩

/-- C4 counterexample.  The input `"Hospital Course:\n"` contains a
recognized header occurrence (the boundary scan is non-empty), yet the
fallback path is taken, because the matched slice strips to the empty
string and the trigger is `not any(sections.values())`, not "zero
matches". -/
theorem claim_C4_counterexample :
    DSectionizer.section_boundaries "Hospital Course:\n".toList =
        [(17, "Hospital Course")] ∧
      DSectionizer.section_boundaries "Hospital Course:\n".toList ≠ [] ∧
      DSectionizer.usesFallback "Hospital Course:\n".toList = true := by
  refine ⟨rfl, ?_, rfl⟩
  intro h
  cases h

/-- C4 as amended.  The fallback extractor is invoked if and only if every
section value of the primary pass is the empty string (which holds in
particular, but not only, when the boundary scan finds zero matches):
`extract_sections` is the primary result unless all its values are empty,
in which case it is the fallback result; and zero boundary matches forces
the fallback, with no exception raised (the function is total). -/
theorem claim_C4 (t : Text) :
    (DSectionizer.usesFallback t = true ↔
        DSectionizer.allValuesEmpty (DSectionizer.dPrimary t) = true) ∧
      DSectionizer.extract_sections t =
        (if DSectionizer.usesFallback t then DSectionizer.dFallback t
          else DSectionizer.dPrimary t) ∧
      (DSectionizer.section_boundaries t = [] →
        DSectionizer.usesFallback t = true ∧
          DSectionizer.extract_sections t = DSectionizer.dFallback t) := by
  refine ⟨Iff.rfl, rfl, fun h => ?_⟩
  have hp : DSectionizer.dPrimary t = DSectionizer.dInit := by
    rw [DSectionizer.dPrimary, h, DSectionizer.dExtractGo]
  have hf : DSectionizer.usesFallback t = true := by
    rw [DSectionizer.usesFallback, hp]
    rfl
  refine ⟨hf, ?_⟩
  rw [DSectionizer.extract_sections]
  simp only [DSectionizer.usesFallback] at hf
  rw [hf]
  rfl

/-- C4 witness: on `"hello"` (no recognizable headers, non-empty free text)
the boundary scan is empty, the fallback runs, no fallback pattern matches,
and every section remains the empty string. -/
theorem claim_C4_witness :
    DSectionizer.section_boundaries "hello".toList = [] ∧
      DSectionizer.usesFallback "hello".toList = true ∧
      DSectionizer.extract_sections "hello".toList = DSectionizer.dFallback "hello".toList ∧
      DSectionizer.allValuesEmpty (DSectionizer.extract_sections "hello".toList) = true :=
  ⟨rfl, ((claim_C4 "hello".toList).2.2 rfl).1, ((claim_C4 "hello".toList).2.2 rfl).2, rfl⟩

set_option maxRecDepth 8000 in
/-- C9.  The empty-output failure kind is not reliably distinct: the
empty-response exception message embeds the raw response length, and the
`except` block classifies by the substring `"402"`, so a whitespace-only
response of length 402 is reported as `payMsg` — byte for byte the same
message as a genuine payment-required failure, not a distinct
empty-output kind.  (The code's own message, "API call succeeded but model
returned no output", documents the intent of a distinct report.) -/
theorem claim_C9 :
    ModelClient.call_llm (ModelClient.ApiOutcome.success (List.replicate 402 ' ')) =
        Except.error ModelClient.payMsg ∧
      ModelClient.call_llm
          (ModelClient.ApiOutcome.failure "402 Client Error: Payment Required".toList) =
        Except.error ModelClient.payMsg := by
  exact ⟨rfl, rfl⟩


/-- C5 counterexample.  The stripping profile is not idempotent: on
`"_:_"` the first pass removes the colon, creating `"__"`, and a second
pass removes that underscore run entirely. -/
theorem claim_C5_counterexample :
    clean2 (clean2 "_:_".toList) ≠ clean2 "_:_".toList ∧
      clean2 "_:_".toList = "__".toList ∧
      clean2 (clean2 "_:_".toList) = [] := by
  refine ⟨?_, rfl, rfl⟩
  decide

/-! ## The round-trip length bound (C7)

The cleaned length of the document-order concatenation of the non-empty
section values never exceeds the cleaned length of the raw note.  The
development proceeds through junction lemmas for every stage of the
cleaning pipeline, whitespace- and strip-invariance of `clean_text`,
header-occurrence transfer along case-insensitive matching, and a ledger
induction over the sorted header positions. -/

theorem seqRepl3_cons_ne {p1 : Char} (p2 p3 : Char) (r : Text) {c : Char} (hc : ¬c = p1)
    (w : Text) : seqRepl3 p1 p2 p3 r (c :: w) = c :: seqRepl3 p1 p2 p3 r w := by
  match w with
  | [] => rfl
  | [d] => rfl
  | d :: e :: ws =>
    rw [seqRepl3, if_neg]
    rintro ⟨h1, _, _⟩
    exact hc h1

theorem seqRepl3_app_one {p1 p2 p3 : Char} (r : Text) {c : Char} (hc : ¬c = p3) :
    ∀ x : Text, seqRepl3 p1 p2 p3 r (x ++ [c]) = seqRepl3 p1 p2 p3 r x ++ [c] := by
  intro x
  induction x using seqRepl3.induct p1 p2 p3 r with
  | case1 c1 c2 c3 cs hm ih =>
    simp only [List.cons_append]
    rw [seqRepl3, if_pos hm, seqRepl3, if_pos hm, ih, List.append_assoc]
  | case2 c1 c2 c3 cs hm ih =>
    simp only [List.cons_append] at ih ⊢
    rw [seqRepl3, if_neg hm, seqRepl3, if_neg hm, ih, List.cons_append]
  | case3 l hshort =>
    match l, hshort with
    | [], _ => rfl
    | [a], _ => rfl
    | [a, b], _ =>
      simp only [List.cons_append, List.nil_append]
      rw [seqRepl3, if_neg (by rintro ⟨_, _, h3⟩; exact hc h3)]
      rfl
    | a :: b :: d :: xs, hs => exact absurd rfl (hs a b d xs)

theorem seqRepl3_app_left {p1 p2 p3 : Char} (r : Text) :
    ∀ {x : Text}, (∀ a ∈ x, ¬a = p1) → ∀ z,
      seqRepl3 p1 p2 p3 r (x ++ z) = x ++ seqRepl3 p1 p2 p3 r z
  | [], _, z => rfl
  | c :: cs, h, z => by
    rw [List.cons_append, seqRepl3_cons_ne p2 p3 r (h c (List.mem_cons_self _ _)),
      seqRepl3_app_left r (fun a ha => h a (List.mem_cons_of_mem c ha)) z]
    rfl

theorem seqRepl3_eq_self {p1 p2 p3 : Char} (r : Text) {x : Text}
    (h : ∀ a ∈ x, ¬a = p1) : seqRepl3 p1 p2 p3 r x = x := by
  have h2 := @seqRepl3_app_left p1 p2 p3 r x h []
  have h3 : seqRepl3 p1 p2 p3 r ([] : Text) = [] := rfl
  rw [h3, List.append_nil] at h2
  exact h2

theorem seqRepl3_hom {p1 p2 p3 : Char} (r : Text) {z : Text}
    (h3 : firstIs (fun c => c = p3) z = false) (h23 : firstTwo p2 p3 z = false) :
    ∀ x, seqRepl3 p1 p2 p3 r (x ++ z) = seqRepl3 p1 p2 p3 r x ++ seqRepl3 p1 p2 p3 r z := by
  intro x
  induction x using seqRepl3.induct p1 p2 p3 r with
  | case1 c1 c2 c3 cs hm ih =>
    simp only [List.cons_append]
    rw [seqRepl3, if_pos hm, seqRepl3, if_pos hm, ih, List.append_assoc]
  | case2 c1 c2 c3 cs hm ih =>
    simp only [List.cons_append] at ih ⊢
    rw [seqRepl3, if_neg hm, seqRepl3, if_neg hm, ih, List.cons_append]
  | case3 l hshort =>
    match l, hshort with
    | a :: b :: d :: xs, hs => exact absurd rfl (hs a b d xs)
    | [], _ => rfl
    | [a], _ =>
      cases z with
      | nil => rfl
      | cons z0 zz =>
        cases zz with
        | nil => rfl
        | cons z1 zs =>
          show seqRepl3 p1 p2 p3 r (a :: z0 :: z1 :: zs) =
            a :: seqRepl3 p1 p2 p3 r (z0 :: z1 :: zs)
          rw [seqRepl3, if_neg (by
            rintro ⟨_, hb, hd⟩
            simp only [firstTwo, hb, hd] at h23
            simp at h23)]
    | [a, b], _ =>
      cases z with
      | nil => rfl
      | cons z0 zs =>
        show seqRepl3 p1 p2 p3 r (a :: b :: z0 :: zs) =
          seqRepl3 p1 p2 p3 r [a, b] ++ seqRepl3 p1 p2 p3 r (z0 :: zs)
        rw [seqRepl3, if_neg (by
          rintro ⟨_, _, hd⟩
          simp only [firstIs, hd] at h3
          simp at h3)]
        cases zs with
        | nil => rfl
        | cons z1 zs' =>
          rw [seqRepl3, if_neg (by
            rintro ⟨_, hb, hd⟩
            simp only [firstTwo, hb, hd] at h23
            simp at h23)]
          rfl

theorem seqRepl3_cross {p1 p2 p3 : Char} (r : Text)
    (hp12 : ¬p1 = p2) (hp13 : ¬p1 = p3) (z : Text) :
    ∀ x, seqRepl3 p1 p2 p3 r (x ++ p1 :: p2 :: p3 :: z) =
      seqRepl3 p1 p2 p3 r x ++ r ++ seqRepl3 p1 p2 p3 r z := by
  intro x
  induction x using seqRepl3.induct p1 p2 p3 r with
  | case1 c1 c2 c3 cs hm ih =>
    simp only [List.cons_append]
    rw [seqRepl3, if_pos hm, seqRepl3, if_pos hm, ih]
    simp [List.append_assoc]
  | case2 c1 c2 c3 cs hm ih =>
    simp only [List.cons_append] at ih ⊢
    rw [seqRepl3, if_neg hm, seqRepl3, if_neg hm, ih]
    simp
  | case3 l hshort =>
    match l, hshort with
    | a :: b :: d :: xs, hs => exact absurd rfl (hs a b d xs)
    | [], _ =>
      show seqRepl3 p1 p2 p3 r (p1 :: p2 :: p3 :: z) = r ++ seqRepl3 p1 p2 p3 r z
      rw [seqRepl3, if_pos ⟨rfl, rfl, rfl⟩]
    | [a], _ =>
      show seqRepl3 p1 p2 p3 r (a :: p1 :: p2 :: p3 :: z) =
        a :: (r ++ seqRepl3 p1 p2 p3 r z)
      rw [seqRepl3, if_neg (by rintro ⟨_, hb, _⟩; exact hp12 hb), seqRepl3,
        if_pos ⟨rfl, rfl, rfl⟩]
    | [a, b], _ =>
      show seqRepl3 p1 p2 p3 r (a :: b :: p1 :: p2 :: p3 :: z) =
        a :: b :: (r ++ seqRepl3 p1 p2 p3 r z)
      rw [seqRepl3, if_neg (by rintro ⟨_, _, hd⟩; exact hp13 hd), seqRepl3,
        if_neg (by rintro ⟨_, hb, _⟩; exact hp12 hb), seqRepl3, if_pos ⟨rfl, rfl, rfl⟩]

theorem concat_last_eq {u v : Text} {a c : Char} (h : u ++ [a] = v ++ [c]) : a = c := by
  have ha : (u ++ [a]).getLast? = some a := List.getLast?_concat u
  rw [h, List.getLast?_concat] at ha
  exact (Option.some_inj.mp ha).symm

theorem seqRepl3_hom_last1 {p1 p2 p3 : Char} (r : Text) (hp12 : ¬p1 = p2)
    (hp23 : ¬p2 = p3) {z : Text} :
    ∀ x, x.getLast? ≠ some p1 →
      seqRepl3 p1 p2 p3 r (x ++ p2 :: p3 :: z) =
        seqRepl3 p1 p2 p3 r x ++ seqRepl3 p1 p2 p3 r (p2 :: p3 :: z) := by
  intro x
  induction x using seqRepl3.induct p1 p2 p3 r with
  | case1 c1 c2 c3 cs hm ih =>
    intro hl
    have hl' : cs.getLast? ≠ some p1 := by
      cases cs with
      | nil => simp
      | cons e es =>
        simp only [List.getLast?_cons_cons] at hl
        exact hl
    simp only [List.cons_append]
    rw [seqRepl3, if_pos hm, seqRepl3, if_pos hm, ih hl', List.append_assoc]
  | case2 c1 c2 c3 cs hm ih =>
    intro hl
    have hl' : (c2 :: c3 :: cs).getLast? ≠ some p1 := by
      rw [List.getLast?_cons_cons] at hl
      exact hl
    simp only [List.cons_append] at ih ⊢
    rw [seqRepl3, if_neg hm, seqRepl3, if_neg hm, ih hl', List.cons_append]
  | case3 l hshort =>
    match l, hshort with
    | a :: b :: d :: xs, hs => exact fun _ => absurd rfl (hs a b d xs)
    | [], _ =>
      intro _
      rfl
    | [a], _ =>
      intro hl
      have ha : ¬a = p1 := by simpa using hl
      show seqRepl3 p1 p2 p3 r (a :: p2 :: p3 :: z) =
        a :: seqRepl3 p1 p2 p3 r (p2 :: p3 :: z)
      rw [seqRepl3_cons_ne p2 p3 r ha]
    | [a, b], _ =>
      intro hl
      have hb : ¬b = p1 := by simpa using hl
      show seqRepl3 p1 p2 p3 r (a :: b :: p2 :: p3 :: z) =
        seqRepl3 p1 p2 p3 r [a, b] ++ seqRepl3 p1 p2 p3 r (p2 :: p3 :: z)
      rw [seqRepl3, if_neg (by rintro ⟨_, _, hd⟩; exact hp23 hd),
        seqRepl3_cons_ne p2 p3 r hb]
      rfl

theorem seqRepl3_hom_last2 {p1 p2 p3 : Char} (r : Text) (hp23 : ¬p2 = p3) {z : Text} :
    ∀ x, (∀ y, x ≠ y ++ [p1, p2]) →
      seqRepl3 p1 p2 p3 r (x ++ p3 :: z) =
        seqRepl3 p1 p2 p3 r x ++ seqRepl3 p1 p2 p3 r (p3 :: z) := by
  intro x
  induction x using seqRepl3.induct p1 p2 p3 r with
  | case1 c1 c2 c3 cs hm ih =>
    intro hl
    have hl' : ∀ y, cs ≠ y ++ [p1, p2] := by
      intro y hy
      exact hl (c1 :: c2 :: c3 :: y) (by rw [hy]; simp)
    simp only [List.cons_append]
    rw [seqRepl3, if_pos hm, seqRepl3, if_pos hm, ih hl', List.append_assoc]
  | case2 c1 c2 c3 cs hm ih =>
    intro hl
    have hl' : ∀ y, c2 :: c3 :: cs ≠ y ++ [p1, p2] := by
      intro y hy
      exact hl (c1 :: y) (by rw [List.cons_append, ← hy])
    simp only [List.cons_append] at ih ⊢
    rw [seqRepl3, if_neg hm, seqRepl3, if_neg hm, ih hl', List.cons_append]
  | case3 l hshort =>
    match l, hshort with
    | a :: b :: d :: xs, hs => exact fun _ => absurd rfl (hs a b d xs)
    | [], _ =>
      intro _
      rfl
    | [a], _ =>
      intro _
      show seqRepl3 p1 p2 p3 r (a :: p3 :: z) = a :: seqRepl3 p1 p2 p3 r (p3 :: z)
      cases z with
      | nil => rfl
      | cons w ws =>
        rw [seqRepl3, if_neg (by rintro ⟨_, hb, _⟩; exact hp23 hb.symm)]
    | [a, b], _ =>
      intro hl
      have hab : ¬(a = p1 ∧ b = p2) := by
        rintro ⟨rfl, rfl⟩
        exact hl [] rfl
      show seqRepl3 p1 p2 p3 r (a :: b :: p3 :: z) =
        seqRepl3 p1 p2 p3 r [a, b] ++ seqRepl3 p1 p2 p3 r (p3 :: z)
      rw [seqRepl3, if_neg (by rintro ⟨h1, h2, _⟩; exact hab ⟨h1, h2⟩)]
      cases z with
      | nil => rfl
      | cons w ws =>
        rw [seqRepl3, if_neg (by rintro ⟨_, hb, _⟩; exact hp23 hb.symm)]
        rfl

theorem seqRepl3_junction {p1 p2 p3 : Char} (r : Text)
    (hp12 : ¬p1 = p2) (hp13 : ¬p1 = p3) (hp23 : ¬p2 = p3) (x z : Text) :
    seqRepl3 p1 p2 p3 r (x ++ z) = seqRepl3 p1 p2 p3 r x ++ seqRepl3 p1 p2 p3 r z ∨
    (∃ x' z', x = x' ++ [p1] ∧ z = p2 :: p3 :: z' ∧
      seqRepl3 p1 p2 p3 r x = seqRepl3 p1 p2 p3 r x' ++ [p1] ∧
      seqRepl3 p1 p2 p3 r z = p2 :: p3 :: seqRepl3 p1 p2 p3 r z' ∧
      seqRepl3 p1 p2 p3 r (x ++ z) =
        seqRepl3 p1 p2 p3 r x' ++ r ++ seqRepl3 p1 p2 p3 r z') ∨
    (∃ x' z', x = x' ++ [p1, p2] ∧ z = p3 :: z' ∧
      seqRepl3 p1 p2 p3 r x = seqRepl3 p1 p2 p3 r x' ++ [p1, p2] ∧
      seqRepl3 p1 p2 p3 r z = p3 :: seqRepl3 p1 p2 p3 r z' ∧
      seqRepl3 p1 p2 p3 r (x ++ z) =
        seqRepl3 p1 p2 p3 r x' ++ r ++ seqRepl3 p1 p2 p3 r z') := by
  match z with
  | [] =>
    left
    show seqRepl3 p1 p2 p3 r (x ++ []) = seqRepl3 p1 p2 p3 r x ++ []
    rw [List.append_nil, List.append_nil]
  | z0 :: z1 =>
    by_cases hz0 : z0 = p3
    · rw [hz0]
      rcases List.eq_nil_or_concat x with rfl | ⟨x1, a, rfl⟩
      · left
        exact seqRepl3_hom_last2 r hp23 []
          (fun y hy => by have := congrArg List.length hy; simp at this)
      · simp only [List.concat_eq_append]
        by_cases ha : a = p2
        · rw [ha]
          rcases List.eq_nil_or_concat x1 with rfl | ⟨x2, b, rfl⟩
          · left
            exact seqRepl3_hom_last2 r hp23 ([] ++ [p2])
              (fun y hy => by have := congrArg List.length hy; simp at this)
          · simp only [List.concat_eq_append]
            by_cases hb : b = p1
            · rw [hb]
              right; right
              refine ⟨x2, z1, by simp, rfl, ?_, ?_, ?_⟩
              · rw [seqRepl3_app_one r hp23 (x2 ++ [p1]), seqRepl3_app_one r hp13 x2]
                simp
              · exact seqRepl3_cons_ne p2 p3 r (fun h => hp13 h.symm) z1
              · have he : x2 ++ [p1] ++ [p2] ++ p3 :: z1 = x2 ++ p1 :: p2 :: p3 :: z1 := by
                  simp
                rw [he, seqRepl3_cross r hp12 hp13 z1 x2]
            · left
              refine seqRepl3_hom_last2 r hp23 (x2 ++ [b] ++ [p2]) (fun y hy => ?_)
              have h1 : x2 ++ [b] ++ [p2] = (y ++ [p1]) ++ [p2] := by
                rw [hy]; simp
              have h2 := congrArg List.dropLast h1
              rw [List.dropLast_concat, List.dropLast_concat] at h2
              exact hb (concat_last_eq h2)
        · left
          refine seqRepl3_hom_last2 r hp23 (x1 ++ [a]) (fun y hy => ?_)
          have h1 : x1 ++ [a] = (y ++ [p1]) ++ [p2] := by
            rw [hy]; simp
          exact ha (concat_last_eq h1)
    · match z1 with
      | [] =>
        left
        refine seqRepl3_hom r ?_ ?_ x
        · simp [firstIs, hz0]
        · rfl
      | w :: z2 =>
        by_cases hw : z0 = p2 ∧ w = p3
        · rw [hw.1, hw.2]
          rcases List.eq_nil_or_concat x with rfl | ⟨x1, a, rfl⟩
          · left
            exact seqRepl3_hom_last1 r hp12 hp23 [] (by simp)
          · simp only [List.concat_eq_append]
            by_cases ha : a = p1
            · rw [ha]
              right; left
              refine ⟨x1, z2, rfl, rfl, seqRepl3_app_one r hp13 x1, ?_, ?_⟩
              · rw [seqRepl3_cons_ne p2 p3 r (fun h => hp12 h.symm),
                  seqRepl3_cons_ne p2 p3 r (fun h => hp13 h.symm)]
              · have he : x1 ++ [p1] ++ p2 :: p3 :: z2 = x1 ++ p1 :: p2 :: p3 :: z2 := by
                  simp
                rw [he, seqRepl3_cross r hp12 hp13 z2 x1]
            · left
              refine seqRepl3_hom_last1 r hp12 hp23 (x1 ++ [a]) ?_
              rw [List.getLast?_concat]
              simpa using ha
        · left
          refine seqRepl3_hom r ?_ ?_ x
          · simp [firstIs, hz0]
          · simp only [firstTwo]
            rcases not_and_or.mp hw with hh | hh <;> simp [hh]

theorem endRun_cons (p : Char → Bool) (b : Bool) (c : Char) (cs : Text) :
    endRun p b (c :: cs) = endRun p (p c) cs := rfl

theorem collapseRunsGo_append (p : Char → Bool) :
    ∀ (x : Text) (b : Bool) (y : Text),
      collapseRunsGo p b (x ++ y) =
        collapseRunsGo p b x ++ collapseRunsGo p (endRun p b x) y
  | [], b, y => rfl
  | c :: cs, b, y => by
    by_cases hc : p c = true
    · have he : endRun p b (c :: cs) = endRun p true cs := by
        rw [endRun_cons, hc]
      cases b with
      | false =>
        rw [List.cons_append, collapseRunsGo, if_pos hc, if_neg (by simp),
          collapseRunsGo, if_pos hc, if_neg (by simp), he, List.cons_append,
          collapseRunsGo_append p cs true y]
      | true =>
        rw [List.cons_append, collapseRunsGo, if_pos hc, if_pos rfl,
          collapseRunsGo, if_pos hc, if_pos rfl, he,
          collapseRunsGo_append p cs true y]
    · have hcf : p c = false := by simpa using hc
      have he : endRun p b (c :: cs) = endRun p false cs := by
        rw [endRun_cons, hcf]
      rw [List.cons_append, collapseRunsGo, if_neg hc, collapseRunsGo, if_neg hc, he,
        List.cons_append, collapseRunsGo_append p cs false y]

theorem collapseRunsGo_true_len (p : Char → Bool) (z : Text) :
    (collapseRunsGo p true z).length ≤ (collapseRunsGo p false z).length := by
  cases z with
  | nil => exact le_refl _
  | cons c cs =>
    by_cases hc : p c = true
    · rw [collapseRunsGo, if_pos hc, if_pos rfl, collapseRunsGo, if_pos hc,
        if_neg (by simp)]
      exact Nat.le_succ _
    · rw [collapseRunsGo, if_neg hc, collapseRunsGo, if_neg hc]

theorem collapseRunsGo_cons_not (p : Char → Bool) {c : Char} (hc : ¬p c = true) (b : Bool)
    (cs : Text) : collapseRunsGo p b (c :: cs) = c :: collapseRunsGo p false cs := by
  rw [collapseRunsGo, if_neg hc]

theorem collapseWs_subadd (x y : Text) :
    (collapseWs (x ++ y)).length ≤ (collapseWs x).length + (collapseWs y).length := by
  rw [collapseWs, collapseRunsGo_append pyIsSpace x false y, List.length_append]
  have hy : (collapseRunsGo pyIsSpace (endRun pyIsSpace false x) y).length ≤
      (collapseRunsGo pyIsSpace false y).length := by
    cases endRun pyIsSpace false x with
    | false => exact le_refl _
    | true => exact collapseRunsGo_true_len pyIsSpace y
  exact Nat.add_le_add_left hy _

theorem collapseWs_app_ge (x y : Text) :
    (collapseWs x).length ≤ (collapseWs (x ++ y)).length := by
  simp only [collapseWs]
  rw [collapseRunsGo_append pyIsSpace x false y, List.length_append]
  exact Nat.le_add_right _ _

theorem collapseWs_cons_le (c : Char) (v : Text) :
    (collapseWs (c :: v)).length ≤ 1 + (collapseWs v).length := by
  simp only [collapseWs]
  by_cases hc : pyIsSpace c = true
  · rw [collapseRunsGo, if_pos hc, if_neg (by simp)]
    have := collapseRunsGo_true_len pyIsSpace v
    simp only [List.length_cons]
    omega
  · rw [collapseRunsGo, if_neg hc]
    simp only [List.length_cons]
    omega

theorem subUGo_eq_scan (r : Text) :
    ∀ (x : Text) (st : Nat),
      subUGo r st x = (subUScan r st x).1 ++ subUClose r (subUScan r st x).2
  | [], st => by
    rw [subUGo, subUScan]
    rfl
  | c :: cs, st => by
    by_cases hc : c = '_'
    · rw [subUGo, if_pos hc, subUScan, if_pos hc]
      exact subUGo_eq_scan r cs (min (st + 1) 2)
    · rw [subUGo, if_neg hc, subUScan, if_neg hc, subUGo_eq_scan r cs 0]
      simp

theorem subUGo_scan_append (r : Text) :
    ∀ (x : Text) (st : Nat) (y : Text),
      subUGo r st (x ++ y) = (subUScan r st x).1 ++ subUGo r (subUScan r st x).2 y
  | [], st, y => rfl
  | c :: cs, st, y => by
    by_cases hc : c = '_'
    · rw [List.cons_append, subUGo, if_pos hc, subUScan, if_pos hc]
      exact subUGo_scan_append r cs _ y
    · rw [List.cons_append, subUGo, if_neg hc, subUScan, if_neg hc,
        subUGo_scan_append r cs 0 y]
      simp

theorem subUGo_flush (r : Text) (st : Nat) :
    ∀ {z : Text}, firstIs uC z = false → subUGo r st z = subUClose r st ++ subUGo r 0 z
  | [], _ => by simp [subUGo, subUClose]
  | c :: cs, h => by
    have hc : ¬c = '_' := by
      simp only [firstIs, uC] at h
      simpa using h
    rw [subUGo, if_neg hc, subUGo, if_neg hc]
    simp [subUClose]

theorem subUScan_st_le (r : Text) :
    ∀ (x : Text) (st : Nat), st ≤ 2 → (subUScan r st x).2 ≤ 2
  | [], _, h => h
  | c :: cs, st, h => by
    by_cases hc : c = '_'
    · rw [subUScan, if_pos hc]
      exact subUScan_st_le r cs _ (Nat.min_le_right _ _)
    · rw [subUScan, if_neg hc]
      exact subUScan_st_le r cs 0 (by omega)

theorem subU_app_hom (r : Text) {z : Text} (hz : firstIs uC z = false) (x : Text) :
    subUGo r 0 (x ++ z) = subUGo r 0 x ++ subUGo r 0 z := by
  rw [subUGo_scan_append r x 0 z, subUGo_flush r _ hz, subUGo_eq_scan r x 0,
    List.append_assoc]

theorem subUScan_concat_ne (r : Text) {d : Char} (hd : ¬d = '_') :
    ∀ (x : Text) (st : Nat), (subUScan r st (x ++ [d])).2 = 0
  | [], st => by
    rw [List.nil_append, subUScan, if_neg hd]
    rfl
  | c :: cs, st => by
    by_cases hc : c = '_'
    · rw [List.cons_append, subUScan, if_pos hc]
      exact subUScan_concat_ne r hd cs _
    · rw [List.cons_append, subUScan, if_neg hc]
      exact subUScan_concat_ne r hd cs 0

theorem subU_app_left (r : Text) {d : Char} (hd : ¬d = '_') (x' : Text) (y : Text) :
    subUGo r 0 (x' ++ [d] ++ y) = subUGo r 0 (x' ++ [d]) ++ subUGo r 0 y := by
  rw [subUGo_scan_append r (x' ++ [d]) 0 y, subUScan_concat_ne r hd x' 0,
    subUGo_eq_scan r (x' ++ [d]) 0, subUScan_concat_ne r hd x' 0]
  simp [subUClose]

theorem subU_cons_ne (r : Text) {c : Char} (hc : ¬c = '_') (z : Text) :
    subUGo r 0 (c :: z) = c :: subUGo r 0 z := by
  rw [subUGo, if_neg hc]
  rfl

theorem subU_eq_self (r : Text) : ∀ {x : Text}, (∀ a ∈ x, ¬a = '_') → subUGo r 0 x = x
  | [], _ => rfl
  | c :: cs, h => by
    rw [subU_cons_ne r (h c (List.mem_cons_self _ _)),
      subU_eq_self r (fun a ha => h a (List.mem_cons_of_mem c ha))]

theorem wu_subadd (P Q : Text) :
    (collapseWs (subUGo [' '] 0 (P ++ Q))).length ≤
      (collapseWs (subUGo [' '] 0 P)).length + (collapseWs (subUGo [' '] 0 Q)).length := by
  rw [subUGo_scan_append [' '] P 0 Q]
  have hUP : subUGo [' '] 0 P = (subUScan [' '] 0 P).1 ++
      subUClose [' '] (subUScan [' '] 0 P).2 := subUGo_eq_scan [' '] P 0
  by_cases hq : firstIs uC Q = false
  · rw [subUGo_flush [' '] _ hq, ← List.append_assoc, ← hUP]
    exact collapseWs_subadd _ _
  · match Q, hq with
    | q :: Qs, hq => ?_
    have hq' : q = '_' := by
      simp only [firstIs, uC] at hq
      simpa using hq
    subst hq'
    have hst : (subUScan [' '] 0 P).2 ≤ 2 := subUScan_st_le [' '] P 0 (by omega)
    by_cases hf0 : (subUScan [' '] 0 P).2 = 0
    · rw [hf0] at hUP ⊢
      have hUP' : subUGo [' '] 0 P = (subUScan [' '] 0 P).1 := by
        rw [hUP]
        simp [subUClose]
      rw [← hUP']
      exact collapseWs_subadd _ _
    · have hmin : min ((subUScan [' '] 0 P).2 + 1) 2 = 2 := by omega
      rw [subUGo, if_pos rfl, hmin]
      have hUQ : subUGo [' '] 0 ('_' :: Qs) = subUGo [' '] 1 Qs := by
        rw [subUGo, if_pos rfl]
        rfl
      have hclose : (subUClose [' '] (subUScan [' '] 0 P).2).length = 1 := by
        rw [subUClose, if_neg hf0]
        by_cases h1 : (subUScan [' '] 0 P).2 = 1 <;> simp [h1]
      have hcore : ((subUScan [' '] 0 P).1).length + 1 = (subUGo [' '] 0 P).length := by
        rw [hUP, List.length_append, hclose]
      match Qs with
      | [] =>
        have h2 : subUGo [' '] 2 ([] : Text) = [' '] := rfl
        have h1 : subUGo [' '] 1 ([] : Text) = ['_'] := rfl
        rw [h2, hUQ, h1]
        calc (collapseWs ((subUScan [' '] 0 P).1 ++ [' '])).length
            ≤ (collapseWs (subUScan [' '] 0 P).1).length + (collapseWs [' ']).length :=
              collapseWs_subadd _ _
          _ ≤ (collapseWs (subUGo [' '] 0 P)).length + (collapseWs ['_']).length := by
              have hge := collapseWs_app_ge (subUScan [' '] 0 P).1
                (subUClose [' '] (subUScan [' '] 0 P).2)
              rw [← hUP] at hge
              have e1 : (collapseWs [' ']).length = 1 := rfl
              have e2 : (collapseWs ['_']).length = 1 := rfl
              omega
      | q2 :: Qs' =>
        by_cases h2 : q2 = '_'
        · subst h2
          have ha : subUGo [' '] 2 ('_' :: Qs') = subUGo [' '] 2 Qs' := by
            rw [subUGo, if_pos rfl]
            rfl
          have hb : subUGo [' '] 1 ('_' :: Qs') = subUGo [' '] 2 Qs' := by
            rw [subUGo, if_pos rfl]
            rfl
          rw [ha, hUQ, hb]
          calc (collapseWs ((subUScan [' '] 0 P).1 ++ subUGo [' '] 2 Qs')).length
              ≤ (collapseWs (subUScan [' '] 0 P).1).length +
                  (collapseWs (subUGo [' '] 2 Qs')).length := collapseWs_subadd _ _
            _ ≤ (collapseWs (subUGo [' '] 0 P)).length +
                  (collapseWs (subUGo [' '] 2 Qs')).length := by
                have hge := collapseWs_app_ge (subUScan [' '] 0 P).1
                  (subUClose [' '] (subUScan [' '] 0 P).2)
                rw [← hUP] at hge
                omega
        · have ha : subUGo [' '] 2 (q2 :: Qs') = ' ' :: q2 :: subUGo [' '] 0 Qs' := by
            rw [subUGo, if_neg h2]
            rfl
          have hb : subUGo [' '] 1 (q2 :: Qs') = '_' :: q2 :: subUGo [' '] 0 Qs' := by
            rw [subUGo, if_neg h2]
            rfl
          rw [ha, hUQ, hb]
          have hsp : (collapseWs (' ' :: q2 :: subUGo [' '] 0 Qs')).length ≤
              1 + (collapseWs (q2 :: subUGo [' '] 0 Qs')).length :=
            collapseWs_cons_le _ _
          have hun : collapseWs ('_' :: q2 :: subUGo [' '] 0 Qs') =
              '_' :: collapseWs (q2 :: subUGo [' '] 0 Qs') := by
            rw [collapseWs]
            exact collapseRunsGo_cons_not pyIsSpace (by simp [pyIsSpace]) false _
          calc (collapseWs ((subUScan [' '] 0 P).1 ++ ' ' :: q2 :: subUGo [' '] 0 Qs')).length
              ≤ (collapseWs (subUScan [' '] 0 P).1).length +
                  (collapseWs (' ' :: q2 :: subUGo [' '] 0 Qs')).length :=
                collapseWs_subadd _ _
            _ ≤ (collapseWs (subUGo [' '] 0 P)).length +
                  (collapseWs ('_' :: q2 :: subUGo [' '] 0 Qs')).length := by
                have hge := collapseWs_app_ge (subUScan [' '] 0 P).1
                  (subUClose [' '] (subUScan [' '] 0 P).2)
                rw [← hUP] at hge
                rw [hun]
                simp only [List.length_cons]
                omega

theorem collapseRunsGo_solid (p : Char → Bool) :
    ∀ {s : Text}, (∀ c ∈ s, ¬p c = true) → ∀ b, collapseRunsGo p b s = s
  | [], _, _ => rfl
  | c :: cs, h, b => by
    rw [collapseRunsGo_cons_not p (h c (List.mem_cons_self _ _)),
      collapseRunsGo_solid p (fun a ha => h a (List.mem_cons_of_mem c ha)) false]

theorem wu_app_solid (A : Text) {s : Text}
    (hs : ∀ c ∈ s, ¬c = '_' ∧ ¬pyIsSpace c = true) :
    (collapseWs (subUGo [' '] 0 (A ++ s))).length =
      (collapseWs (subUGo [' '] 0 A)).length + s.length := by
  have hfi : firstIs uC s = false := by
    cases s with
    | nil => rfl
    | cons c cs =>
      simp only [firstIs, uC]
      simpa using (hs c (List.mem_cons_self _ _)).1
  rw [subU_app_hom [' '] hfi A,
    subU_eq_self [' '] (fun a ha => (hs a ha).1), collapseWs,
    collapseRunsGo_append pyIsSpace _ false s,
    collapseRunsGo_solid pyIsSpace (fun a ha => (hs a ha).2) _,
    List.length_append]
  rfl

theorem wu_cons_solid {c : Char} (hc : ¬c = '_') (hw : ¬pyIsSpace c = true) (B : Text) :
    (collapseWs (subUGo [' '] 0 (c :: B))).length =
      1 + (collapseWs (subUGo [' '] 0 B)).length := by
  rw [subU_cons_ne [' '] hc, collapseWs, collapseRunsGo_cons_not pyIsSpace hw false]
  rw [List.length_cons]
  rw [Nat.add_comm]
  rfl

theorem wu_cons_sp_le (B : Text) :
    (collapseWs (subUGo [' '] 0 (' ' :: B))).length ≤
      1 + (collapseWs (subUGo [' '] 0 B)).length := by
  rw [subU_cons_ne [' '] (by decide)]
  exact collapseWs_cons_le _ _

theorem wus_subadd {p1 p2 p3 : Char} (hp12 : ¬p1 = p2) (hp13 : ¬p1 = p3)
    (hp23 : ¬p2 = p3)
    (hs1 : ¬p1 = '_' ∧ ¬pyIsSpace p1 = true) (hs2 : ¬p2 = '_' ∧ ¬pyIsSpace p2 = true)
    (hs3 : ¬p3 = '_' ∧ ¬pyIsSpace p3 = true) (P Q : Text) :
    (collapseWs (subUGo [' '] 0 (seqRepl3 p1 p2 p3 [' '] (P ++ Q)))).length ≤
      (collapseWs (subUGo [' '] 0 (seqRepl3 p1 p2 p3 [' '] P))).length +
        (collapseWs (subUGo [' '] 0 (seqRepl3 p1 p2 p3 [' '] Q))).length := by
  rcases seqRepl3_junction [' '] hp12 hp13 hp23 P Q with heq |
    ⟨P', Q', hP, hQ, hSP, hSQ, hSPQ⟩ | ⟨P', Q', hP, hQ, hSP, hSQ, hSPQ⟩
  · rw [heq]
    exact wu_subadd _ _
  · rw [hSPQ, hSP, hSQ]
    have h1 : seqRepl3 p1 p2 p3 [' '] P' ++ [' '] ++ seqRepl3 p1 p2 p3 [' '] Q' =
        seqRepl3 p1 p2 p3 [' '] P' ++ (' ' :: seqRepl3 p1 p2 p3 [' '] Q') := by
      simp
    rw [h1]
    have h2 := wu_subadd (seqRepl3 p1 p2 p3 [' '] P') (' ' :: seqRepl3 p1 p2 p3 [' '] Q')
    have h3 := wu_cons_sp_le (seqRepl3 p1 p2 p3 [' '] Q')
    have h4 := wu_app_solid (seqRepl3 p1 p2 p3 [' '] P')
      (s := [p1]) (fun c hc => by
        rcases List.mem_singleton.mp hc with rfl
        exact hs1)
    have h5 := wu_cons_solid hs2.1 hs2.2 (p3 :: seqRepl3 p1 p2 p3 [' '] Q')
    have h6 := wu_cons_solid hs3.1 hs3.2 (seqRepl3 p1 p2 p3 [' '] Q')
    simp only [List.length_singleton] at h4
    omega
  · rw [hSPQ, hSP, hSQ]
    have h1 : seqRepl3 p1 p2 p3 [' '] P' ++ [' '] ++ seqRepl3 p1 p2 p3 [' '] Q' =
        seqRepl3 p1 p2 p3 [' '] P' ++ (' ' :: seqRepl3 p1 p2 p3 [' '] Q') := by
      simp
    rw [h1]
    have h2 := wu_subadd (seqRepl3 p1 p2 p3 [' '] P') (' ' :: seqRepl3 p1 p2 p3 [' '] Q')
    have h3 := wu_cons_sp_le (seqRepl3 p1 p2 p3 [' '] Q')
    have h4 := wu_app_solid (seqRepl3 p1 p2 p3 [' '] P')
      (s := [p1, p2]) (fun c hc => by
        rcases List.mem_cons.mp hc with rfl | hc2
        · exact hs1
        · rcases List.mem_singleton.mp hc2 with rfl
          exact hs2)
    have h5 := wu_cons_solid hs3.1 hs3.2 (seqRepl3 p1 p2 p3 [' '] Q')
    have hlen : ([p1, p2] : Text).length = 2 := rfl
    rw [hlen] at h4
    omega

theorem wus2s1_subadd (X Y : Text) :
    (collapseWs (subUGo [' '] 0 (seqRepl3 '‚' 'Ä' 'ì' [' ']
        (seqRepl3 '‚' 'Ä' 'î' [' '] (X ++ Y))))).length ≤
      (collapseWs (subUGo [' '] 0 (seqRepl3 '‚' 'Ä' 'ì' [' ']
        (seqRepl3 '‚' 'Ä' 'î' [' '] X)))).length +
      (collapseWs (subUGo [' '] 0 (seqRepl3 '‚' 'Ä' 'ì' [' ']
        (seqRepl3 '‚' 'Ä' 'î' [' '] Y)))).length := by
  have hB12 : ¬ '‚' = 'Ä' := by decide
  have hB13 : ¬ '‚' = 'ì' := by decide
  have hB23 : ¬ 'Ä' = 'ì' := by decide
  have hsA : (¬ '‚' = '_' ∧ ¬pyIsSpace '‚' = true) := by constructor <;> decide
  have hsB : (¬ 'Ä' = '_' ∧ ¬pyIsSpace 'Ä' = true) := by constructor <;> decide
  have hsC : (¬ 'ì' = '_' ∧ ¬pyIsSpace 'ì' = true) := by constructor <;> decide
  have hsD : (¬ 'î' = '_' ∧ ¬pyIsSpace 'î' = true) := by constructor <;> decide
  rcases seqRepl3_junction [' '] (by decide : ¬ '‚' = 'Ä') (by decide : ¬ '‚' = 'î')
    (by decide : ¬ 'Ä' = 'î') X Y with heq |
    ⟨X', Y', hX, hY, hSX, hSY, hSXY⟩ | ⟨X', Y', hX, hY, hSX, hSY, hSXY⟩
  · rw [heq]
    exact wus_subadd hB12 hB13 hB23 hsA hsB hsC _ _
  · rw [hSXY, hSX, hSY]
    set A := seqRepl3 '‚' 'Ä' 'î' [' '] X' with hA
    set B := seqRepl3 '‚' 'Ä' 'î' [' '] Y' with hB
    have h1 : A ++ [' '] ++ B = A ++ (' ' :: B) := by simp
    rw [h1]
    have h2 := wus_subadd hB12 hB13 hB23 hsA hsB hsC A (' ' :: B)
    have h3 : seqRepl3 '‚' 'Ä' 'ì' [' '] (' ' :: B) = ' ' :: seqRepl3 '‚' 'Ä' 'ì' [' '] B :=
      seqRepl3_cons_ne 'Ä' 'ì' [' '] (by decide) B
    have h4 := wu_cons_sp_le (seqRepl3 '‚' 'Ä' 'ì' [' '] B)
    have h5 : seqRepl3 '‚' 'Ä' 'ì' [' '] (A ++ ['‚']) =
        seqRepl3 '‚' 'Ä' 'ì' [' '] A ++ ['‚'] := seqRepl3_app_one [' '] (by decide) A
    have h6 := wu_app_solid (seqRepl3 '‚' 'Ä' 'ì' [' '] A) (s := ['‚'])
      (fun c hc => by rcases List.mem_singleton.mp hc with rfl; exact hsA)
    have h7 : seqRepl3 '‚' 'Ä' 'ì' [' '] ('Ä' :: 'î' :: B) =
        'Ä' :: 'î' :: seqRepl3 '‚' 'Ä' 'ì' [' '] B := by
      rw [seqRepl3_cons_ne 'Ä' 'ì' [' '] (by decide) ('î' :: B),
        seqRepl3_cons_ne 'Ä' 'ì' [' '] (by decide) B]
    have h8 := wu_cons_solid hsB.1 hsB.2 ('î' :: seqRepl3 '‚' 'Ä' 'ì' [' '] B)
    have h9 := wu_cons_solid hsD.1 hsD.2 (seqRepl3 '‚' 'Ä' 'ì' [' '] B)
    rw [h3] at h2
    rw [h5, h7]
    simp only [List.length_singleton] at h6
    omega
  · rw [hSXY, hSX, hSY]
    set A := seqRepl3 '‚' 'Ä' 'î' [' '] X' with hA
    set B := seqRepl3 '‚' 'Ä' 'î' [' '] Y' with hB
    have h1 : A ++ [' '] ++ B = A ++ (' ' :: B) := by simp
    rw [h1]
    have h2 := wus_subadd hB12 hB13 hB23 hsA hsB hsC A (' ' :: B)
    have h3 : seqRepl3 '‚' 'Ä' 'ì' [' '] (' ' :: B) = ' ' :: seqRepl3 '‚' 'Ä' 'ì' [' '] B :=
      seqRepl3_cons_ne 'Ä' 'ì' [' '] (by decide) B
    have h4 := wu_cons_sp_le (seqRepl3 '‚' 'Ä' 'ì' [' '] B)
    have h5 : seqRepl3 '‚' 'Ä' 'ì' [' '] (A ++ ['‚', 'Ä']) =
        seqRepl3 '‚' 'Ä' 'ì' [' '] A ++ ['‚', 'Ä'] := by
      have ha : A ++ ['‚', 'Ä'] = (A ++ ['‚']) ++ ['Ä'] := by simp
      rw [ha, seqRepl3_app_one [' '] (by decide) (A ++ ['‚']),
        seqRepl3_app_one [' '] (by decide) A]
      simp
    have h6 := wu_app_solid (seqRepl3 '‚' 'Ä' 'ì' [' '] A) (s := ['‚', 'Ä'])
      (fun c hc => by
        rcases List.mem_cons.mp hc with rfl | hc2
        · exact hsA
        · rcases List.mem_singleton.mp hc2 with rfl
          exact hsB)
    have h7 : seqRepl3 '‚' 'Ä' 'ì' [' '] ('î' :: B) =
        'î' :: seqRepl3 '‚' 'Ä' 'ì' [' '] B :=
      seqRepl3_cons_ne 'Ä' 'ì' [' '] (by decide) B
    have h8 := wu_cons_solid hsD.1 hsD.2 (seqRepl3 '‚' 'Ä' 'ì' [' '] B)
    rw [h3] at h2
    rw [h5, h7]
    have hlen : (['‚', 'Ä'] : Text).length = 2 := rfl
    rw [hlen] at h6
    omega

theorem dropWhile_app_all {p : Char → Bool} {s : Text} (hs : s.all p = true) (m : Text) :
    (s ++ m).dropWhile p = m.dropWhile p := by
  rw [List.dropWhile_append]
  have hnil : s.dropWhile p = [] := by
    rw [List.dropWhile_eq_nil_iff]
    exact fun x hx => List.all_eq_true.mp hs x hx
  rw [hnil]
  simp

theorem dropWhile_nonempty_head {p : Char → Bool} {l : Text}
    (h : ¬(l.dropWhile p).isEmpty = true) (m : Text) :
    (l ++ m).dropWhile p = l.dropWhile p ++ m := by
  rw [List.dropWhile_append, if_neg h]

theorem pyStrip_all_ws {y : Text} (h : ∀ c ∈ y, pyIsSpace c = true) : pyStrip y = [] := by
  rw [pyStrip]
  have hnil : y.dropWhile pyIsSpace = [] := by
    rw [List.dropWhile_eq_nil_iff]
    exact h
  rw [hnil]
  rfl

theorem pyStrip_len_le (l : Text) : (pyStrip l).length ≤ l.length := by
  rw [pyStrip, List.length_reverse]
  calc ((l.dropWhile pyIsSpace).reverse.dropWhile pyIsSpace).length
      ≤ (l.dropWhile pyIsSpace).reverse.length := (List.dropWhile_suffix pyIsSpace).length_le
    _ = (l.dropWhile pyIsSpace).length := List.length_reverse _
    _ ≤ l.length := (List.dropWhile_suffix pyIsSpace).length_le

theorem pyStrip_cons_ws {c : Char} (hc : pyIsSpace c = true) (l : Text) :
    pyStrip (c :: l) = pyStrip l := by
  rw [pyStrip, pyStrip, List.dropWhile_cons_of_pos hc]

theorem pyStrip_app_ws {s : Text} (hs : ∀ c ∈ s, pyIsSpace c = true) (x : Text) :
    pyStrip (x ++ s) = pyStrip x := by
  rw [pyStrip, pyStrip, List.dropWhile_append]
  have hsd : s.dropWhile pyIsSpace = [] := by
    rw [List.dropWhile_eq_nil_iff]
    exact hs
  cases hx : (x.dropWhile pyIsSpace).isEmpty
  · have hrs : s.reverse.all pyIsSpace = true := by
      rw [List.all_eq_true]
      intro c hc
      exact hs c (List.mem_reverse.mp hc)
    rw [if_neg (by simp), List.reverse_append, dropWhile_app_all hrs]
  · rw [if_pos rfl, hsd]
    have hxe : x.dropWhile pyIsSpace = [] := by
      cases hxx : x.dropWhile pyIsSpace
      · rfl
      · rw [hxx] at hx
        simp at hx
    rw [hxe]

theorem rstrip_lstrip_le (p : Char → Bool) (y : Text) :
    ((y.dropWhile p).reverse.dropWhile p).length ≤ (y.reverse.dropWhile p).length := by
  conv_rhs => rw [← List.takeWhile_append_dropWhile p y]
  rw [List.reverse_append, List.dropWhile_append]
  cases hd : ((y.dropWhile p).reverse.dropWhile p).isEmpty
  · rw [if_neg (by simp), List.length_append]
    exact Nat.le_add_right _ _
  · rw [if_pos rfl]
    have hnil : (y.dropWhile p).reverse.dropWhile p = [] := by
      cases hx : (y.dropWhile p).reverse.dropWhile p
      · rfl
      · rw [hx] at hd
        simp at hd
    rw [hnil]
    simp

theorem pyStrip_app_ge (x y : Text) :
    (pyStrip x).length ≤ (pyStrip (x ++ y)).length := by
  rw [pyStrip, pyStrip, List.length_reverse, List.length_reverse, List.dropWhile_append]
  cases hx : (x.dropWhile pyIsSpace).isEmpty
  · rw [if_neg (by simp), List.reverse_append, List.dropWhile_append]
    cases hy : (y.reverse.dropWhile pyIsSpace).isEmpty
    · rw [if_neg (by simp), List.length_append]
      have h1 : ((x.dropWhile pyIsSpace).reverse.dropWhile pyIsSpace).length ≤
          (x.dropWhile pyIsSpace).reverse.length :=
        (List.dropWhile_suffix pyIsSpace).length_le
      omega
    · rw [if_pos rfl]
  · rw [if_pos rfl]
    have hxe : x.dropWhile pyIsSpace = [] := by
      cases hxx : x.dropWhile pyIsSpace
      · rfl
      · rw [hxx] at hx
        simp at hx
    rw [hxe]
    simp

theorem pyStrip_app_superadd (x y : Text) :
    (pyStrip x).length + (pyStrip y).length ≤ (pyStrip (x ++ y)).length := by
  rw [pyStrip, pyStrip, pyStrip, List.length_reverse, List.length_reverse,
    List.length_reverse, List.dropWhile_append]
  cases hx : (x.dropWhile pyIsSpace).isEmpty
  · rw [if_neg (by simp), List.reverse_append, List.dropWhile_append]
    cases hy : ((y.dropWhile pyIsSpace).reverse.dropWhile pyIsSpace).isEmpty
    · have hyr : ¬(y.reverse.dropWhile pyIsSpace).isEmpty = true := by
        intro hcon
        have : (y.reverse.dropWhile pyIsSpace).length = 0 := by
          cases hzz : y.reverse.dropWhile pyIsSpace
          · rfl
          · rw [hzz] at hcon; simp at hcon
        have h2 := rstrip_lstrip_le pyIsSpace y
        rw [this] at h2
        have h3 : ((y.dropWhile pyIsSpace).reverse.dropWhile pyIsSpace).length = 0 := by omega
        cases hzz : (y.dropWhile pyIsSpace).reverse.dropWhile pyIsSpace
        · rw [hzz] at hy; simp at hy
        · rw [hzz] at h3; simp at h3
      rw [if_neg hyr, List.length_append]
      have h1 := rstrip_lstrip_le pyIsSpace y
      have h2 : ((x.dropWhile pyIsSpace).reverse.dropWhile pyIsSpace).length ≤
          (x.dropWhile pyIsSpace).reverse.length :=
        (List.dropWhile_suffix pyIsSpace).length_le
      omega
    · have hse : (y.dropWhile pyIsSpace).reverse.dropWhile pyIsSpace = [] := by
        cases hzz : (y.dropWhile pyIsSpace).reverse.dropWhile pyIsSpace
        · rfl
        · rw [hzz] at hy; simp at hy
      rw [hse]
      simp only [List.length_nil, Nat.add_zero]
      cases hyr : (y.reverse.dropWhile pyIsSpace).isEmpty
      · rw [if_neg (by simp), List.length_append]
        have h2 : ((x.dropWhile pyIsSpace).reverse.dropWhile pyIsSpace).length ≤
            (x.dropWhile pyIsSpace).reverse.length :=
          (List.dropWhile_suffix pyIsSpace).length_le
        omega
      · rw [if_pos rfl]
  · rw [if_pos rfl]
    have hxe : x.dropWhile pyIsSpace = [] := by
      cases hxx : x.dropWhile pyIsSpace
      · rfl
      · rw [hxx] at hx
        simp at hx
    rw [hxe]
    simp

theorem pyStrip_solid_left {h : Text} (hh : headNonWs h = true)
    (hl : headNonWs h.reverse = true) (w : Text) :
    h.length + (pyStrip w).length ≤ (pyStrip (h ++ w)).length := by
  cases h with
  | nil => simpa using le_refl (pyStrip w).length
  | cons c cs =>
    have hcw : ¬pyIsSpace c = true := by
      simp only [headNonWs] at hh
      simpa using hh
    conv_rhs => rw [pyStrip]
    rw [List.length_reverse, List.cons_append, List.dropWhile_cons_of_neg hcw]
    have hrev : (c :: (cs ++ w)).reverse = w.reverse ++ (c :: cs).reverse := by
      rw [← List.reverse_append, List.cons_append]
    rw [hrev, List.dropWhile_append]
    have hdr : (c :: cs).reverse.dropWhile pyIsSpace = (c :: cs).reverse := by
      cases hr : (c :: cs).reverse with
      | nil => rfl
      | cons d ds =>
        rw [hr] at hl
        simp only [headNonWs] at hl
        exact List.dropWhile_cons_of_neg (by simpa using hl)
    cases hw : (w.reverse.dropWhile pyIsSpace).isEmpty
    · rw [if_neg (by simp), List.length_append]
      have h1 : (pyStrip w).length ≤ (w.reverse.dropWhile pyIsSpace).length := by
        rw [pyStrip, List.length_reverse]
        exact rstrip_lstrip_le pyIsSpace w
      have h2 : (c :: cs).reverse.length = (c :: cs).length := List.length_reverse _
      omega
    · rw [if_pos rfl, hdr, List.length_reverse]
      have hwnil : w.reverse.dropWhile pyIsSpace = [] := by
        cases hzz : w.reverse.dropWhile pyIsSpace
        · rfl
        · rw [hzz] at hw; simp at hw
      have hstw : (pyStrip w).length = 0 := by
        have h1 : (pyStrip w).length ≤ (w.reverse.dropWhile pyIsSpace).length := by
          rw [pyStrip, List.length_reverse]
          exact rstrip_lstrip_le pyIsSpace w
        rw [hwnil] at h1
        simpa using h1
      omega

theorem noPair_iff_chain {A B : Char → Bool} :
    ∀ l : Text, noPair A B l = true ↔
      List.Chain' (fun a b => ¬(A a = true ∧ B b = true)) l
  | [] => by simp [noPair]
  | [c] => by simp [noPair, firstIs]
  | c :: d :: ls => by
    rw [noPair, Bool.and_eq_true, List.chain'_cons, noPair_iff_chain (d :: ls)]
    constructor
    · rintro ⟨h1, h2⟩
      refine ⟨?_, h2⟩
      rintro ⟨ha, hb⟩
      rw [ha] at h1
      simp only [firstIs] at h1
      rw [hb] at h1
      simp at h1
    · rintro ⟨h1, h2⟩
      refine ⟨?_, h2⟩
      simp only [firstIs]
      cases hac : A c
      · simp
      · cases hbd : B d
        · simp
        · exact absurd ⟨hac, hbd⟩ h1

theorem noPair_rev {A : Char → Bool} {l : Text} (h : noPair A A l = true) :
    noPair A A l.reverse = true := by
  rw [noPair_iff_chain] at h ⊢
  rw [List.chain'_reverse]
  exact List.Chain'.imp (fun a b hab => fun ⟨h1, h2⟩ => hab ⟨h2, h1⟩) h

theorem dropWhile_len_noPair {l : Text} (h : noPair pyIsSpace pyIsSpace l = true) :
    l.length ≤ (l.dropWhile pyIsSpace).length + 1 := by
  cases l with
  | nil => simp
  | cons c cs =>
    by_cases hc : pyIsSpace c = true
    · rw [List.dropWhile_cons_of_pos hc]
      have hh := noPair_head h
      rw [hc] at hh
      have hfi : firstIs pyIsSpace cs = false := by
        cases hfi : firstIs pyIsSpace cs
        · rfl
        · rw [hfi] at hh
          simp at hh
      have hcs : cs.dropWhile pyIsSpace = cs := by
        cases cs with
        | nil => rfl
        | cons d ds =>
          simp only [firstIs] at hfi
          exact List.dropWhile_cons_of_neg (by simpa using hfi)
      rw [hcs]
      simp
    · rw [List.dropWhile_cons_of_neg (by simpa using hc)]
      simp

theorem pyStrip_noPair_ge {y : Text} (h : noPair pyIsSpace pyIsSpace y = true) :
    y.length ≤ (pyStrip y).length + 2 := by
  have h1 := dropWhile_len_noPair h
  have h2 : noPair pyIsSpace pyIsSpace (y.dropWhile pyIsSpace) = true := by
    apply noPair_append_left (y.takeWhile pyIsSpace)
    rw [List.takeWhile_append_dropWhile]
    exact h
  have h3 := noPair_rev h2
  have h4 := dropWhile_len_noPair h3
  rw [List.length_reverse] at h4
  rw [pyStrip, List.length_reverse]
  omega

theorem endRun_concat (p : Char → Bool) : ∀ (b : Bool) (u : Text) (d : Char), endRun p b (u ++ [d]) = p d := by
  intro b u
  induction u generalizing b with
  | nil => intro d; rfl
  | cons c cs ih => intro d; exact ih (p c) d

theorem firstTwo_cons_fst {p q a : Char} (h : ¬a = p) (t : Text) :
    firstTwo p q (a :: t) = false := by
  cases t with
  | nil => rfl
  | cons b tb => simp [firstTwo, h]

theorem charReplace_eq_self {a b : Char} {t : Text} (h : ∀ c ∈ t, ¬c = a) :
    charReplace a b t = t := by
  rw [charReplace]
  conv_rhs => rw [← List.map_id t]
  refine List.map_congr_left (fun c hc => ?_)
  rw [if_neg (h c hc)]
  rfl

theorem charReplace_append (a b : Char) (x y : Text) :
    charReplace a b (x ++ y) = charReplace a b x ++ charReplace a b y := by
  simp [charReplace]

theorem charReplace_cons (a b c : Char) (t : Text) :
    charReplace a b (c :: t) = (if c = a then b else c) :: charReplace a b t := rfl

theorem preClean_subadd (a b : Text) :
    (preClean (a ++ b)).length ≤ (preClean a).length + (preClean b).length := by
  simp only [preClean, collapseWs]
  rw [charReplace_append, charReplace_append]
  exact wus2s1_subadd _ _

theorem preClean_noPair (t : Text) :
    noPair pyIsSpace pyIsSpace (preClean t) = true :=
  colWs_noPair _

theorem clean_subadd4 (a b : Text) :
    (clean_text (a ++ b)).length ≤ (clean_text a).length + (clean_text b).length + 4 := by
  have h1 := pyStrip_len_le (preClean (a ++ b))
  have h2 := preClean_subadd a b
  have h3 := pyStrip_noPair_ge (preClean_noPair a)
  have h4 := pyStrip_noPair_ge (preClean_noPair b)
  show (pyStrip (preClean (a ++ b))).length ≤
    (pyStrip (preClean a)).length + (pyStrip (preClean b)).length + 4
  omega

theorem preClean_hom_hard {z : Text} (hz : firstIs hardC z = true) (x : Text) :
    preClean (x ++ z) = preClean x ++ preClean z := by
  match z, hz with
  | z0 :: zs, hz =>
  simp only [firstIs, hardC, Bool.and_eq_true, Bool.not_eq_true'] at hz
  obtain ⟨⟨⟨⟨⟨hw, hu⟩, hq1⟩, hq2⟩, hq3⟩, hq4⟩ := hz
  have hu' : ¬z0 = '_' := by simpa using hu
  have hq1' : ¬z0 = '‚' := by simpa using hq1
  have hq2' : ¬z0 = 'Ä' := by simpa using hq2
  have hq3' : ¬z0 = 'î' := by simpa using hq3
  have hq4' : ¬z0 = 'ì' := by simpa using hq4
  have hwn : ¬pyIsSpace z0 = true := by simp [hw]
  have hn : ¬z0 = '\n' := by
    intro h
    rw [h] at hw
    simp [pyIsSpace] at hw
  have hr : ¬z0 = '\r' := by
    intro h
    rw [h] at hw
    simp [pyIsSpace] at hw
  have hgz : charReplace '\r' ' ' (charReplace '\n' ' ' (z0 :: zs)) =
      z0 :: charReplace '\r' ' ' (charReplace '\n' ' ' zs) := by
    rw [charReplace_cons, if_neg hn, charReplace_cons, if_neg hr]
  simp only [preClean, collapseWs]
  rw [charReplace_append, charReplace_append, hgz]
  set G := charReplace '\r' ' ' (charReplace '\n' ' ' zs) with hG
  set X := charReplace '\r' ' ' (charReplace '\n' ' ' x) with hX
  have hs1 : seqRepl3 '‚' 'Ä' 'î' [' '] (X ++ z0 :: G) =
      seqRepl3 '‚' 'Ä' 'î' [' '] X ++ seqRepl3 '‚' 'Ä' 'î' [' '] (z0 :: G) := by
    refine seqRepl3_hom [' '] ?_ ?_ X
    · simp [firstIs, hq3']
    · exact firstTwo_cons_fst hq2' _
  have hs1c : seqRepl3 '‚' 'Ä' 'î' [' '] (z0 :: G) =
      z0 :: seqRepl3 '‚' 'Ä' 'î' [' '] G := seqRepl3_cons_ne 'Ä' 'î' [' '] hq1' G
  have hs2 : seqRepl3 '‚' 'Ä' 'ì' [' ']
        (seqRepl3 '‚' 'Ä' 'î' [' '] X ++ z0 :: seqRepl3 '‚' 'Ä' 'î' [' '] G) =
      seqRepl3 '‚' 'Ä' 'ì' [' '] (seqRepl3 '‚' 'Ä' 'î' [' '] X) ++
        seqRepl3 '‚' 'Ä' 'ì' [' '] (z0 :: seqRepl3 '‚' 'Ä' 'î' [' '] G) := by
    refine seqRepl3_hom [' '] ?_ ?_ _
    · simp [firstIs, hq4']
    · exact firstTwo_cons_fst hq2' _
  have hs2c : seqRepl3 '‚' 'Ä' 'ì' [' '] (z0 :: seqRepl3 '‚' 'Ä' 'î' [' '] G) =
      z0 :: seqRepl3 '‚' 'Ä' 'ì' [' '] (seqRepl3 '‚' 'Ä' 'î' [' '] G) :=
    seqRepl3_cons_ne 'Ä' 'ì' [' '] hq1' _
  rw [hs1, hs1c, hs2, hs2c]
  set B := seqRepl3 '‚' 'Ä' 'ì' [' '] (seqRepl3 '‚' 'Ä' 'î' [' '] G) with hB
  set A := seqRepl3 '‚' 'Ä' 'ì' [' '] (seqRepl3 '‚' 'Ä' 'î' [' '] X) with hA
  have hsu : subUGo [' '] 0 (A ++ z0 :: B) = subUGo [' '] 0 A ++ subUGo [' '] 0 (z0 :: B) := by
    refine subU_app_hom [' '] ?_ A
    simp [firstIs, uC, hu']
  have hsuc : subUGo [' '] 0 (z0 :: B) = z0 :: subUGo [' '] 0 B := subU_cons_ne [' '] hu' B
  rw [hsu, hsuc]
  rw [collapseRunsGo_append pyIsSpace (subUGo [' '] 0 A) false (z0 :: subUGo [' '] 0 B)]
  rw [collapseRunsGo_cons_not pyIsSpace hwn, collapseRunsGo_cons_not pyIsSpace hwn]

theorem cleanLen_superadd_hard {z : Text} (hz : firstIs hardC z = true) (x : Text) :
    (clean_text x).length + (clean_text z).length ≤ (clean_text (x ++ z)).length := by
  show (pyStrip (preClean x)).length + (pyStrip (preClean z)).length ≤
    (pyStrip (preClean (x ++ z))).length
  rw [preClean_hom_hard hz x]
  exact pyStrip_app_superadd _ _

theorem preClean_split_headws {z : Text} (hz : firstIs pyIsSpace z = true) (x : Text) :
    ∃ R, preClean (x ++ z) = preClean x ++ R := by
  match z, hz with
  | z0 :: zs, hz =>
  simp only [firstIs] at hz
  have hu' : ¬z0 = '_' := by
    intro h
    rw [h] at hz
    simp [pyIsSpace] at hz
  have hq1' : ¬z0 = '‚' := by
    intro h
    rw [h] at hz
    simp [pyIsSpace] at hz
  have hq2' : ¬z0 = 'Ä' := by
    intro h
    rw [h] at hz
    simp [pyIsSpace] at hz
  have hq3' : ¬z0 = 'î' := by
    intro h
    rw [h] at hz
    simp [pyIsSpace] at hz
  have hq4' : ¬z0 = 'ì' := by
    intro h
    rw [h] at hz
    simp [pyIsSpace] at hz
  have hz0' : pyIsSpace (if z0 = '\n' then ' ' else z0) = true := by
    by_cases h : z0 = '\n'
    · rw [if_pos h]
      decide
    · rw [if_neg h]
      exact hz
  set w1 : Char := if z0 = '\n' then ' ' else z0 with hw1
  have hvals : ¬w1 = '_' ∧ ¬w1 = '‚' ∧ ¬w1 = 'Ä' ∧ ¬w1 = 'î' ∧ ¬w1 = 'ì' := by
    by_cases h : z0 = '\n'
    · rw [hw1, if_pos h]
      refine ⟨by decide, by decide, by decide, by decide, by decide⟩
    · rw [hw1, if_neg h]
      exact ⟨hu', hq1', hq2', hq3', hq4'⟩
  set w2 : Char := if w1 = '\r' then ' ' else w1 with hw2
  have hz2 : pyIsSpace w2 = true := by
    by_cases h : w1 = '\r'
    · rw [hw2, if_pos h]
      decide
    · rw [hw2, if_neg h]
      exact hz0'
  have hvals2 : ¬w2 = '_' ∧ ¬w2 = '‚' ∧ ¬w2 = 'Ä' ∧ ¬w2 = 'î' ∧ ¬w2 = 'ì' := by
    by_cases h : w1 = '\r'
    · rw [hw2, if_pos h]
      refine ⟨by decide, by decide, by decide, by decide, by decide⟩
    · rw [hw2, if_neg h]
      exact hvals
  have hgz : charReplace '\r' ' ' (charReplace '\n' ' ' (z0 :: zs)) =
      w2 :: charReplace '\r' ' ' (charReplace '\n' ' ' zs) := by
    rw [charReplace_cons, charReplace_cons]
  simp only [preClean, collapseWs]
  rw [charReplace_append, charReplace_append, hgz]
  set G := charReplace '\r' ' ' (charReplace '\n' ' ' zs) with hG
  set X := charReplace '\r' ' ' (charReplace '\n' ' ' x) with hX
  have hs1 : seqRepl3 '‚' 'Ä' 'î' [' '] (X ++ w2 :: G) =
      seqRepl3 '‚' 'Ä' 'î' [' '] X ++ seqRepl3 '‚' 'Ä' 'î' [' '] (w2 :: G) := by
    refine seqRepl3_hom [' '] ?_ ?_ X
    · simp [firstIs, hvals2.2.2.2.1]
    · exact firstTwo_cons_fst hvals2.2.2.1 _
  have hs1c : seqRepl3 '‚' 'Ä' 'î' [' '] (w2 :: G) =
      w2 :: seqRepl3 '‚' 'Ä' 'î' [' '] G := seqRepl3_cons_ne 'Ä' 'î' [' '] hvals2.2.1 G
  have hs2 : seqRepl3 '‚' 'Ä' 'ì' [' ']
        (seqRepl3 '‚' 'Ä' 'î' [' '] X ++ w2 :: seqRepl3 '‚' 'Ä' 'î' [' '] G) =
      seqRepl3 '‚' 'Ä' 'ì' [' '] (seqRepl3 '‚' 'Ä' 'î' [' '] X) ++
        seqRepl3 '‚' 'Ä' 'ì' [' '] (w2 :: seqRepl3 '‚' 'Ä' 'î' [' '] G) := by
    refine seqRepl3_hom [' '] ?_ ?_ _
    · simp [firstIs, hvals2.2.2.2.2]
    · exact firstTwo_cons_fst hvals2.2.2.1 _
  have hs2c : seqRepl3 '‚' 'Ä' 'ì' [' '] (w2 :: seqRepl3 '‚' 'Ä' 'î' [' '] G) =
      w2 :: seqRepl3 '‚' 'Ä' 'ì' [' '] (seqRepl3 '‚' 'Ä' 'î' [' '] G) :=
    seqRepl3_cons_ne 'Ä' 'ì' [' '] hvals2.2.1 _
  rw [hs1, hs1c, hs2, hs2c]
  set B := seqRepl3 '‚' 'Ä' 'ì' [' '] (seqRepl3 '‚' 'Ä' 'î' [' '] G) with hB
  set A := seqRepl3 '‚' 'Ä' 'ì' [' '] (seqRepl3 '‚' 'Ä' 'î' [' '] X) with hA
  have hsu : subUGo [' '] 0 (A ++ w2 :: B) = subUGo [' '] 0 A ++ subUGo [' '] 0 (w2 :: B) := by
    refine subU_app_hom [' '] ?_ A
    simp [firstIs, uC, hvals2.1]
  rw [hsu]
  rw [collapseRunsGo_append pyIsSpace (subUGo [' '] 0 A) false (subUGo [' '] 0 (w2 :: B))]
  exact ⟨_, rfl⟩

theorem cleanLen_mono_ws {z : Text} (hz : firstIs pyIsSpace z = true) (x : Text) :
    (clean_text x).length ≤ (clean_text (x ++ z)).length := by
  obtain ⟨R, hR⟩ := preClean_split_headws hz x
  show (pyStrip (preClean x)).length ≤ (pyStrip (preClean (x ++ z))).length
  rw [hR]
  exact pyStrip_app_ge _ _

theorem cleanLen_mono_hard {z : Text} (hz : firstIs hardC z = true) (x : Text) :
    (clean_text x).length ≤ (clean_text (x ++ z)).length := by
  have h := cleanLen_superadd_hard hz x
  omega

theorem preClean_app_hdr {h : Text} (hne : h ≠ [])
    (hchars : ∀ c ∈ h, okHdrChar c = true) (hpair : noPair pyIsSpace pyIsSpace h = true)
    (hws : h.all wsOnlySp = true) (hl : headNonWs h.reverse = true) (y : Text) :
    preClean (h ++ y) = h ++ preClean y := by
  have hnolf : ∀ c ∈ h, ¬c = '\n' := by
    intro c hc
    have := hchars c hc
    simp only [okHdrChar, Bool.and_eq_true, Bool.not_eq_true'] at this
    simpa using this.1.1.1.1
  have hnocr : ∀ c ∈ h, ¬c = '\r' := by
    intro c hc
    have := hchars c hc
    simp only [okHdrChar, Bool.and_eq_true, Bool.not_eq_true'] at this
    simpa using this.1.1.1.2
  have hnoun : ∀ c ∈ h, ¬c = '_' := by
    intro c hc
    have := hchars c hc
    simp only [okHdrChar, Bool.and_eq_true, Bool.not_eq_true'] at this
    simpa using this.1.1.2
  have hnoq : ∀ c ∈ h, ¬c = '‚' := by
    intro c hc
    have := hchars c hc
    simp only [okHdrChar, Bool.and_eq_true, Bool.not_eq_true'] at this
    simpa using this.1.2
  simp only [preClean, collapseWs]
  rw [charReplace_append, charReplace_append, charReplace_eq_self hnolf,
    charReplace_eq_self hnocr]
  rw [seqRepl3_app_left [' '] hnoq, seqRepl3_app_left [' '] hnoq]
  rcases List.eq_nil_or_concat h with rfl | ⟨h', d, hcat⟩
  · exact absurd rfl hne
  · rw [List.concat_eq_append] at hcat
    have hd : ¬d = '_' := by
      apply hnoun
      rw [hcat]
      simp
    rw [hcat]
    rw [subU_app_left [' '] hd h']
    have hid : subUGo [' '] 0 (h' ++ [d]) = h' ++ [d] := by
      refine subU_eq_self [' '] (fun a ha => ?_)
      apply hnoun
      rw [hcat]
      exact ha
    rw [hid]
    rw [collapseRunsGo_append pyIsSpace (h' ++ [d]) false _]
    have hend : endRun pyIsSpace false (h' ++ [d]) = pyIsSpace d := endRun_concat pyIsSpace false h' d
    have hdws : pyIsSpace d = false := by
      have : headNonWs (h' ++ [d]).reverse = true := by
        rw [← hcat]
        exact hl
      rw [List.reverse_append] at this
      simp only [List.reverse_singleton, List.singleton_append, headNonWs] at this
      simpa using this
    rw [hend, hdws]
    have hidw : collapseRunsGo pyIsSpace false (h' ++ [d]) = h' ++ [d] := by
      apply colWs_id
      · rw [← hcat]
        exact hws
      · rw [← hcat]
        exact hpair
    rw [hidw]

theorem cleanLen_app_hdr {h : Text} (hne : h ≠ [])
    (hchars : ∀ c ∈ h, okHdrChar c = true) (hpair : noPair pyIsSpace pyIsSpace h = true)
    (hws : h.all wsOnlySp = true) (hh : headNonWs h = true)
    (hl : headNonWs h.reverse = true) (y : Text) :
    h.length + (clean_text y).length ≤ (clean_text (h ++ y)).length := by
  show h.length + (pyStrip (preClean y)).length ≤ (pyStrip (preClean (h ++ y))).length
  rw [preClean_app_hdr hne hchars hpair hws hl y]
  exact pyStrip_solid_left hh hl _

theorem pyStrip_ws_app {s : Text} (hs : ∀ c ∈ s, pyIsSpace c = true) (x : Text) :
    pyStrip (s ++ x) = pyStrip x := by
  rw [pyStrip, pyStrip, dropWhile_app_all (by rw [List.all_eq_true]; exact hs) x]

theorem strip_W_drop (v : Text) :
    pyStrip (collapseRunsGo pyIsSpace false (v.dropWhile pyIsSpace)) =
      pyStrip (collapseRunsGo pyIsSpace false v) := by
  cases v with
  | nil => rfl
  | cons c cs =>
    by_cases hw : pyIsSpace c = true
    · rw [List.dropWhile_cons_of_pos hw]
      have h1 : collapseRunsGo pyIsSpace false (c :: cs) =
          ' ' :: collapseRunsGo pyIsSpace true cs := by
        rw [collapseRunsGo, if_pos hw, if_neg (by simp)]
      rw [h1, pyStrip_cons_ws (by decide), collapse_true_eq pyIsSpace cs]
    · rw [List.dropWhile_cons_of_neg hw]

theorem allws_heads {s : Text} (hs : ∀ c ∈ s, pyIsSpace c = true) :
    firstIs (fun c => c = 'î') s = false ∧ firstIs (fun c => c = 'ì') s = false ∧
      firstTwo 'Ä' 'î' s = false ∧ firstTwo 'Ä' 'ì' s = false ∧
      firstIs uC s = false := by
  cases s with
  | nil => exact ⟨rfl, rfl, rfl, rfl, rfl⟩
  | cons c cs =>
    have hc := hs c (List.mem_cons_self _ _)
    have h1 : ¬c = 'î' := by intro h; rw [h] at hc; exact absurd hc (by decide)
    have h2 : ¬c = 'ì' := by intro h; rw [h] at hc; exact absurd hc (by decide)
    have h3 : ¬c = 'Ä' := by intro h; rw [h] at hc; exact absurd hc (by decide)
    have h4 : ¬c = '_' := by intro h; rw [h] at hc; exact absurd hc (by decide)
    exact ⟨by simp [firstIs, h1], by simp [firstIs, h2],
      firstTwo_cons_fst h3 _, firstTwo_cons_fst h3 _, by simp [firstIs, uC, h4]⟩

theorem allws_no_quote {s : Text} (hs : ∀ c ∈ s, pyIsSpace c = true) :
    ∀ c ∈ s, ¬c = '‚' := by
  intro c hc h
  have := hs c hc
  rw [h] at this
  exact absurd this (by decide)

theorem allws_no_under {s : Text} (hs : ∀ c ∈ s, pyIsSpace c = true) :
    ∀ c ∈ s, ¬c = '_' := by
  intro c hc h
  have := hs c hc
  rw [h] at this
  exact absurd this (by decide)

theorem charReplace_ws {a : Char} {s : Text} (hs : ∀ c ∈ s, pyIsSpace c = true) :
    ∀ c ∈ charReplace a ' ' s, pyIsSpace c = true := by
  intro c hc
  rw [charReplace] at hc
  obtain ⟨d, hd, hdc⟩ := List.mem_map.mp hc
  by_cases h : d = a
  · rw [if_pos h] at hdc
    rw [← hdc]
    decide
  · rw [if_neg h] at hdc
    rw [← hdc]
    exact hs d hd

theorem colWs_allws {s : Text} (hs : ∀ c ∈ s, pyIsSpace c = true) (b : Bool) :
    ∀ c ∈ collapseRunsGo pyIsSpace b s, pyIsSpace c = true := by
  intro c hc
  rcases colWs_all_mem b s c hc with rfl | ⟨hm, hws⟩
  · decide
  · rw [hs c hm] at hws
    exact absurd hws (by decide)

theorem clean_app_allws {s : Text} (hs : ∀ c ∈ s, pyIsSpace c = true) (x : Text) :
    clean_text (x ++ s) = clean_text x := by
  have hgs1 : ∀ c ∈ charReplace '\n' ' ' s, pyIsSpace c = true := charReplace_ws hs
  have hgs : ∀ c ∈ charReplace '\r' ' ' (charReplace '\n' ' ' s), pyIsSpace c = true :=
    charReplace_ws hgs1
  set G := charReplace '\r' ' ' (charReplace '\n' ' ' s) with hG
  obtain ⟨hfi, hfg, hAi, hAg, hfu⟩ := allws_heads hgs
  have hnoq : ∀ c ∈ G, ¬c = '‚' := allws_no_quote hgs
  have hnou : ∀ c ∈ G, ¬c = '_' := allws_no_under hgs
  show pyStrip (preClean (x ++ s)) = pyStrip (preClean x)
  simp only [preClean, collapseWs]
  rw [charReplace_append, charReplace_append, ← hG]
  rw [seqRepl3_hom [' '] hfi hAi, seqRepl3_eq_self [' '] hnoq]
  rw [seqRepl3_hom [' '] hfg hAg, seqRepl3_eq_self [' '] hnoq]
  rw [subU_app_hom [' '] hfu, subU_eq_self [' '] hnou]
  rw [collapseRunsGo_append pyIsSpace _ false G]
  exact pyStrip_app_ws (colWs_allws hgs _) _

theorem clean_ws_app {s : Text} (hs : ∀ c ∈ s, pyIsSpace c = true) (x : Text) :
    clean_text (s ++ x) = clean_text x := by
  rcases List.eq_nil_or_concat s with rfl | ⟨s1, dd, hcat⟩
  · rw [List.nil_append]
  · rw [List.concat_eq_append] at hcat
    have hgs1 : ∀ c ∈ charReplace '\n' ' ' s, pyIsSpace c = true := charReplace_ws hs
    show pyStrip (preClean (s ++ x)) = pyStrip (preClean x)
    simp only [preClean, collapseWs]
    rw [charReplace_append, charReplace_append]
    obtain ⟨G, hG⟩ : ∃ G, charReplace '\r' ' ' (charReplace '\n' ' ' s) = G := ⟨_, rfl⟩
    have hgs : ∀ c ∈ G, pyIsSpace c = true := by
      rw [← hG]
      exact charReplace_ws hgs1
    rw [hG]
    have hnoq : ∀ c ∈ G, ¬c = '‚' := allws_no_quote hgs
    have hnou : ∀ c ∈ G, ¬c = '_' := allws_no_under hgs
    have hGne : G ≠ [] := by
      have hlen : G.length = s.length := by
        rw [← hG]
        simp [charReplace]
      intro h0
      rw [h0, hcat] at hlen
      simp at hlen
    rcases List.eq_nil_or_concat G with hnil | ⟨G1, d2, hGc⟩
    · exact absurd hnil hGne
    · rw [List.concat_eq_append] at hGc
      have hd2u : ¬d2 = '_' := hnou d2 (by rw [hGc]; simp)
      have hd2ws : pyIsSpace d2 = true := hgs d2 (by rw [hGc]; simp)
      rw [seqRepl3_app_left [' '] hnoq, seqRepl3_app_left [' '] hnoq]
      rw [hGc]
      rw [subU_app_left [' '] hd2u G1]
      have hUid : subUGo [' '] 0 (G1 ++ [d2]) = G1 ++ [d2] :=
        subU_eq_self [' '] (fun a ha => hnou a (by rw [hGc]; exact ha))
      rw [hUid]
      rw [collapseRunsGo_append pyIsSpace (G1 ++ [d2]) false _]
      rw [endRun_concat pyIsSpace false G1 d2, hd2ws]
      have hWall : ∀ c ∈ collapseRunsGo pyIsSpace false (G1 ++ [d2]), pyIsSpace c = true := by
        refine colWs_allws (fun c hc => ?_) false
        exact hgs c (by rw [hGc]; exact hc)
      rw [pyStrip_ws_app hWall _]
      rw [collapse_true_eq pyIsSpace]
      exact strip_W_drop _

theorem clean_strip (x : Text) : clean_text (pyStrip x) = clean_text x := by
  obtain ⟨a, b, hx, ha, hb⟩ := pyStrip_decomp x
  have ha' : ∀ c ∈ a, pyIsSpace c = true := List.all_eq_true.mp ha
  have hb' : ∀ c ∈ b, pyIsSpace c = true := List.all_eq_true.mp hb
  conv_rhs => rw [hx]
  rw [clean_app_allws hb' (a ++ pyStrip x), clean_ws_app ha' (pyStrip x)]

theorem ciHead_decomp : ∀ (lit u : Text), ciHead lit u = true →
    ∃ p w, u = p ++ w ∧ p.length = lit.length ∧ lowEq p lit = true
  | [], u, _ => ⟨[], u, rfl, rfl, rfl⟩
  | _ :: _, [], h => by cases h
  | l :: ls, c :: cs, h => by
    rw [ciHead, Bool.and_eq_true] at h
    obtain ⟨p, w, hu, hl, he⟩ := ciHead_decomp ls cs h.2
    refine ⟨c :: p, w, by rw [List.cons_append, hu], by simpa using hl, ?_⟩
    rw [lowEq, Bool.and_eq_true]
    refine ⟨?_, he⟩
    have h1 : pyLower l = pyLower c := by simpa using h.1
    simp [h1]

theorem pyLower_of_ws {c : Char} (h : pyIsSpace c = true) : pyLower c = c := by
  simp only [pyIsSpace, decide_eq_true_eq] at h
  rcases h with rfl | rfl | rfl | rfl | rfl | rfl <;> decide

theorem nonws_of_lower {c : Char} (h : pyIsSpace (pyLower c) = false) :
    pyIsSpace c = false := by
  cases hcc : pyIsSpace c with
  | false => rfl
  | true =>
    rw [pyLower_of_ws hcc] at h
    rw [hcc] at h
    cases h

theorem hardC_of_lower_letter {c v : Char} (hv : pyLower c = v) (h1 : 'a' ≤ v)
    (h2 : v ≤ 'z') : hardC c = true := by
  have hws : pyIsSpace c = false := by
    apply nonws_of_lower
    rw [hv]
    cases hvv : pyIsSpace v with
    | false => rfl
    | true =>
      exfalso
      simp only [pyIsSpace, decide_eq_true_eq] at hvv
      rcases hvv with rfl | rfl | rfl | rfl | rfl | rfl <;>
        exact absurd (And.intro h1 h2) (by decide)
  have hu : ¬c = '_' := by
    intro h
    rw [h] at hv
    have hveq : ('_' : Char) = v := by rw [← hv]; decide
    subst hveq
    exact absurd (And.intro h1 h2) (by decide)
  have hq1 : ¬c = '‚' := by
    intro h
    rw [h] at hv
    have hveq : ('‚' : Char) = v := by rw [← hv]; decide
    subst hveq
    exact absurd (And.intro h1 h2) (by decide)
  have hq2 : ¬c = 'Ä' := by
    intro h
    rw [h] at hv
    have hveq : ('Ä' : Char) = v := by rw [← hv]; decide
    subst hveq
    exact absurd (And.intro h1 h2) (by decide)
  have hq3 : ¬c = 'î' := by
    intro h
    rw [h] at hv
    have hveq : ('î' : Char) = v := by rw [← hv]; decide
    subst hveq
    exact absurd (And.intro h1 h2) (by decide)
  have hq4 : ¬c = 'ì' := by
    intro h
    rw [h] at hv
    have hveq : ('ì' : Char) = v := by rw [← hv]; decide
    subst hveq
    exact absurd (And.intro h1 h2) (by decide)
  simp [hardC, hws, hu, hq1, hq2, hq3, hq4]

theorem okHdr_of_lowEq_char {c l : Char} (hv : pyLower c = pyLower l)
    (hg : goodB l = true) : okHdrChar c = true := by
  simp only [goodB, Bool.and_eq_true, Bool.or_eq_true, Bool.not_eq_true',
    decide_eq_false_iff_not, decide_eq_true_eq] at hg
  obtain ⟨⟨⟨⟨h1, h2⟩, h3⟩, h4⟩, h5⟩ := hg
  have hc1 : ¬c = '\n' := by
    intro h
    rw [h] at hv
    exact h1 (by rw [← hv]; decide)
  have hc2 : ¬c = '\r' := by
    intro h
    rw [h] at hv
    exact h2 (by rw [← hv]; decide)
  have hc3 : ¬c = '_' := by
    intro h
    rw [h] at hv
    exact h3 (by rw [← hv]; decide)
  have hc4 : ¬c = '‚' := by
    intro h
    rw [h] at hv
    exact h4 (by rw [← hv]; decide)
  have hc5 : wsOnlySp c = true := by
    cases hws : pyIsSpace c with
    | false => simp [wsOnlySp, hws]
    | true =>
      have hlc : pyLower c = c := pyLower_of_ws hws
      rcases h5 with h5a | h5b
      · exfalso
        rw [← hv, hlc] at h5a
        rw [hws] at h5a
        cases h5a
      · have hsp : c = ' ' := by rw [← hlc, hv, h5b]
        simp [wsOnlySp, hsp]
  simp only [okHdrChar, Bool.and_eq_true]
  exact ⟨⟨⟨⟨by simp [hc1], by simp [hc2]⟩, by simp [hc3]⟩, by simp [hc4]⟩, hc5⟩

theorem lowEq_all_okHdr : ∀ {p l : Text}, lowEq p l = true → l.all goodB = true →
    ∀ c ∈ p, okHdrChar c = true
  | [], [], _, _ => by intro c hc; cases hc
  | [], _ :: _, he, _ => by cases he
  | _ :: _, [], he, _ => by cases he
  | a :: as, b :: bs, he, hall => by
    rw [lowEq, Bool.and_eq_true] at he
    rw [List.all_cons, Bool.and_eq_true] at hall
    intro c hc
    rcases List.mem_cons.mp hc with rfl | hmem
    · exact okHdr_of_lowEq_char (by simpa using he.1) hall.1
    · exact lowEq_all_okHdr he.2 hall.2 c hmem

theorem lowEq_concat : ∀ {p l : Text}, lowEq p l = true → ∀ {c d : Char},
    pyLower c = pyLower d → lowEq (p ++ [c]) (l ++ [d]) = true
  | [], [], _, c, d, hcd => by simp [lowEq, hcd]
  | [], _ :: _, he, _, _, _ => by cases he
  | _ :: _, [], he, _, _, _ => by cases he
  | a :: as, b :: bs, he, c, d, hcd => by
    rw [lowEq, Bool.and_eq_true] at he
    rw [List.cons_append, List.cons_append, lowEq, Bool.and_eq_true]
    exact ⟨he.1, lowEq_concat he.2 hcd⟩

theorem lowEq_rev : ∀ {p l : Text}, lowEq p l = true → lowEq p.reverse l.reverse = true
  | [], [], _ => rfl
  | [], _ :: _, he => by cases he
  | _ :: _, [], he => by cases he
  | a :: as, b :: bs, he => by
    rw [lowEq, Bool.and_eq_true] at he
    rw [List.reverse_cons, List.reverse_cons]
    exact lowEq_concat (lowEq_rev he.2) (by simpa using he.1)

theorem noPair_transfer : ∀ {p l : Text}, lowEq p l = true →
    (∀ c ∈ p, wsOnlySp c = true) → noPair spC spC l = true →
    noPair pyIsSpace pyIsSpace p = true
  | [], _, _, _, _ => rfl
  | _ :: _, [], he, _, _ => by cases he
  | c :: cs, b :: bs, he, hok, hnp => by
    rw [lowEq, Bool.and_eq_true] at he
    rw [noPair, Bool.and_eq_true]
    refine ⟨?_, noPair_transfer he.2 (fun a ha => hok a (List.mem_cons_of_mem c ha))
      (noPair_tail hnp)⟩
    cases hwc : pyIsSpace c with
    | false => simp
    | true =>
      cases cs with
      | nil => simp [firstIs]
      | cons c2 cs2 =>
        cases hwc2 : pyIsSpace c2 with
        | false => simp [firstIs, hwc2]
        | true =>
          exfalso
          have hc : c = ' ' := by
            have hx := hok c (List.mem_cons_self _ _)
            simp only [wsOnlySp, hwc, Bool.not_true, Bool.false_or,
              decide_eq_true_eq] at hx
            exact hx
          have hc2 : c2 = ' ' := by
            have hx := hok c2 (by simp)
            simp only [wsOnlySp, hwc2, Bool.not_true, Bool.false_or,
              decide_eq_true_eq] at hx
            exact hx
          cases bs with
          | nil => exact absurd he.2 (by intro h; cases h)
          | cons b2 bs2 =>
            have he2 := he.2
            rw [lowEq, Bool.and_eq_true] at he2
            have hb : spC b = true := by
              have h1 : pyLower c = pyLower b := by simpa using he.1
              rw [hc] at h1
              have h2 : pyLower b = ' ' := by rw [← h1]; decide
              simp [spC, h2]
            have hb2 : spC b2 = true := by
              have h1 : pyLower c2 = pyLower b2 := by simpa using he2.1
              rw [hc2] at h1
              have h2 : pyLower b2 = ' ' := by rw [← h1]; decide
              simp [spC, h2]
            have hhd := noPair_head hnp
            rw [hb, firstIs, hb2] at hhd
            simp at hhd

theorem headNonWs_transfer : ∀ {p l : Text}, lowEq p l = true →
    firstIs (fun b => !pyIsSpace (pyLower b)) l = true → headNonWs p = true
  | [], _, _, _ => rfl
  | _ :: _, [], he, hf => by cases he
  | c :: cs, b :: bs, he, hf => by
    rw [lowEq, Bool.and_eq_true] at he
    rw [firstIs] at hf
    have h1 : pyLower c = pyLower b := by simpa using he.1
    rw [headNonWs]
    have h2 : pyIsSpace c = false := by
      apply nonws_of_lower
      rw [h1]
      simpa using hf
    simp [h2]

theorem hard_head_transfer : ∀ {p l : Text}, lowEq p l = true →
    firstIs (fun b => decide ('a' ≤ pyLower b) && decide (pyLower b ≤ 'z')) l = true →
    firstIs hardC p = true
  | [], [], _, hf => by cases hf
  | [], _ :: _, he, _ => by cases he
  | _ :: _, [], he, _ => by cases he
  | c :: cs, b :: bs, he, hf => by
    rw [lowEq, Bool.and_eq_true] at he
    rw [firstIs, Bool.and_eq_true] at hf
    have h1 : pyLower c = pyLower b := by simpa using he.1
    rw [firstIs]
    exact hardC_of_lower_letter h1 (by simpa using hf.1) (by simpa using hf.2)

theorem lowEq_length : ∀ {p l : Text}, lowEq p l = true → p.length = l.length
  | [], [], _ => rfl
  | [], _ :: _, he => by cases he
  | _ :: _, [], he => by cases he
  | a :: as, b :: bs, he => by
    rw [lowEq, Bool.and_eq_true] at he
    simpa using lowEq_length he.2

theorem headers_good : RobustSectionizer.SECTION_HEADERS.all hdrGood = true := by decide

theorem findAllGo_mem (lit : Text) : ∀ (u : Text) (skip i s e : Nat),
    (s, e) ∈ findAllGo lit skip u i →
      i ≤ s ∧ e = s + lit.length ∧ ciHead lit (u.drop (s - i)) = true := by
  intro u
  induction u with
  | nil =>
    intro skip i s e h
    cases skip with
    | zero => simp [findAllGo] at h
    | succ sk => simp [findAllGo] at h
  | cons c cs ih =>
    intro skip i s e h
    have step : ∀ sk : Nat, (s, e) ∈ findAllGo lit sk cs (i + 1) →
        i ≤ s ∧ e = s + lit.length ∧ ciHead lit ((c :: cs).drop (s - i)) = true := by
      intro sk hm
      obtain ⟨h1, h2, h3⟩ := ih sk (i + 1) s e hm
      refine ⟨by omega, h2, ?_⟩
      have hx : s - i = (s - (i + 1)) + 1 := by omega
      rw [hx, List.drop_succ_cons]
      exact h3
    cases skip with
    | succ sk => exact step sk h
    | zero =>
      by_cases hci : ciHead lit (c :: cs) = true
      · rw [findAllGo, if_pos hci] at h
        rcases List.mem_cons.mp h with heq | hmem
        · have hs : s = i := congrArg Prod.fst heq
          have he2 : e = i + lit.length := congrArg Prod.snd heq
          subst hs
          refine ⟨le_refl _, he2, ?_⟩
          rw [Nat.sub_self, List.drop_zero]
          exact hci
        · exact step _ hmem
      · rw [findAllGo, if_neg hci] at h
        exact step _ h

theorem matches_mem {t : Text} {m : Nat × Nat × Text}
    (hm : m ∈ RobustSectionizer.rawHeaderMatches t) :
    m.2.2 ∈ RobustSectionizer.SECTION_HEADERS ∧ m.2.1 = m.1 + m.2.2.length ∧
      ciHead m.2.2 (t.drop m.1) = true := by
  unfold RobustSectionizer.rawHeaderMatches at hm
  rw [List.mem_flatten] at hm
  obtain ⟨row, hrow, hmrow⟩ := hm
  rw [List.mem_map] at hrow
  obtain ⟨hdr, hhdr, hroweq⟩ := hrow
  rw [← hroweq, List.mem_map] at hmrow
  obtain ⟨pr, hpr, hpreq⟩ := hmrow
  have hfind : (pr.1, pr.2) ∈ findAllGo hdr 0 t 0 := by
    have : pr = (pr.1, pr.2) := rfl
    rw [← this]
    exact hpr
  obtain ⟨_, h2, h3⟩ := findAllGo_mem hdr t 0 0 pr.1 pr.2 hfind
  rw [← hpreq]
  refine ⟨hhdr, h2, ?_⟩
  rw [Nat.sub_zero] at h3
  exact h3

theorem mem_insertByStart {x m : Nat × Nat × Text} :
    ∀ {l}, m ∈ RobustSectionizer.insertByStart x l → m = x ∨ m ∈ l := by
  intro l
  induction l with
  | nil =>
    intro h
    rw [RobustSectionizer.insertByStart] at h
    rcases List.mem_singleton.mp h with rfl
    exact Or.inl rfl
  | cons y ys ih =>
    intro h
    rw [RobustSectionizer.insertByStart] at h
    by_cases hc : y.1 ≤ x.1
    · rw [if_pos hc] at h
      rcases List.mem_cons.mp h with rfl | hmem
      · exact Or.inr (List.mem_cons_self _ _)
      · rcases ih hmem with rfl | hmem2
        · exact Or.inl rfl
        · exact Or.inr (List.mem_cons_of_mem _ hmem2)
    · rw [if_neg hc] at h
      rcases List.mem_cons.mp h with rfl | hmem
      · exact Or.inl rfl
      · exact Or.inr hmem

theorem foldl_insert_mem :
    ∀ (l : List (Nat × Nat × Text)) (acc : List (Nat × Nat × Text)) (m : Nat × Nat × Text),
      m ∈ l.foldl (fun acc x => RobustSectionizer.insertByStart x acc) acc →
        m ∈ acc ∨ m ∈ l := by
  intro l
  induction l with
  | nil => intro acc m h; exact Or.inl h
  | cons x l2 ih =>
    intro acc m h
    rw [List.foldl_cons] at h
    rcases ih _ m h with hacc | hl2
    · rcases mem_insertByStart hacc with rfl | hmem
      · exact Or.inr (List.mem_cons_self _ _)
      · exact Or.inl hmem
    · exact Or.inr (List.mem_cons_of_mem _ hl2)

theorem mem_headerPositions {t : Text} {m : Nat × Nat × Text}
    (hm : m ∈ RobustSectionizer.headerPositions t) :
    m.2.2 ∈ RobustSectionizer.SECTION_HEADERS ∧ m.2.1 = m.1 + m.2.2.length ∧
      ciHead m.2.2 (t.drop m.1) = true := by
  unfold RobustSectionizer.headerPositions at hm
  rcases foldl_insert_mem _ [] m hm with h0 | hraw
  · cases h0
  · exact matches_mem hraw

theorem pairwise_insertByStart {x : Nat × Nat × Text} :
    ∀ {l : List (Nat × Nat × Text)},
      l.Pairwise (fun a b => a.1 ≤ b.1) →
        (RobustSectionizer.insertByStart x l).Pairwise (fun a b => a.1 ≤ b.1) := by
  intro l
  induction l with
  | nil =>
    intro _
    rw [RobustSectionizer.insertByStart]
    exact List.pairwise_singleton _ _
  | cons y ys ih =>
    intro hp
    rw [List.pairwise_cons] at hp
    rw [RobustSectionizer.insertByStart]
    by_cases hc : y.1 ≤ x.1
    · rw [if_pos hc]
      rw [List.pairwise_cons]
      refine ⟨?_, ih hp.2⟩
      intro m hm
      rcases mem_insertByStart hm with rfl | hmem
      · exact hc
      · exact hp.1 m hmem
    · rw [if_neg hc]
      rw [List.pairwise_cons]
      refine ⟨?_, List.pairwise_cons.mpr hp⟩
      intro m hm
      rcases List.mem_cons.mp hm with rfl | hmem
      · omega
      · have := hp.1 m hmem
        omega

theorem pairwise_foldl_insert :
    ∀ (l : List (Nat × Nat × Text)) (acc : List (Nat × Nat × Text)),
      acc.Pairwise (fun a b => a.1 ≤ b.1) →
        (l.foldl (fun acc x => RobustSectionizer.insertByStart x acc) acc).Pairwise
          (fun a b => a.1 ≤ b.1) := by
  intro l
  induction l with
  | nil => intro acc h; exact h
  | cons x l2 ih =>
    intro acc h
    rw [List.foldl_cons]
    exact ih _ (pairwise_insertByStart h)

theorem pairwise_headerPositions (t : Text) :
    (RobustSectionizer.headerPositions t).Pairwise (fun a b => a.1 ≤ b.1) :=
  pairwise_foldl_insert _ [] List.Pairwise.nil

theorem searchCI_mem (lit : Text) : ∀ (u : Text) (i p : Nat),
    searchCI lit u i = some p → i ≤ p ∧ ciHead lit (u.drop (p - i)) = true := by
  intro u
  induction u with
  | nil => intro i p h; cases h
  | cons c cs ih =>
    intro i p h
    rw [searchCI] at h
    by_cases hci : ciHead lit (c :: cs) = true
    · rw [if_pos hci] at h
      have hp : i = p := Option.some.inj h
      subst hp
      rw [Nat.sub_self, List.drop_zero]
      exact ⟨le_refl _, hci⟩
    · rw [if_neg hci] at h
      obtain ⟨h1, h2⟩ := ih (i + 1) p h
      refine ⟨by omega, ?_⟩
      have hx : p - i = (p - (i + 1)) + 1 := by omega
      rw [hx, List.drop_succ_cons]
      exact h2

theorem nsSearch_mem : ∀ (u : Text) (i p : Nat),
    RobustSectionizer.nsSearch u i = some p →
      i ≤ p ∧ ∃ w, u.drop (p - i) = '\n' :: w := by
  intro u
  induction u with
  | nil => intro i p h; cases h
  | cons c cs ih =>
    intro i p h
    rw [RobustSectionizer.nsSearch] at h
    by_cases hb : (c = '\n' && RobustSectionizer.nsAfter cs) = true
    · rw [if_pos hb] at h
      have hp : i = p := Option.some.inj h
      subst hp
      rw [Nat.sub_self, List.drop_zero]
      rw [Bool.and_eq_true] at hb
      have hc : c = '\n' := by simpa using hb.1
      exact ⟨le_refl _, cs, by rw [hc]⟩
    · rw [if_neg hb] at h
      obtain ⟨h1, w, h2⟩ := ih (i + 1) p h
      refine ⟨by omega, w, ?_⟩
      have hx : p - i = (p - (i + 1)) + 1 := by omega
      rw [hx, List.drop_succ_cons]
      exact h2

theorem hard_head_of_ciHead {lit u : Text}
    (hl : firstIs (fun b => decide ('a' ≤ pyLower b) && decide (pyLower b ≤ 'z')) lit = true)
    (h : ciHead lit u = true) : firstIs hardC u = true := by
  obtain ⟨p, w, hu, hlen, he⟩ := ciHead_decomp lit u h
  have hp : firstIs hardC p = true := hard_head_transfer he hl
  rw [hu]
  cases p with
  | nil => simp [firstIs] at hp
  | cons a as =>
    rw [List.cons_append]
    exact hp

theorem clean_le_stage2 (y : Text) :
    (clean_text (match RobustSectionizer.nsSearch y 0 with
      | some p => pyStrip (y.take p)
      | none => y)).length ≤ (clean_text y).length := by
  cases hq : RobustSectionizer.nsSearch y 0 with
  | none => exact le_refl _
  | some q =>
    obtain ⟨hle, w, hw⟩ := nsSearch_mem y 0 q hq
    rw [Nat.sub_zero] at hw
    have hws : firstIs pyIsSpace (y.drop q) = true := by
      rw [hw]
      simp [firstIs, pyIsSpace]
    have h1 : clean_text (pyStrip (y.take q)) = clean_text (y.take q) :=
      clean_strip (y.take q)
    rw [h1]
    have h2 := cleanLen_mono_ws hws (y.take q)
    rw [List.take_append_drop] at h2
    exact h2

theorem allergyTrunc_clean_le (x : Text) :
    (clean_text (RobustSectionizer.allergyTrunc x)).length ≤ (clean_text x).length := by
  simp only [RobustSectionizer.allergyTrunc]
  cases hs : searchCI ("Attending:".toList) x 0 with
  | none => exact clean_le_stage2 x
  | some p =>
    refine le_trans (clean_le_stage2 _) ?_
    obtain ⟨hle, hci⟩ := searchCI_mem ("Attending:".toList) x 0 p hs
    rw [Nat.sub_zero] at hci
    have hhard : firstIs hardC (x.drop p) = true :=
      hard_head_of_ciHead (by decide) hci
    have h1 : clean_text (pyStrip (x.take p)) = clean_text (x.take p) :=
      clean_strip (x.take p)
    rw [h1]
    have h2 := cleanLen_mono_hard hhard (x.take p)
    rw [List.take_append_drop] at h2
    exact h2

theorem ledgerSum_cons (p : String × Text) (l : List (String × Text)) :
    ledgerSum (p :: l) =
      (if p.2.isEmpty then 0 else (clean_text p.2).length + 5) + ledgerSum l := by
  simp [ledgerSum]

theorem okHdr_wsOnly {c : Char} (h : okHdrChar c = true) : wsOnlySp c = true := by
  simp only [okHdrChar, Bool.and_eq_true] at h
  exact h.2

theorem headNonWs_of_hard {u : Text} (h : firstIs hardC u = true) : headNonWs u = true := by
  cases u with
  | nil => rfl
  | cons c cs =>
    rw [firstIs] at h
    simp only [hardC, Bool.and_eq_true] at h
    rw [headNonWs]
    exact h.1.1.1.1.1

theorem header_chunk {t : Text} {s : Nat} {h : Text}
    (hmem : h ∈ RobustSectionizer.SECTION_HEADERS) (hci : ciHead h (t.drop s) = true) :
    ∃ p, t.drop s = p ++ t.drop (s + h.length) ∧ p.length = h.length ∧ 5 ≤ p.length ∧
      (∀ c ∈ p, okHdrChar c = true) ∧ noPair pyIsSpace pyIsSpace p = true ∧
      p.all wsOnlySp = true ∧ headNonWs p = true ∧ headNonWs p.reverse = true ∧
      firstIs hardC (t.drop s) = true := by
  have hgood : hdrGood h = true := List.all_eq_true.mp headers_good h hmem
  simp only [hdrGood, Bool.and_eq_true, decide_eq_true_eq] at hgood
  obtain ⟨⟨⟨⟨hlen5, hallgood⟩, hnp⟩, hfirst⟩, hlast⟩ := hgood
  obtain ⟨p, w, hu, hlen, he⟩ := ciHead_decomp h (t.drop s) hci
  have hok : ∀ c ∈ p, okHdrChar c = true := lowEq_all_okHdr he hallgood
  have hwso : p.all wsOnlySp = true := by
    rw [List.all_eq_true]
    exact fun c hc => okHdr_wsOnly (hok c hc)
  have hhard : firstIs hardC (t.drop s) = true := hard_head_of_ciHead hfirst hci
  have hw : w = t.drop (s + h.length) := by
    have h1 : (t.drop s).drop p.length = w := by rw [hu, List.drop_left]
    rw [List.drop_drop] at h1
    rw [← h1]
    congr 1
    omega
  refine ⟨p, by rw [← hw]; exact hu, hlen, by omega, hok, ?_, hwso, ?_, ?_, hhard⟩
  · exact noPair_transfer he (fun c hc => okHdr_wsOnly (hok c hc)) hnp
  · apply headNonWs_of_hard
    have hp : firstIs hardC p = true := hard_head_transfer he hfirst
    exact hp
  · exact headNonWs_transfer (lowEq_rev he) hlast

theorem allergyTrunc_nil : RobustSectionizer.allergyTrunc [] = [] := rfl

theorem sliceText_clean_le (t : Text) (e ns : Nat) (h : Text) :
    (clean_text (RobustSectionizer.sliceText t e ns h)).length ≤
      (clean_text ((t.drop e).take (ns - e))).length := by
  simp only [RobustSectionizer.sliceText]
  by_cases ha : h.map pyLower = "allergies:".toList
  · rw [if_pos ha]
    refine le_trans (allergyTrunc_clean_le _) ?_
    rw [clean_strip]
  · rw [if_neg ha]
    rw [clean_strip]

theorem sliceText_empty_of_lt {t : Text} {e ns : Nat} (hlt : ns < e) (h : Text) :
    RobustSectionizer.sliceText t e ns h = [] := by
  simp only [RobustSectionizer.sliceText]
  have h0 : ns - e = 0 := by omega
  rw [h0, List.take_zero]
  have hstrip : pyStrip ([] : Text) = [] := rfl
  rw [hstrip]
  by_cases ha : h.map pyLower = "allergies:".toList
  · rw [if_pos ha, allergyTrunc_nil]
  · rw [if_neg ha]

theorem ledger_ind (t : Text) : ∀ (rest : List (Nat × Nat × Text)) (s e : Nat) (h : Text),
    ((s, e, h) :: rest).Pairwise (fun a b => a.1 ≤ b.1) →
    (∀ m ∈ (s, e, h) :: rest, m.2.2 ∈ RobustSectionizer.SECTION_HEADERS ∧
      m.2.1 = m.1 + m.2.2.length ∧ ciHead m.2.2 (t.drop m.1) = true) →
    ledgerSum (RobustSectionizer.sliceList t ((s, e, h) :: rest)) ≤
      (clean_text (t.drop s)).length := by
  intro rest
  induction rest with
  | nil =>
    intro s e h hpw hprops
    obtain ⟨hmem, hee, hci⟩ := hprops (s, e, h) (List.mem_cons_self _ _)
    simp only at hmem hee hci
    obtain ⟨p, hu, hlen, h5, hok, hnp, hwso, hhead, hlast, hhard⟩ := header_chunk hmem hci
    simp only [RobustSectionizer.sliceList]
    cases hmap : RobustSectionizer.headerToSection h with
    | none => exact Nat.zero_le _
    | some name =>
      rw [ledgerSum_cons]
      dsimp only
      have hls0 : ledgerSum [] = 0 := rfl
      rw [hls0]
      by_cases hemp : (RobustSectionizer.sliceText t e t.length h).isEmpty
      · rw [if_pos hemp]
        omega
      · rw [if_neg hemp]
        have htake : (t.drop e).take (t.length - e) = t.drop e := by
          rw [← List.length_drop]
          exact List.take_length _
        have h1 := sliceText_clean_le t e t.length h
        rw [htake] at h1
        have hne : p ≠ [] := by
          intro h0
          rw [h0] at h5
          simp at h5
        have h2 := cleanLen_app_hdr hne hok hnp hwso hhead hlast (t.drop (s + h.length))
        rw [← hu] at h2
        rw [← hee] at h2
        omega
  | cons m2 rest2 ih =>
    intro s e h hpw hprops
    obtain ⟨s2, e2, h2⟩ := m2
    obtain ⟨hmem, hee, hci⟩ := hprops (s, e, h) (List.mem_cons_self _ _)
    simp only at hmem hee hci
    obtain ⟨hmem2, hee2, hci2⟩ := hprops (s2, e2, h2) (by simp)
    simp only at hmem2 hee2 hci2
    have hpw2 : ((s2, e2, h2) :: rest2).Pairwise (fun a b => a.1 ≤ b.1) :=
      (List.pairwise_cons.mp hpw).2
    have hprops2 : ∀ m ∈ (s2, e2, h2) :: rest2, m.2.2 ∈ RobustSectionizer.SECTION_HEADERS ∧
        m.2.1 = m.1 + m.2.2.length ∧ ciHead m.2.2 (t.drop m.1) = true :=
      fun m hm => hprops m (List.mem_cons_of_mem _ hm)
    have hIH := ih s2 e2 h2 hpw2 hprops2
    have hss2 : s ≤ s2 := (List.pairwise_cons.mp hpw).1 (s2, e2, h2) (by simp)
    have hg2 : hdrGood h2 = true := List.all_eq_true.mp headers_good h2 hmem2
    have hfirst2 : firstIs (fun b => decide ('a' ≤ pyLower b) &&
        decide (pyLower b ≤ 'z')) h2 = true := by
      simp only [hdrGood, Bool.and_eq_true] at hg2
      exact hg2.1.2
    have hhard2 : firstIs hardC (t.drop s2) = true := hard_head_of_ciHead hfirst2 hci2
    have hmono : (clean_text (t.drop s2)).length ≤ (clean_text (t.drop s)).length := by
      have hdec : (t.drop s).drop (s2 - s) = t.drop s2 := by
        rw [List.drop_drop]
        congr 1
        omega
      have hsup := cleanLen_superadd_hard hhard2 ((t.drop s).take (s2 - s))
      rw [← hdec, List.take_append_drop] at hsup
      rw [hdec] at hsup
      omega
    rw [RobustSectionizer.sliceList]
    cases hmap : RobustSectionizer.headerToSection h with
    | none => exact le_trans hIH hmono
    | some name =>
      rw [ledgerSum_cons]
      dsimp only
      by_cases hemp : (RobustSectionizer.sliceText t e s2 h).isEmpty
      · rw [if_pos hemp]
        have := le_trans hIH hmono
        omega
      · rw [if_neg hemp]
        have hes2 : e ≤ s2 := by
          by_contra hlt
          rw [sliceText_empty_of_lt (by omega) h] at hemp
          simp at hemp
        obtain ⟨p, hu, hlen, h5, hok, hnp, hwso, hhead, hlast, hhard⟩ := header_chunk hmem hci
        have hzdec : (t.drop e).drop (s2 - e) = t.drop s2 := by
          rw [List.drop_drop]
          congr 1
          omega
        have hwdec : t.drop e = (t.drop e).take (s2 - e) ++ t.drop s2 := by
          rw [← hzdec, List.take_append_drop]
        have hsup := cleanLen_superadd_hard hhard2 ((t.drop e).take (s2 - e))
        rw [← hwdec] at hsup
        have happ := cleanLen_app_hdr (by intro h0; rw [h0] at h5; simp at h5)
          hok hnp hwso hhead hlast (t.drop (s + h.length))
        rw [← hu] at happ
        have hslice := sliceText_clean_le t e s2 h
        rw [← hee] at happ
        have hIHm := hIH
        omega

theorem ledger_top (t : Text) :
    ledgerSum (RobustSectionizer.sliceList t (RobustSectionizer.headerPositions t)) ≤
      (clean_text t).length := by
  cases hps : RobustSectionizer.headerPositions t with
  | nil =>
    have h0 : ledgerSum (RobustSectionizer.sliceList t []) = 0 := rfl
    rw [h0]
    exact Nat.zero_le _
  | cons m rest =>
    obtain ⟨s, e, h⟩ := m
    have hpw : ((s, e, h) :: rest).Pairwise (fun a b => a.1 ≤ b.1) := by
      rw [← hps]
      exact pairwise_headerPositions t
    have hprops : ∀ m ∈ (s, e, h) :: rest, m.2.2 ∈ RobustSectionizer.SECTION_HEADERS ∧
        m.2.1 = m.1 + m.2.2.length ∧ ciHead m.2.2 (t.drop m.1) = true := by
      intro m hm
      apply mem_headerPositions
      rw [hps]
      exact hm
    have hmain := ledger_ind t rest s e h hpw hprops
    obtain ⟨hmem, hee, hci⟩ := hprops (s, e, h) (List.mem_cons_self _ _)
    simp only at hmem hci
    have hfirst : firstIs (fun b => decide ('a' ≤ pyLower b) &&
        decide (pyLower b ≤ 'z')) h = true := by
      have hg := List.all_eq_true.mp headers_good h hmem
      simp only [hdrGood, Bool.and_eq_true] at hg
      exact hg.1.2
    have hhard : firstIs hardC (t.drop s) = true := hard_head_of_ciHead hfirst hci
    have hsup := cleanLen_superadd_hard hhard (t.take s)
    rw [List.take_append_drop] at hsup
    omega

theorem nlnl_ws : ∀ c ∈ RobustSectionizer.nlnl, pyIsSpace c = true := by
  intro c hc
  simp only [RobustSectionizer.nlnl, List.mem_cons, List.not_mem_nil, or_false] at hc
  rcases hc with rfl | rfl <;> decide

theorem targetSum_cons (v : Text) (l : List Text) :
    targetSum (v :: l) = costOf v + targetSum l := by
  simp [targetSum]

theorem targetSum_append (a b : List Text) :
    targetSum (a ++ b) = targetSum a + targetSum b := by
  simp [targetSum]

theorem joinStep_clean_le (acc v : Text) :
    (clean_text (RobustSectionizer.joinStep acc v)).length ≤
      (clean_text acc).length + costOf v := by
  rw [RobustSectionizer.joinStep, costOf]
  by_cases hv : v.isEmpty
  · rw [if_pos hv]
    have hveq : v = [] := by
      cases v with
      | nil => rfl
      | cons a as => simp at hv
    subst hveq
    by_cases ha : acc.isEmpty
    · rw [if_pos ha]
      have haeq : acc = [] := by
        cases acc with
        | nil => rfl
        | cons a as => simp at ha
      subst haeq
      omega
    · rw [if_neg ha, List.append_nil]
      rw [clean_app_allws nlnl_ws acc]
      omega
  · rw [if_neg hv]
    by_cases ha : acc.isEmpty
    · rw [if_pos ha]
      have haeq : acc = [] := by
        cases acc with
        | nil => rfl
        | cons a as => simp at ha
      subst haeq
      omega
    · rw [if_neg ha]
      have h1 := clean_subadd4 (acc ++ RobustSectionizer.nlnl) v
      rw [clean_app_allws nlnl_ws acc] at h1
      omega

theorem foldl_joinStep_le (vs : List Text) : ∀ acc : Text,
    (clean_text (vs.foldl RobustSectionizer.joinStep acc)).length ≤
      (clean_text acc).length + targetSum vs := by
  induction vs with
  | nil =>
    intro acc
    simp [targetSum]
  | cons v vs2 ih =>
    intro acc
    rw [List.foldl_cons]
    refine le_trans (ih _) ?_
    have h := joinStep_clean_le acc v
    rw [targetSum_cons]
    omega

theorem clean_nil : clean_text ([] : Text) = [] := rfl

theorem joinStep_nil_left (v : Text) : RobustSectionizer.joinStep [] v = v := rfl

theorem joinSlices_clean_le (vs : List Text) :
    (clean_text (RobustSectionizer.joinSlices vs)).length ≤ targetSum vs - 4 := by
  cases vs with
  | nil =>
    rw [RobustSectionizer.joinSlices]
    simp [clean_nil, targetSum]
  | cons v vs2 =>
    by_cases hv : v.isEmpty
    · have hveq : v = [] := by
        cases v with
        | nil => rfl
        | cons a as => simp at hv
      subst hveq
      have h0 : RobustSectionizer.joinSlices ([] :: vs2) = RobustSectionizer.joinSlices vs2 := rfl
      rw [h0]
      refine le_trans (joinSlices_clean_le vs2) ?_
      rw [targetSum_cons]
      omega
    · have h0 : RobustSectionizer.joinSlices (v :: vs2) =
          vs2.foldl RobustSectionizer.joinStep v := by
        rw [RobustSectionizer.joinSlices, List.foldl_cons, joinStep_nil_left]
      rw [h0]
      refine le_trans (foldl_joinStep_le vs2 v) ?_
      rw [targetSum_cons, costOf, if_neg hv]
      omega

theorem joinSlices_all_empty : ∀ {vs : List Text}, (∀ v ∈ vs, v.isEmpty = true) →
    RobustSectionizer.joinSlices vs = [] := by
  intro vs
  induction vs with
  | nil => intro _; rfl
  | cons v vs2 ih =>
    intro h
    have hveq : v = [] := by
      have hv := h v (List.mem_cons_self _ _)
      cases v with
      | nil => rfl
      | cons a as => simp at hv
    subst hveq
    have h0 : RobustSectionizer.joinSlices ([] :: vs2) = RobustSectionizer.joinSlices vs2 := rfl
    rw [h0]
    exact ih (fun u hu => h u (List.mem_cons_of_mem _ hu))

theorem targetSum_ge4 : ∀ {vs : List Text}, (∃ v ∈ vs, v.isEmpty = false) →
    4 ≤ targetSum vs := by
  intro vs
  induction vs with
  | nil =>
    intro h
    obtain ⟨v, hv, _⟩ := h
    cases hv
  | cons v vs2 ih =>
    intro h
    obtain ⟨u, hu, hune⟩ := h
    rw [targetSum_cons]
    rcases List.mem_cons.mp hu with rfl | hmem
    · rw [costOf, if_neg (by rw [hune]; exact Bool.false_ne_true)]
      omega
    · have := ih ⟨u, hmem, hune⟩
      omega

theorem joinSlices_bound {vs : List Text}
    (hne : (RobustSectionizer.joinSlices vs).isEmpty = false) :
    (clean_text (RobustSectionizer.joinSlices vs)).length + 4 ≤ targetSum vs := by
  have h1 := joinSlices_clean_le vs
  have h4 : 4 ≤ targetSum vs := by
    refine targetSum_ge4 ?_
    by_contra hno
    push_neg at hno
    have hall : ∀ v ∈ vs, v.isEmpty = true := by
      intro v hv
      have := hno v hv
      cases hb : v.isEmpty with
      | true => rfl
      | false => exact absurd hb this
    rw [joinSlices_all_empty hall] at hne
    cases hne
  omega

theorem flatten_empty_of_all : ∀ {ws : List Text}, (∀ v ∈ ws, v.isEmpty = true) →
    ws.flatten = [] := by
  intro ws
  induction ws with
  | nil => intro _; rfl
  | cons v ws2 ih =>
    intro h
    have hveq : v = [] := by
      have hv := h v (List.mem_cons_self _ _)
      cases v with
      | nil => rfl
      | cons a as => simp at hv
    rw [List.flatten_cons, hveq, List.nil_append]
    exact ih (fun u hu => h u (List.mem_cons_of_mem _ hu))

theorem flatten_clean_le (ws : List Text) :
    (clean_text ws.flatten).length ≤ targetSum ws - 4 := by
  induction ws with
  | nil =>
    simp [clean_nil, targetSum]
  | cons v ws2 ih =>
    rw [List.flatten_cons, targetSum_cons]
    by_cases hv : v.isEmpty
    · have hveq : v = [] := by
        cases v with
        | nil => rfl
        | cons a as => simp at hv
      subst hveq
      rw [List.nil_append]
      have hc : costOf [] = 0 := rfl
      rw [hc]
      simpa using ih
    · by_cases hf : ws2.flatten.isEmpty
      · have hfeq : ws2.flatten = [] := by
          cases hfl : ws2.flatten with
          | nil => rfl
          | cons a as => rw [hfl] at hf; simp at hf
        rw [hfeq, List.append_nil, costOf, if_neg hv]
        omega
      · have h4 := clean_subadd4 v ws2.flatten
        have hge : 4 ≤ targetSum ws2 := by
          refine targetSum_ge4 ?_
          by_contra hno
          push_neg at hno
          have hall : ∀ u ∈ ws2, u.isEmpty = true := by
            intro u hu
            have := hno u hu
            cases hb : u.isEmpty with
            | true => rfl
            | false => exact absurd hb this
          rw [flatten_empty_of_all hall] at hf
          exact hf rfl
        rw [costOf, if_neg hv]
        omega

theorem dedupNames_not_seen : ∀ (l seen : List String) (n : String),
    n ∈ RobustSectionizer.dedupNames seen l → ¬n ∈ seen := by
  intro l
  induction l with
  | nil => intro seen n h; cases h
  | cons m ms ih =>
    intro seen n h
    rw [RobustSectionizer.dedupNames] at h
    by_cases hm : seen.contains m = true
    · rw [if_pos hm] at h
      exact ih seen n h
    · rw [if_neg hm] at h
      rcases List.mem_cons.mp h with rfl | hmem
      · intro hns
        exact hm (by simpa using hns)
      · have h2 := ih (m :: seen) n hmem
        exact fun hns => h2 (List.mem_cons_of_mem _ hns)

theorem dedupNames_nodup : ∀ (l seen : List String),
    (RobustSectionizer.dedupNames seen l).Nodup := by
  intro l
  induction l with
  | nil => intro seen; exact List.Pairwise.nil
  | cons m ms ih =>
    intro seen
    rw [RobustSectionizer.dedupNames]
    by_cases hm : seen.contains m = true
    · rw [if_pos hm]
      exact ih seen
    · rw [if_neg hm]
      rw [List.nodup_cons]
      refine ⟨?_, ih (m :: seen)⟩
      intro hmem
      exact dedupNames_not_seen ms (m :: seen) m hmem (List.mem_cons_self _ _)

theorem mem_dedupNames : ∀ (l seen : List String) (n : String), n ∈ l →
    n ∈ seen ∨ n ∈ RobustSectionizer.dedupNames seen l := by
  intro l
  induction l with
  | nil => intro seen n h; cases h
  | cons m ms ih =>
    intro seen n h
    rw [RobustSectionizer.dedupNames]
    by_cases hm : seen.contains m = true
    · rw [if_pos hm]
      rcases List.mem_cons.mp h with rfl | hmem
      · exact Or.inl (by simpa using hm)
      · exact ih seen n hmem
    · rw [if_neg hm]
      rcases List.mem_cons.mp h with rfl | hmem
      · exact Or.inr (List.mem_cons_self _ _)
      · rcases ih (m :: seen) n hmem with hs | hd
        · rcases List.mem_cons.mp hs with rfl | hs2
          · exact Or.inr (List.mem_cons_self _ _)
          · exact Or.inl hs2
        · exact Or.inr (List.mem_cons_of_mem _ hd)

theorem dedupNames_sub : ∀ (l seen : List String) (n : String),
    n ∈ RobustSectionizer.dedupNames seen l → n ∈ l := by
  intro l
  induction l with
  | nil => intro seen n h; cases h
  | cons m ms ih =>
    intro seen n h
    rw [RobustSectionizer.dedupNames] at h
    by_cases hm : seen.contains m = true
    · rw [if_pos hm] at h
      exact List.mem_cons_of_mem _ (ih seen n h)
    · rw [if_neg hm] at h
      rcases List.mem_cons.mp h with rfl | hmem
      · exact List.mem_cons_self _ _
      · exact List.mem_cons_of_mem _ (ih (m :: seen) n hmem)

theorem sum_zero_of_not_mem {k : String} (c : Nat) : ∀ {ns : List String}, ¬k ∈ ns →
    (ns.map fun n => if k = n then c else 0).sum = 0 := by
  intro ns
  induction ns with
  | nil => intro _; rfl
  | cons n ns2 ih =>
    intro h
    rw [List.map_cons, List.sum_cons]
    have hk : ¬k = n := fun he => h (he ▸ List.mem_cons_self _ _)
    rw [if_neg hk, ih (fun hm => h (List.mem_cons_of_mem _ hm))]

theorem sum_indicator {k : String} (c : Nat) : ∀ {names : List String}, names.Nodup →
    k ∈ names → (names.map fun n => if k = n then c else 0).sum = c := by
  intro names
  induction names with
  | nil => intro _ hk; cases hk
  | cons n ns ih =>
    intro hnd hk
    rw [List.nodup_cons] at hnd
    rw [List.map_cons, List.sum_cons]
    rcases List.mem_cons.mp hk with rfl | hmem
    · rw [if_pos rfl, sum_zero_of_not_mem c hnd.1]
      omega
    · have hk2 : ¬k = n := by
        intro he
        subst he
        exact hnd.1 hmem
      rw [if_neg hk2, ih hnd.2 hmem]
      omega

theorem sum_map_add {α : Type} (l : List α) (f g : α → Nat) :
    (l.map fun x => f x + g x).sum = (l.map f).sum + (l.map g).sum := by
  induction l with
  | nil => rfl
  | cons x l2 ih =>
    simp only [List.map_cons, List.sum_cons]
    omega

theorem sum_map_le {α : Type} (l : List α) (f g : α → Nat) (h : ∀ x ∈ l, f x ≤ g x) :
    (l.map f).sum ≤ (l.map g).sum := by
  induction l with
  | nil => exact le_refl _
  | cons x l2 ih =>
    simp only [List.map_cons, List.sum_cons]
    have h1 := h x (List.mem_cons_self _ _)
    have h2 := ih (fun y hy => h y (List.mem_cons_of_mem _ hy))
    omega

theorem partition_sum (names : List String) (hnd : names.Nodup) :
    ∀ (L : List (String × Text)), (∀ p ∈ L, p.1 ∈ names) →
      (names.map fun n =>
        targetSum (L.filterMap fun p => if p.1 = n then some p.2 else none)).sum
        = (L.map fun p => costOf p.2).sum := by
  intro L
  induction L with
  | nil =>
    intro _
    have h0 : (names.map fun n =>
        targetSum (List.filterMap (fun p : String × Text =>
          if p.1 = n then some p.2 else none) [])).sum =
        (names.map fun _ => 0).sum := by
      refine congrArg List.sum (List.map_congr_left (fun n _ => ?_))
      rfl
    rw [h0]
    simp
  | cons p L2 ih =>
    intro hcov
    have hstep : ∀ n : String,
        (List.filterMap (fun q : String × Text => if q.1 = n then some q.2 else none)
          (p :: L2)) =
        (if p.1 = n then [p.2] else []) ++
          L2.filterMap fun q => if q.1 = n then some q.2 else none := by
      intro n
      rw [List.filterMap_cons]
      by_cases h : p.1 = n
      · rw [if_pos h, if_pos h]
        rfl
      · rw [if_neg h, if_neg h]
        rfl
    have hmap : (names.map fun n =>
        targetSum ((p :: L2).filterMap fun q => if q.1 = n then some q.2 else none)) =
        names.map fun n => ((if p.1 = n then costOf p.2 else 0) +
          targetSum (L2.filterMap fun q => if q.1 = n then some q.2 else none)) := by
      refine List.map_congr_left (fun n _ => ?_)
      rw [hstep n, targetSum_append]
      congr 1
      by_cases h : p.1 = n
      · rw [if_pos h, if_pos h]
        simp [targetSum]
      · rw [if_neg h, if_neg h]
        rfl
    rw [hmap, sum_map_add]
    rw [sum_indicator (costOf p.2) hnd (hcov p (List.mem_cons_self _ _))]
    rw [List.map_cons, List.sum_cons]
    rw [ih (fun q hq => hcov q (List.mem_cons_of_mem _ hq))]

theorem mem_fst_lookup_isSome : ∀ (l : List (String × Text)) (n : String),
    n ∈ l.map Prod.fst → ∃ v, l.lookup n = some v := by
  intro l
  induction l with
  | nil => intro n h; cases h
  | cons p l2 ih =>
    intro n h
    obtain ⟨k, v⟩ := p
    rw [List.map_cons] at h
    by_cases heq : n = k
    · exact ⟨v, by simp [List.lookup, heq]⟩
    · have hb : (n == k) = false := by simp [heq]
      have hl : ((k, v) :: l2).lookup n = l2.lookup n := by
        simp [List.lookup, hb]
      rw [hl]
      refine ih n ?_
      rcases List.mem_cons.mp h with h1 | h2
      · exact absurd h1 heq
      · exact h2

theorem lookup_extract (t : Text) {n : String}
    (hn : RobustSectionizer.sectionKeys.contains n = true) :
    (RobustSectionizer.extract_sections t).lookup n =
      some (RobustSectionizer.joinSlices (RobustSectionizer.sliceValues t n)) := by
  rw [RobustSectionizer.extract_sections, RobustSectionizer.extractGo_eq_foldl, RobustSectionizer.foldl_updateSec_lookup]
  have hmem : n ∈ RobustSectionizer.initSections.map Prod.fst := by
    have h2 : n ∈ RobustSectionizer.sectionKeys := by simpa using hn
    exact h2
  obtain ⟨v, hv⟩ := mem_fst_lookup_isSome _ n hmem
  have hv0 : v = [] := RobustSectionizer.lookup_all_nil (by decide) hv
  rw [hv, hv0]
  rfl

theorem value_bound (t : Text) {n : String}
    (hn : RobustSectionizer.sectionKeys.contains n = true) :
    costOf (((RobustSectionizer.extract_sections t).lookup n).getD []) ≤
      targetSum (RobustSectionizer.sliceValues t n) := by
  rw [lookup_extract t hn]
  have hg : (some (RobustSectionizer.joinSlices
      (RobustSectionizer.sliceValues t n))).getD ([] : Text) =
      RobustSectionizer.joinSlices (RobustSectionizer.sliceValues t n) := rfl
  rw [hg, costOf]
  by_cases he : (RobustSectionizer.joinSlices (RobustSectionizer.sliceValues t n)).isEmpty
  · rw [if_pos he]
    exact Nat.zero_le _
  · rw [if_neg he]
    have hb : (RobustSectionizer.joinSlices
        (RobustSectionizer.sliceValues t n)).isEmpty = false := by
      cases hbb : (RobustSectionizer.joinSlices
          (RobustSectionizer.sliceValues t n)).isEmpty with
      | false => rfl
      | true => exact absurd hbb he
    exact joinSlices_bound hb

theorem targetSum_filter_le (l : List Text) :
    targetSum (l.filter fun v => !v.isEmpty) ≤ targetSum l := by
  induction l with
  | nil => exact le_refl _
  | cons v l2 ih =>
    rw [List.filter_cons]
    by_cases hv : (!v.isEmpty) = true
    · rw [if_pos hv, targetSum_cons, targetSum_cons]
      omega
    · rw [if_neg hv, targetSum_cons]
      omega

theorem targetSum_map {α : Type} (l : List α) (f : α → Text) :
    targetSum (l.map f) = (l.map fun x => costOf (f x)).sum := by
  simp [targetSum, List.map_map]
  rfl

theorem concat_clean_le (t : Text) :
    (clean_text (RobustSectionizer.concatValues t)).length ≤ (clean_text t).length := by
  rw [RobustSectionizer.concatValues]
  refine le_trans (flatten_clean_le _) ?_
  have hfil := targetSum_filter_le
    ((RobustSectionizer.docOrderNames t).map fun n =>
      ((RobustSectionizer.extract_sections t).lookup n).getD [])
  have hnodup : (RobustSectionizer.docOrderNames t).Nodup := dedupNames_nodup _ []
  have hcov : ∀ p ∈ RobustSectionizer.sliceList t (RobustSectionizer.headerPositions t),
      p.1 ∈ RobustSectionizer.docOrderNames t := by
    intro p hp
    have h1 : p.1 ∈ (RobustSectionizer.sliceList t
        (RobustSectionizer.headerPositions t)).map Prod.fst := List.mem_map_of_mem _ hp
    rcases mem_dedupNames _ [] p.1 h1 with h0 | h2
    · cases h0
    · exact h2
  have hkeys : ∀ n ∈ RobustSectionizer.docOrderNames t,
      RobustSectionizer.sectionKeys.contains n = true := by
    intro n hnd
    have h1 := dedupNames_sub _ [] n hnd
    rw [List.mem_map] at h1
    obtain ⟨p, hp, hpn⟩ := h1
    have := List.all_eq_true.mp (RobustSectionizer.sliceList_all_keys t (RobustSectionizer.headerPositions t)) p hp
    rw [← hpn]
    exact this
  have h2 : targetSum ((RobustSectionizer.docOrderNames t).map fun n =>
      ((RobustSectionizer.extract_sections t).lookup n).getD []) ≤
      ((RobustSectionizer.docOrderNames t).map fun n =>
        targetSum (RobustSectionizer.sliceValues t n)).sum := by
    rw [targetSum_map]
    exact sum_map_le _ _ _ (fun n hn => value_bound t (hkeys n hn))
  have h3 : ((RobustSectionizer.docOrderNames t).map fun n =>
      targetSum (RobustSectionizer.sliceValues t n)).sum =
      ((RobustSectionizer.sliceList t (RobustSectionizer.headerPositions t)).map
        fun p => costOf p.2).sum :=
    partition_sum _ hnodup _ hcov
  have h4 : ((RobustSectionizer.sliceList t (RobustSectionizer.headerPositions t)).map
      fun p => costOf p.2).sum ≤
      ledgerSum (RobustSectionizer.sliceList t (RobustSectionizer.headerPositions t)) := by
    rw [ledgerSum]
    refine sum_map_le _ _ _ (fun p hp => ?_)
    rw [costOf]
    by_cases hpe : p.2.isEmpty
    · rw [if_pos hpe, if_pos hpe]
    · rw [if_neg hpe, if_neg hpe]
      omega
  have h5 := ledger_top t
  omega

/-- C7: for every raw text, concatenating all non-empty section values of
the returned SectionMap in document order and normalizing the result
produces a string whose length is at most the length of the normalized raw
text - the sectionizer never fabricates characters that are not drawn from
the input. -/
theorem claim_C7 (t : Text) :
    (clean_text (RobustSectionizer.concatValues t)).length ≤ (clean_text t).length :=
  concat_clean_le t

end MDH
